import Mathlib

/-!
Verification of the invoice-analyzer application (src/streamlit_app.py).

The application has no algorithmic core of its own: it decodes an uploaded
image, re-encodes it as PNG and base64-serializes it, sends it to an external
chat-completion endpoint, strips a markdown code fence from the response,
parses the remainder with Python's json.loads, renders the parsed mapping in
a fixed layout (with "N/A" defaults) and offers JSON/CSV exports.

This file shallowly embeds those steps:
  * `Json` and `parseVal`/`listParse` model Python's `json.loads` (the
    CPython pure-python scanner: JSON strings with escapes, numbers, the
    constants NaN, Infinity, -Infinity accepted by default, objects with
    last-duplicate-wins dict construction, arrays, strict control-character
    rejection in strings).  Numbers are modelled symbolically by their
    source lexeme; lone-surrogate \uXXXX escapes (which CPython tolerates)
    are rejected since Lean strings cannot hold them.
  * `pyStripL` models `str.strip()` (Python's whitespace set),
    `fenceSliceL` the fixed-offset fence slicing of `extract_invoice_data`
    (lines 81-86), `responseToResult` the composite
    strip-fence-then-json.loads step.
-/

/-- The values produced by Python's `json.loads`: None, bool, str, int/float
(kept symbolically as the number's source lexeme, including the non-standard
constants NaN, Infinity, -Infinity), list, dict (an insertion-ordered
association list with unique keys). -/
inductive Json where
  | null : Json
  | bool (b : Bool) : Json
  | num (lexeme : String) : Json
  | str (s : String) : Json
  | arr (elems : List Json) : Json
  | obj (members : List (String × Json)) : Json
deriving Repr, Inhabited

/-- JSON's whitespace characters, the ones skipped by `json.loads`. -/
def jsonWs (c : Char) : Bool :=
  c = ' ' || c = '\t' || c = '\n' || c = '\r'

/-- Python's `str.strip()` whitespace set (`str.isspace` characters). -/
def pyWs (c : Char) : Bool :=
  let n := c.toNat
  (9 ≤ n && n ≤ 13) || n = 32 || (28 ≤ n && n ≤ 31) || n = 133 || n = 160 ||
  n = 5760 || (8192 ≤ n && n ≤ 8202) || n = 8232 || n = 8233 || n = 8239 ||
  n = 8287 || n = 12288

/-- Skip JSON whitespace, as the decoder does between tokens. -/
def skipWs (cs : List Char) : List Char := cs.dropWhile jsonWs

/-- Python `str.strip()` on a character list: drop whitespace at both ends. -/
def pyStripL (l : List Char) : List Char :=
  ((l.dropWhile pyWs).reverse.dropWhile pyWs).reverse

/-- Python `s.startswith(lit)`. -/
def isLit (lit : String) (cs : List Char) : Bool := lit.data.isPrefixOf cs

/-- Value of one hexadecimal digit (both cases), as accepted by `\uXXXX`. -/
def hexDigitVal (c : Char) : Option Nat :=
  if c.isDigit then some (c.toNat - 48)
  else if 'a' ≤ c && c ≤ 'f' then some (c.toNat - 87)
  else if 'A' ≤ c && c ≤ 'F' then some (c.toNat - 55)
  else none

/-- Value of a 4-hex-digit escape. -/
def hex4Val (a b c d : Char) : Option Nat :=
  match hexDigitVal a, hexDigitVal b, hexDigitVal c, hexDigitVal d with
  | some va, some vb, some vc, some vd =>
      some (va * 4096 + vb * 256 + vc * 16 + vd)
  | _, _, _, _ => none

/-- The eight short backslash escapes of CPython's BACKSLASH table. -/
def escChar (e : Char) : Option Char :=
  if e = '"' then some '"'
  else if e = '\\' then some '\\'
  else if e = '/' then some '/'
  else if e = 'b' then some '\x08'
  else if e = 'f' then some '\x0c'
  else if e = 'n' then some '\n'
  else if e = 'r' then some '\r'
  else if e = 't' then some '\t'
  else none

/-- One step of the JSON string scanner, with `go` the continuation for the
remaining input (tied by fuel in `parseStr`).  Scans up to and including the
closing quote, decoding escapes as CPython's `py_scanstring` does in strict
mode: raw control characters below 0x20 are rejected, the eight short
escapes and `\uXXXX` (with surrogate-pair combination) are decoded.
Divergence from CPython: a lone surrogate escape is rejected (Lean
characters are unicode scalar values). -/
def parseStrF (go : List Char → Option (List Char × List Char)) :
    List Char → Option (List Char × List Char) := fun cs =>
  match cs with
  | [] => none
  | c :: rest =>
    if c = '"' then some ([], rest)
    else if c = '\\' then
      match rest with
      | [] => none
      | e :: rest1 =>
        if e = 'u' then
          match rest1 with
          | a :: b :: c2 :: d :: rest2 =>
            (match hex4Val a b c2 d with
             | none => none
             | some n =>
               if 55296 ≤ n && n ≤ 56319 then
                 match rest2 with
                 | s1 :: s2 :: a2 :: b2 :: c3 :: d2 :: rest3 =>
                   if s1 = '\\' && s2 = 'u' then
                     match hex4Val a2 b2 c3 d2 with
                     | none => none
                     | some m =>
                       if 56320 ≤ m && m ≤ 57343 then
                         (fun p : List Char × List Char =>
                           (Char.ofNat
                              (65536 + (n - 55296) * 1024 + (m - 56320)) ::
                                p.1, p.2)) <$> go rest3
                       else none
                   else none
                 | _ => none
               else if 56320 ≤ n && n ≤ 57343 then none
               else
                 (fun p : List Char × List Char =>
                   (Char.ofNat n :: p.1, p.2)) <$> go rest2)
          | _ => none
        else
          match escChar e with
          | some ch =>
            (fun p : List Char × List Char =>
              (ch :: p.1, p.2)) <$> go rest1
          | none => none
    else if c.toNat < 32 then none
    else (fun p : List Char × List Char => (c :: p.1, p.2)) <$> go rest

/-- The JSON string scanner.  Each step consumes at least one character, so
any fuel exceeding the input length computes the scan to completion. -/
def parseStr : Nat → List Char → Option (List Char × List Char)
  | 0, _ => none
  | Nat.succ f, cs => parseStrF (parseStr f) cs

/-- Integer part of the JSON number grammar: `0` or a nonzero digit followed
by digits (the group `(-?(?:0|[1-9]\d+|[1-9]))` of CPython's NUMBER_RE,
without the sign). -/
def parseIntPart : List Char → Option (List Char × List Char)
  | [] => none
  | c :: rest =>
    if c = '0' then some (['0'], rest)
    else if c.isDigit then
      some (c :: rest.takeWhile Char.isDigit, rest.dropWhile Char.isDigit)
    else none

/-- Optional fraction part `(\.\d+)?`: consumed only when a dot is followed
by at least one digit. -/
def parseFrac : List Char → List Char × List Char
  | [] => ([], [])
  | c :: r =>
    if c = '.' then
      if (r.takeWhile Char.isDigit).isEmpty then ([], c :: r)
      else (c :: r.takeWhile Char.isDigit, r.dropWhile Char.isDigit)
    else ([], c :: r)

/-- Optional exponent part `([eE][-+]?\d+)?`: consumed only when complete. -/
def parseExp : List Char → List Char × List Char
  | [] => ([], [])
  | e :: r =>
    if e = 'e' || e = 'E' then
      match r with
      | [] => ([], [e])
      | s :: r2 =>
        if s = '+' || s = '-' then
          if (r2.takeWhile Char.isDigit).isEmpty then ([], e :: s :: r2)
          else (e :: s :: r2.takeWhile Char.isDigit, r2.dropWhile Char.isDigit)
        else
          if (r.takeWhile Char.isDigit).isEmpty then ([], e :: r)
          else (e :: r.takeWhile Char.isDigit, r.dropWhile Char.isDigit)
    else ([], e :: r)

/-- Match CPython's NUMBER_RE at the start of the input, returning the
matched lexeme and the remaining input. -/
def parseNum (cs : List Char) : Option (String × List Char) :=
  match cs with
  | [] => none
  | c :: cs1 =>
    if c = '-' then
      match parseIntPart cs1 with
      | none => none
      | some (ip, cs2) =>
        let fr := parseFrac cs2
        let ex := parseExp fr.2
        some (String.mk ('-' :: ip ++ fr.1 ++ ex.1), ex.2)
    else
      match parseIntPart (c :: cs1) with
      | none => none
      | some (ip, cs2) =>
        let fr := parseFrac cs2
        let ex := parseExp fr.2
        some (String.mk (ip ++ fr.1 ++ ex.1), ex.2)

/-- Python `dict` item assignment `d[k] = v`: an existing key keeps its
position and gets the new value, a new key is appended. -/
def dictInsert (k : String) (v : Json) :
    List (String × Json) → List (String × Json)
  | [] => [(k, v)]
  | (k2, v2) :: rest =>
    if k2 = k then (k, v) :: rest else (k2, v2) :: dictInsert k v rest

/-- Python `dict(pairs)`: insert the parsed members in order, so a
duplicated key keeps its first position but its last value. -/
def dictOfPairs (ps : List (String × Json)) : List (String × Json) :=
  ps.foldl (fun d p => dictInsert p.1 p.2 d) []

/-- One value of CPython's `py_scan_once`, dispatching on the first
character: string, object, array, the literals null/true/false, a number,
or the constants NaN, Infinity, -Infinity.  The continuations `str`, `obj`
and `arr` scan a string body, the members of a nonempty object and the
elements of a nonempty array; fuel (in `parseVal`) ties the knot. -/
def parseValF (str : List Char → Option (List Char × List Char))
    (obj : List Char → Option (List (String × Json) × List Char))
    (arr : List Char → Option (List Json × List Char)) :
    List Char → Option (Json × List Char) := fun cs =>
  match cs with
  | [] => none
  | c :: rest =>
    if c = '"' then
      match str rest with
      | some (sc, r) => some (Json.str (String.mk sc), r)
      | none => none
    else if c = '{' then
      match skipWs rest with
      | [] => none
      | c2 :: r2 =>
        if c2 = '}' then some (Json.obj [], r2)
        else
          match obj (c2 :: r2) with
          | some (ps, r3) => some (Json.obj (dictOfPairs ps), r3)
          | none => none
    else if c = '[' then
      match skipWs rest with
      | [] => none
      | c2 :: r2 =>
        if c2 = ']' then some (Json.arr [], r2)
        else
          match arr (c2 :: r2) with
          | some (vs, r3) => some (Json.arr vs, r3)
          | none => none
    else if isLit "null" cs then some (Json.null, cs.drop 4)
    else if isLit "true" cs then some (Json.bool true, cs.drop 4)
    else if isLit "false" cs then some (Json.bool false, cs.drop 5)
    else
      match parseNum cs with
      | some (lex, r) => some (Json.num lex, r)
      | none =>
        if isLit "NaN" cs then some (Json.num "NaN", cs.drop 3)
        else if isLit "Infinity" cs then some (Json.num "Infinity", cs.drop 8)
        else if isLit "-Infinity" cs then
          some (Json.num "-Infinity", cs.drop 9)
        else none

/-- The members of a nonempty object, entered at the first key (whitespace
already skipped): `"key" ws : ws value ws` then `,` (more members) or `}`.
A trailing comma is rejected, as in CPython.  `str`, `val` and `obj` are
the continuations for a key, a member value and the remaining members. -/
def parseObjEntriesF (str : List Char → Option (List Char × List Char))
    (val : List Char → Option (Json × List Char))
    (obj : List Char → Option (List (String × Json) × List Char)) :
    List Char → Option (List (String × Json) × List Char) := fun cs =>
  match cs with
  | [] => none
  | c :: r =>
    if c = '"' then
      match str r with
      | none => none
      | some (kc, r2) =>
        match skipWs r2 with
        | [] => none
        | c3 :: r3 =>
          if c3 = ':' then
            match val (skipWs r3) with
            | none => none
            | some (v, r4) =>
              match skipWs r4 with
              | [] => none
              | c5 :: r5 =>
                if c5 = ',' then
                  match obj (skipWs r5) with
                  | some (ps, r6) => some ((String.mk kc, v) :: ps, r6)
                  | none => none
                else if c5 = '}' then some ([(String.mk kc, v)], r5)
                else none
          else none
    else none

/-- The elements of a nonempty array, entered at the first element
(whitespace already skipped).  A trailing comma is rejected.  `val` and
`arr` are the continuations for an element and the remaining elements. -/
def parseArrEntriesF (val : List Char → Option (Json × List Char))
    (arr : List Char → Option (List Json × List Char)) :
    List Char → Option (List Json × List Char) := fun cs =>
  match val cs with
  | none => none
  | some (v, r) =>
    match skipWs r with
    | [] => none
    | c2 :: r2 =>
      if c2 = ',' then
        match arr (skipWs r2) with
        | some (vs, r3) => some (v :: vs, r3)
        | none => none
      else if c2 = ']' then some ([v], r2)
      else none

mutual

/-- The fuel-tied value scanner; `listParse` supplies enough fuel for any
input (every recursion step consumes fuel only after consuming input). -/
def parseVal : Nat → List Char → Option (Json × List Char)
  | 0, _ => none
  | Nat.succ f, cs =>
    parseValF (parseStr f) (parseObjEntries f) (parseArrEntries f) cs

/-- The fuel-tied object-members scanner. -/
def parseObjEntries : Nat → List Char →
    Option (List (String × Json) × List Char)
  | 0, _ => none
  | Nat.succ f, cs =>
    parseObjEntriesF (parseStr f) (parseVal f) (parseObjEntries f) cs

/-- The fuel-tied array-elements scanner. -/
def parseArrEntries : Nat → List Char → Option (List Json × List Char)
  | 0, _ => none
  | Nat.succ f, cs => parseArrEntriesF (parseVal f) (parseArrEntries f) cs

end

/-- `json.loads` on a character list: skip leading whitespace, scan one
value, require only whitespace after it.  The fuel `2 * length + 2` exceeds
the scanner's recursion depth on any input (each nesting level consumes at
least one character). -/
def listParse (cs : List Char) : Option Json :=
  match parseVal (2 * cs.length + 2) (skipWs cs) with
  | some (v, rest) => if (skipWs rest).isEmpty then some v else none
  | none => none

/-- Python `json.loads` on a string. -/
def jsonLoads (s : String) : Option Json := listParse s.data

/-- Python slice `l[a : len - b]` (as in `content[7:-3]`): negative stop
index counts from the end and clamps at zero. -/
def pySliceDrop (l : List Char) (a b : Nat) : List Char :=
  (l.take (l.length - b)).drop a

/-- The fence-slicing step of `extract_invoice_data` (lines 82-86): a body
starting with three backticks and the json tag loses its first 7 and last 3
characters, a body starting with plain three backticks loses its first 3 and
last 3 characters, anything else is untouched. -/
def fenceSliceL (content : List Char) : List Char :=
  if isLit "```json" content then pySliceDrop content 7 3
  else if isLit "```" content then pySliceDrop content 3 3
  else content

/-- Lines 81-86 of the source: `content.strip()` then fence slicing. -/
def stripFence (content : List Char) : List Char :=
  fenceSliceL (pyStripL content)

/-- The fence-stripping-then-`json.loads` step of `extract_invoice_data`
(lines 80-87) applied to a response body: `none` is the raised
`json.JSONDecodeError` that line 89 catches. -/
def responseToResult (content : String) : Option Json :=
  listParse (stripFence content.data)

/-- Python dict lookup `d[k]` (as `Option`): the parsed objects have unique
keys, so first-match lookup agrees with `dict` lookup. -/
def pyLookup : List (String × Json) → String → Option Json
  | [], _ => none
  | (k, v) :: rest, key => if k = key then some v else pyLookup rest key

/-- Python `d.get(k, default)`. -/
def pyGet (d : List (String × Json)) (k : String) (dflt : Json) : Json :=
  (pyLookup d k).getD dflt

/-- Whether a number lexeme denotes a nonzero value: zero iff every digit
before the exponent marker is `0` (`0`, `-0.00`, `0e5`, ... are falsy);
the constants NaN, Infinity, -Infinity are truthy. -/
def numTruthy (lex : String) : Bool :=
  if lex = "NaN" || lex = "Infinity" || lex = "-Infinity" then true
  else
    !(((lex.data.takeWhile (fun c => c ≠ 'e' && c ≠ 'E')).filter
        Char.isDigit).all (fun c => c = '0'))

/-- Python truthiness of a parsed JSON value (`if extracted_data:` and
`if data.get("line_items"):`): None, False, numeric zero, and empty
str/list/dict are falsy. -/
def pyTruthy : Json → Bool
  | Json.null => false
  | Json.bool b => b
  | Json.num lex => numTruthy lex
  | Json.str s => !s.isEmpty
  | Json.arr xs => !xs.isEmpty
  | Json.obj kvs => !kvs.isEmpty

/-- Python `len` on the values it is applied to in the source (a truthy
`line_items` list); other cases are irrelevant there and default to 0. -/
def pyLen : Json → Nat
  | Json.arr xs => xs.length
  | Json.str s => s.length
  | Json.obj kvs => kvs.length
  | _ => 0

/-- Python `repr` of one string, as used inside container reprs: quote
choice (single quotes unless the text has one and no double quote) and
escaping of the backslash, the quote, newline, carriage return, tab and
other control characters.  (Python also `\x`-escapes some non-printable
characters above 0x7f; those never reach a verdict here.) -/
def pyReprStr (s : String) : String :=
  let q : Char := if s.data.contains '\'' && !(s.data.contains '"')
    then '"' else '\''
  let esc : Char → List Char := fun c =>
    if c = '\\' then ['\\', '\\']
    else if c = q then ['\\', q]
    else if c = '\n' then ['\\', 'n']
    else if c = '\r' then ['\\', 'r']
    else if c = '\t' then ['\\', 't']
    else if c.toNat < 32 || c.toNat = 127 then
      ['\\', 'x',
       (if c.toNat / 16 < 10 then Char.ofNat (48 + c.toNat / 16)
        else Char.ofNat (87 + c.toNat / 16 - 10)),
       (if c.toNat % 16 < 10 then Char.ofNat (48 + c.toNat % 16)
        else Char.ofNat (87 + c.toNat % 16 - 10))]
    else [c]
  String.mk (q :: s.data.flatMap esc ++ [q])

mutual

/-- Python `repr` of a parsed JSON value (numbers print their lexeme; for
ints that is exactly Python's repr, for floats an equal-valued decimal). -/
def pyRepr : Json → String
  | Json.null => "None"
  | Json.bool true => "True"
  | Json.bool false => "False"
  | Json.num lex => lex
  | Json.str s => pyReprStr s
  | Json.arr xs => "[" ++ pyReprList xs ++ "]"
  | Json.obj kvs => "\x7b" ++ pyReprObj kvs ++ "\x7d"

/-- Comma-separated reprs of list elements. -/
def pyReprList : List Json → String
  | [] => ""
  | [x] => pyRepr x
  | x :: y :: rest => pyRepr x ++ ", " ++ pyReprList (y :: rest)

/-- Comma-separated `key: value` reprs of dict members. -/
def pyReprObj : List (String × Json) → String
  | [] => ""
  | [(k, v)] => pyReprStr k ++ ": " ++ pyRepr v
  | (k, v) :: kv2 :: rest =>
    pyReprStr k ++ ": " ++ pyRepr v ++ ", " ++ pyReprObj (kv2 :: rest)

end

/-- Python `str()` of a parsed JSON value, as applied by f-string
interpolation and by `st.metric`'s rendering: a str is itself, anything
else is its repr. -/
def pyStr : Json → String
  | Json.str s => s
  | v => pyRepr v

/-- The dict members of a parsed value (`[]` for non-dicts). -/
def objMembers : Json → List (String × Json)
  | Json.obj kvs => kvs
  | _ => []

/-- `pd.DataFrame(rows)` for a list of parsed dicts: the underlying
row data. -/
def asObjRows : Json → List (List (String × Json))
  | Json.arr xs => xs.map objMembers
  | _ => []

/-- The user-visible effects of the page script, in emission order. -/
inductive UIEvent where
  | subheaderShown (t : String) : UIEvent
  | imageShown : UIEvent
  | warningMsg (t : String) : UIEvent
  | errorMsg (t : String) : UIEvent
  | successMsg (t : String) : UIEvent
  | metricShown (label value : String) : UIEvent
  | writeText (t : String) : UIEvent
  | dataframeShown (rows : List (List (String × Json))) : UIEvent
  | extractButtonShown : UIEvent
  | apiCallMade : UIEvent
  | downloadButton (label fileName mime payload : String) : UIEvent
  | jsonView (v : Json) : UIEvent
deriving Repr

/-- `display_extracted_data` (lines 93-138): the fixed layout, with
`data.get(key, "N/A")` defaults for every scalar field, the line-items
table guarded by `if data.get("line_items") and len(data["line_items"]) > 0`,
and the three totals metrics prefixed by `data.get('currency', '')`. -/
def displayExtractedData (data : List (String × Json)) : List UIEvent :=
  let cur := pyStr (pyGet data "currency" (Json.str ""))
  let li := pyGet data "line_items" Json.null
  [UIEvent.subheaderShown "📋 Invoice Information",
   UIEvent.metricShown "Invoice Number"
     (pyStr (pyGet data "invoice_number" (Json.str "N/A"))),
   UIEvent.metricShown "Invoice Date"
     (pyStr (pyGet data "invoice_date" (Json.str "N/A"))),
   UIEvent.metricShown "Due Date"
     (pyStr (pyGet data "due_date" (Json.str "N/A"))),
   UIEvent.subheaderShown "🏢 Vendor Information",
   UIEvent.writeText ("**Name:** " ++
     pyStr (pyGet data "vendor_name" (Json.str "N/A"))),
   UIEvent.writeText ("**Address:** " ++
     pyStr (pyGet data "vendor_address" (Json.str "N/A"))),
   UIEvent.writeText ("**Tax ID:** " ++
     pyStr (pyGet data "vendor_tax_id" (Json.str "N/A"))),
   UIEvent.subheaderShown "👤 Customer Information",
   UIEvent.writeText ("**Name:** " ++
     pyStr (pyGet data "customer_name" (Json.str "N/A"))),
   UIEvent.writeText ("**Address:** " ++
     pyStr (pyGet data "customer_address" (Json.str "N/A"))),
   UIEvent.subheaderShown "📦 Line Items"] ++
  (if pyTruthy li && 0 < pyLen li then
     [UIEvent.dataframeShown (asObjRows li)]
   else [UIEvent.writeText "No line items found"]) ++
  [UIEvent.subheaderShown "💰 Totals",
   UIEvent.metricShown "Subtotal"
     (cur ++ " " ++ pyStr (pyGet data "subtotal" (Json.str "N/A"))),
   UIEvent.metricShown "Tax Amount"
     (cur ++ " " ++ pyStr (pyGet data "tax_amount" (Json.str "N/A"))),
   UIEvent.metricShown "Total Amount"
     (cur ++ " " ++ pyStr (pyGet data "total_amount" (Json.str "N/A")))]

/-- Column list of `pd.DataFrame(rows)` for a list of dicts: every key in
order of first appearance. -/
def dfColumns (rows : List (List (String × Json))) : List String :=
  rows.foldl
    (fun acc row =>
      row.foldl (fun a kv => if a.contains kv.1 then a else a ++ [kv.1]) acc)
    []

/-- csv QUOTE_MINIMAL quoting, as `DataFrame.to_csv` uses: a field is
quoted only when it contains the delimiter, the quote character or a line
break, and embedded quotes are doubled. -/
def csvQuote (s : String) : String :=
  if s.data.any (fun c => c = ',' || c = '"' || c = '\n' || c = '\r') then
    "\"" ++ String.mk (s.data.flatMap
      (fun c => if c = '"' then ['"', '"'] else [c])) ++ "\""
  else s

/-- Join fields with commas. -/
def joinComma : List String → String
  | [] => ""
  | [x] => x
  | x :: y :: rest => x ++ "," ++ joinComma (y :: rest)

/-- `DataFrame(rows).to_csv(index=False)`: one header line of column names
then one line per row (missing cells are NaN and print as empty), each line
terminated by a newline. -/
def dfToCsv (rows : List (List (String × Json))) : String :=
  let cols := dfColumns rows
  joinComma (cols.map csvQuote) ++ "\n" ++
  String.join (rows.map (fun row =>
    joinComma (cols.map (fun k =>
      match pyLookup row k with
      | some v => csvQuote (pyStr v)
      | none => "")) ++ "\n"))

/-- Lines 207-209: the CSV offered for download is built from the
`line_items` value. -/
def lineItemsCsv (li : Json) : String := dfToCsv (asObjRows li)

/-- Newline plus the current indentation, as `json.dumps(indent=2)` emits
between items. -/
def nlIndent (ind : Nat) : List Char := '\n' :: List.replicate ind ' '

/-- One hex digit as `json.dumps` prints it (lowercase). -/
def hexDigitChar (n : Nat) : Char :=
  if n < 10 then Char.ofNat (48 + n) else Char.ofNat (97 + (n - 10))

/-- Four lowercase hex digits of a (sixteen-bit) code unit. -/
def hex4Chars (n : Nat) : List Char :=
  [hexDigitChar (n / 4096 % 16), hexDigitChar (n / 256 % 16),
   hexDigitChar (n / 16 % 16), hexDigitChar (n % 16)]

/-- `json.dumps`'s default (ensure_ascii) escaping of one character:
the two-character escapes for quote, backslash and the five named control
characters, printable ASCII verbatim, and `\uXXXX` otherwise, with a
surrogate pair for astral characters. -/
def escapeChar (c : Char) : List Char :=
  if c = '"' then ['\\', '"']
  else if c = '\\' then ['\\', '\\']
  else if c = '\x08' then ['\\', 'b']
  else if c = '\x0c' then ['\\', 'f']
  else if c = '\n' then ['\\', 'n']
  else if c = '\r' then ['\\', 'r']
  else if c = '\t' then ['\\', 't']
  else if 32 ≤ c.toNat && c.toNat ≤ 126 then [c]
  else if c.toNat < 65536 then '\\' :: 'u' :: hex4Chars c.toNat
  else
    ('\\' :: 'u' :: hex4Chars (55296 + (c.toNat - 65536) / 1024)) ++
    ('\\' :: 'u' :: hex4Chars (56320 + (c.toNat - 65536) % 1024))

/-- Escape a whole string body. -/
def escapeStr (s : List Char) : List Char := s.flatMap escapeChar

/-- A JSON string literal as `json.dumps` prints it. -/
def dumpStr (s : String) : List Char := '"' :: (escapeStr s.data ++ ['"'])

mutual

/-- `json.dumps(v, indent=2)` at the given current indentation: numbers
print their lexeme (for ints exactly Python's output, for floats an
equal-valued decimal), containers open, indent each item by two more
spaces, separate with commas and close on a fresh line; empty containers
print inline. -/
def dumpVal : Nat → Json → List Char
  | _, Json.null => "null".data
  | _, Json.bool true => "true".data
  | _, Json.bool false => "false".data
  | _, Json.num lex => lex.data
  | _, Json.str s => dumpStr s
  | _, Json.arr [] => "[]".data
  | ind, Json.arr (x :: xs) =>
    '[' :: (nlIndent (ind + 2) ++ dumpVal (ind + 2) x ++
      dumpArrTail (ind + 2) xs ++ nlIndent ind ++ [']'])
  | _, Json.obj [] => "\x7b\x7d".data
  | ind, Json.obj (kv :: kvs) =>
    '\x7b' :: (nlIndent (ind + 2) ++ dumpObjEntry (ind + 2) kv ++
      dumpObjTail (ind + 2) kvs ++ nlIndent ind ++ ['\x7d'])

/-- Remaining array items, each preceded by a comma and a fresh
indented line. -/
def dumpArrTail : Nat → List Json → List Char
  | _, [] => []
  | ind, x :: xs => ',' :: (nlIndent ind ++ dumpVal ind x ++ dumpArrTail ind xs)

/-- One `"key": value` member. -/
def dumpObjEntry : Nat → String × Json → List Char
  | ind, (k, v) => dumpStr k ++ ':' :: ' ' :: dumpVal ind v

/-- Remaining object members. -/
def dumpObjTail : Nat → List (String × Json) → List Char
  | _, [] => []
  | ind, kv :: kvs =>
    ',' :: (nlIndent ind ++ dumpObjEntry ind kv ++ dumpObjTail ind kvs)

end

/-- `json.dumps(extracted_data, indent=2)` (line 197). -/
def pyDumps (v : Json) : String := String.mk (dumpVal 0 v)

/-- The session inputs that determine one run of the page script. -/
structure AppInput where
  fileUploaded : Bool
  imageOpens : Bool
  secretKey : Option String
  buttonClicked : Bool
  apiCallSucceeds : Bool
  responseBody : String

/-- Truthiness of `st.secrets.get("OPENAI_API_KEY")` (line 177): absent or
empty means falsy. -/
def keyTruthy : Option String → Bool
  | none => false
  | some s => !s.isEmpty

/-- `extract_invoice_data` after the upload (lines 23-91), given whether
the transport call succeeds and the returned message body: any transport
error or `json.loads` failure is caught by the `except` (line 89), reports
an inline error and returns None.  (The interpolated exception text of the
error message is elided.) -/
def extractModel (ok : Bool) (body : String) : Option Json × List UIEvent :=
  if ok then
    match responseToResult body with
    | some v => (some v, [UIEvent.apiCallMade])
    | none => (none, [UIEvent.apiCallMade, UIEvent.errorMsg "Error extracting data"])
  else (none, [UIEvent.apiCallMade, UIEvent.errorMsg "Error extracting data"])

/-- The main block (lines 168-222): image preview, the key check with its
warning, the extract button, the call, and — only for a truthy parsed
result — the success message, the rendered layout, the two downloads and
the raw-JSON expander.  (A truthy non-dict parsed value would raise inside
the outer `try` and be reported by line 221; no claim depends on that path,
and it is not modelled.) -/
def appEvents (inp : AppInput) : List UIEvent :=
  if !inp.fileUploaded then []
  else if !inp.imageOpens then [UIEvent.errorMsg "Error processing image"]
  else
    [UIEvent.subheaderShown "📸 Uploaded Invoice", UIEvent.imageShown] ++
    (if !(keyTruthy inp.secretKey) then
       [UIEvent.warningMsg
         "Please enter your OpenAI API key in the sidebar to proceed."]
     else
       [UIEvent.extractButtonShown] ++
       (if !inp.buttonClicked then []
        else
          let r := extractModel inp.apiCallSucceeds inp.responseBody
          r.2 ++
          (match r.1 with
           | some data =>
             if pyTruthy data then
               [UIEvent.successMsg "Data extracted successfully!"] ++
               displayExtractedData (objMembers data) ++
               [UIEvent.subheaderShown "📥 Download Options",
                UIEvent.downloadButton "📄 Download JSON" "invoice_data.json"
                  "application/json" (pyDumps data)] ++
               (if pyTruthy (pyGet (objMembers data) "line_items" Json.null)
                then
                  [UIEvent.downloadButton "📊 Download Line Items CSV"
                    "invoice_line_items.csv" "text/csv"
                    (lineItemsCsv
                      (pyGet (objMembers data) "line_items" Json.null))]
                else []) ++
               [UIEvent.jsonView data]
             else []
           | none => [])))

/-- The in-memory result the session holds after the run: the parsed
mapping, or nothing when extraction failed or was never attempted. -/
def appResult (inp : AppInput) : Option Json :=
  if inp.fileUploaded && inp.imageOpens && keyTruthy inp.secretKey &&
      inp.buttonClicked then
    (extractModel inp.apiCallSucceeds inp.responseBody).1
  else none

example : jsonLoads ("\x7b\"a\": \"1\"\x7d") =
    some (Json.obj [("a", Json.str "1")]) := by rfl

example : jsonLoads (" [1, 2.5e3, null, true, \"x\\n\", \x7b\x7d ] ") =
    some (Json.arr [Json.num "1", Json.num "2.5e3", Json.null,
      Json.bool true, Json.str "x\n", Json.obj []]) := by rfl

example : jsonLoads ("hello") = none := by rfl

example : responseToResult ("```json\n\x7b\"a\": \"1\"\x7d\n```") =
    some (Json.obj [("a", Json.str "1")]) := by rfl

example : responseToResult ("```\n\x7b\"a\": \"1\"\x7d\n```") =
    some (Json.obj [("a", Json.str "1")]) := by rfl

example : responseToResult ("  \x7b\"a\": \"1\"\x7d\n") =
    some (Json.obj [("a", Json.str "1")]) := by rfl

example : jsonLoads ("\x7b\"a\": 1, \"b\": 2, \"a\": 3\x7d") =
    some (Json.obj [("a", Json.num "3"), ("b", Json.num "2")]) := by rfl

example : jsonLoads ("[NaN, Infinity, -Infinity]") =
    some (Json.arr [Json.num "NaN", Json.num "Infinity",
      Json.num "-Infinity"]) := by rfl

example : jsonLoads ("\"\\u0041\\ud83d\\ude00\"") =
    some (Json.str "A😀") := by rfl

example : jsonLoads ("01") = none := by rfl
example : jsonLoads ("[1,]") = none := by rfl
example : jsonLoads ("\x7b\"a\":1,\x7d") = none := by rfl

/-- Commuting form of the Python slice `l[a : len - b]`: it equals dropping
the first `a` characters and then keeping all but the last `b`. -/
theorem pySliceDrop_eq_drop_take (l : List Char) (a b : Nat) :
    pySliceDrop l a b = (l.drop a).take ((l.drop a).length - b) := by
  unfold pySliceDrop
  rw [List.take_drop, List.length_drop]
  by_cases h : a + b ≤ l.length
  · have : a + (l.length - a - b) = l.length - b := by omega
    rw [this]
  · have h1 : (l.take (l.length - b)).length ≤ a := by
      simp only [List.length_take]
      omega
    have h2 : (l.take (a + (l.length - a - b))).length ≤ a := by
      simp only [List.length_take]
      omega
    rw [List.drop_of_length_le h1, List.drop_of_length_le h2]

/-- C3: the fence-stripping step is fixed-offset slicing: a stripped body
starting with three backticks and the json tag loses exactly its first 7
and last 3 characters, and one starting with plain three backticks loses
exactly its first 3 and last 3 characters, with no condition on trailing
whitespace or on a closing fence being present. -/
theorem fenceSlice_fixed_offsets (s : List Char) :
    (isLit "```json" s = true →
      fenceSliceL s = (s.drop 7).take ((s.drop 7).length - 3)) ∧
    (isLit "```" s = true → isLit "```json" s = false →
      fenceSliceL s = (s.drop 3).take ((s.drop 3).length - 3)) := by
  constructor
  · intro h
    rw [fenceSliceL, if_pos h]
    exact pySliceDrop_eq_drop_take s 7 3
  · intro h h2
    rw [fenceSliceL, if_neg (by simp [h2]), if_pos h]
    exact pySliceDrop_eq_drop_take s 3 3

/-- Witness for C3 at concrete bodies, including a body whose closing fence
is missing (the last three characters are removed regardless). -/
theorem fenceSlice_fixed_offsets_witness :
    fenceSliceL ("```json\nX\n```".data) = "\nX\n".data ∧
    fenceSliceL ("```\nX\n```".data) = "\nX\n".data ∧
    fenceSliceL ("```json\nno closing fence".data) = "\nno closing fe".data := by
  refine ⟨?_, ?_, ?_⟩
  · exact ((fenceSlice_fixed_offsets ("```json\nX\n```".data)).1
      (by decide)).trans (by decide)
  · exact ((fenceSlice_fixed_offsets ("```\nX\n```".data)).2
      (by decide) (by decide)).trans (by decide)
  · exact ((fenceSlice_fixed_offsets ("```json\nno closing fence".data)).1
      (by decide)).trans (by decide)

/-- C7: CSV export of the one-item line-items sequence from the spec
produces exactly the header row and the data row. -/
theorem lineItems_csv_example :
    lineItemsCsv (Json.arr [Json.obj
      [("description", Json.str "A"), ("quantity", Json.str "2"),
       ("unit_price", Json.str "5"), ("total_price", Json.str "10")]]) =
    "description,quantity,unit_price,total_price\nA,2,5,10\n" := by
  decide

/-- C5: when `line_items` is absent or the empty list, the layout shows the
explicit "No line items found" message and renders no table. -/
theorem display_empty_line_items (d : List (String × Json))
    (h : pyLookup d "line_items" = none ∨
         pyLookup d "line_items" = some (Json.arr [])) :
    UIEvent.writeText "No line items found" ∈ displayExtractedData d ∧
    ∀ rows, UIEvent.dataframeShown rows ∉ displayExtractedData d := by
  have hli : pyGet d "line_items" Json.null = Json.null ∨
      pyGet d "line_items" Json.null = Json.arr [] := by
    rcases h with h | h <;> simp [pyGet, h]
  rcases hli with h2 | h2 <;>
    simp [displayExtractedData, h2, pyTruthy, pyLen]

/-- Witness for C5: a mapping with no `line_items` key, and one with an
explicitly empty list. -/
theorem display_empty_line_items_witness :
    (UIEvent.writeText "No line items found" ∈ displayExtractedData [] ∧
      ∀ rows, UIEvent.dataframeShown rows ∉ displayExtractedData []) ∧
    (UIEvent.writeText "No line items found" ∈
        displayExtractedData [("line_items", Json.arr [])] ∧
      ∀ rows, UIEvent.dataframeShown rows ∉
        displayExtractedData [("line_items", Json.arr [])]) :=
  ⟨display_empty_line_items [] (Or.inl rfl),
   display_empty_line_items [("line_items", Json.arr [])] (Or.inr rfl)⟩

/-- C8: with an uploaded, decodable image but no (or an empty) access key,
the page shows the warning and neither offers the extract trigger nor makes
the outbound call. -/
theorem missing_key_no_extraction (inp : AppInput)
    (h1 : inp.fileUploaded = true) (h2 : inp.imageOpens = true)
    (h3 : keyTruthy inp.secretKey = false) :
    UIEvent.warningMsg
        "Please enter your OpenAI API key in the sidebar to proceed." ∈
      appEvents inp ∧
    UIEvent.apiCallMade ∉ appEvents inp ∧
    UIEvent.extractButtonShown ∉ appEvents inp := by
  simp [appEvents, h1, h2, h3]

/-- Witness for C8: a session with an uploaded image and no key stored. -/
theorem missing_key_no_extraction_witness :
    UIEvent.warningMsg
        "Please enter your OpenAI API key in the sidebar to proceed." ∈
      appEvents ⟨true, true, none, true, true, ""⟩ ∧
    UIEvent.apiCallMade ∉ appEvents ⟨true, true, none, true, true, ""⟩ ∧
    UIEvent.extractButtonShown ∉ appEvents ⟨true, true, none, true, true, ""⟩ :=
  missing_key_no_extraction ⟨true, true, none, true, true, ""⟩ rfl rfl rfl

/-- C10: when the response parses to a falsy value (such as the empty
object), the run shows no success message, renders nothing and offers no
download — exactly as if extraction had failed. -/
theorem falsy_result_presents_nothing (inp : AppInput) (v : Json)
    (h1 : inp.fileUploaded = true) (h2 : inp.imageOpens = true)
    (h3 : keyTruthy inp.secretKey = true) (h4 : inp.buttonClicked = true)
    (h5 : inp.apiCallSucceeds = true)
    (h6 : responseToResult inp.responseBody = some v)
    (h7 : pyTruthy v = false) :
    (∀ t, UIEvent.successMsg t ∉ appEvents inp) ∧
    (∀ l x, UIEvent.metricShown l x ∉ appEvents inp) ∧
    (∀ t, UIEvent.writeText t ∉ appEvents inp) ∧
    (∀ rows, UIEvent.dataframeShown rows ∉ appEvents inp) ∧
    (∀ l f m p, UIEvent.downloadButton l f m p ∉ appEvents inp) ∧
    (∀ w, UIEvent.jsonView w ∉ appEvents inp) := by
  simp [appEvents, extractModel, h1, h2, h3, h4, h5, h6, h7]

/-- Witness for C10: the empty JSON object response body. -/
theorem falsy_result_presents_nothing_witness :
    (∀ t, UIEvent.successMsg t ∉
      appEvents ⟨true, true, some "k", true, true, "\x7b\x7d"⟩) ∧
    (∀ l x, UIEvent.metricShown l x ∉
      appEvents ⟨true, true, some "k", true, true, "\x7b\x7d"⟩) ∧
    (∀ t, UIEvent.writeText t ∉
      appEvents ⟨true, true, some "k", true, true, "\x7b\x7d"⟩) ∧
    (∀ rows, UIEvent.dataframeShown rows ∉
      appEvents ⟨true, true, some "k", true, true, "\x7b\x7d"⟩) ∧
    (∀ l f m p, UIEvent.downloadButton l f m p ∉
      appEvents ⟨true, true, some "k", true, true, "\x7b\x7d"⟩) ∧
    (∀ w, UIEvent.jsonView w ∉
      appEvents ⟨true, true, some "k", true, true, "\x7b\x7d"⟩) :=
  falsy_result_presents_nothing ⟨true, true, some "k", true, true, "\x7b\x7d"⟩
    (Json.obj []) rfl rfl rfl rfl rfl rfl rfl

/-- C2: when the response body does not parse as JSON after
fence-stripping, the failure is caught: the run reports an inline error,
holds no result, and presents no mapping (no metrics, no downloads, no
success message) — in particular never a partially-populated one. -/
theorem parse_failure_absent_result (inp : AppInput)
    (h1 : inp.fileUploaded = true) (h2 : inp.imageOpens = true)
    (h3 : keyTruthy inp.secretKey = true) (h4 : inp.buttonClicked = true)
    (h6 : responseToResult inp.responseBody = none) :
    appResult inp = none ∧
    (inp.apiCallSucceeds = true →
      UIEvent.errorMsg "Error extracting data" ∈ appEvents inp) ∧
    (∀ t, UIEvent.successMsg t ∉ appEvents inp) ∧
    (∀ l x, UIEvent.metricShown l x ∉ appEvents inp) ∧
    (∀ l f m p, UIEvent.downloadButton l f m p ∉ appEvents inp) := by
  refine ⟨?_, ?_, ?_, ?_, ?_⟩
  · cases h5 : inp.apiCallSucceeds <;>
      simp [appResult, extractModel, h1, h2, h3, h4, h5, h6]
  · intro h5
    simp [appEvents, extractModel, h1, h2, h3, h4, h5, h6]
  all_goals
    cases h5 : inp.apiCallSucceeds <;>
      simp [appEvents, extractModel, h1, h2, h3, h4, h5, h6]

/-- Witness for C2: a plain-prose response body with no fence and no
braces. -/
theorem parse_failure_absent_result_witness :
    appResult ⟨true, true, some "k", true, true, "hello"⟩ = none ∧
    (true = true → UIEvent.errorMsg "Error extracting data" ∈
      appEvents ⟨true, true, some "k", true, true, "hello"⟩) ∧
    (∀ t, UIEvent.successMsg t ∉
      appEvents ⟨true, true, some "k", true, true, "hello"⟩) ∧
    (∀ l x, UIEvent.metricShown l x ∉
      appEvents ⟨true, true, some "k", true, true, "hello"⟩) ∧
    (∀ l f m p, UIEvent.downloadButton l f m p ∉
      appEvents ⟨true, true, some "k", true, true, "hello"⟩) :=
  parse_failure_absent_result ⟨true, true, some "k", true, true, "hello"⟩
    rfl rfl rfl rfl rfl

/-- The known scalar field names whose display sites substitute "N/A" when
the key is missing (every scalar field of the data model except
`currency`). -/
def scalarFieldKeys : List String :=
  ["invoice_number", "invoice_date", "due_date", "vendor_name",
   "vendor_address", "vendor_tax_id", "customer_name", "customer_address",
   "subtotal", "tax_amount", "total_amount"]

/-- The currency prefix the totals metrics display:
`data.get('currency', '')` interpolated. -/
def displayedCurrency (d : List (String × Json)) : String :=
  pyStr (pyGet d "currency" (Json.str ""))

/-- The layout position of each scalar field: which event displays it and
how the displayed value string is embedded there. -/
def fieldEvent (cur : String) (k : String) (val : String) : UIEvent :=
  if k = "invoice_number" then UIEvent.metricShown "Invoice Number" val
  else if k = "invoice_date" then UIEvent.metricShown "Invoice Date" val
  else if k = "due_date" then UIEvent.metricShown "Due Date" val
  else if k = "vendor_name" then UIEvent.writeText ("**Name:** " ++ val)
  else if k = "vendor_address" then UIEvent.writeText ("**Address:** " ++ val)
  else if k = "vendor_tax_id" then UIEvent.writeText ("**Tax ID:** " ++ val)
  else if k = "customer_name" then UIEvent.writeText ("**Name:** " ++ val)
  else if k = "customer_address" then
    UIEvent.writeText ("**Address:** " ++ val)
  else if k = "subtotal" then
    UIEvent.metricShown "Subtotal" (cur ++ " " ++ val)
  else if k = "tax_amount" then
    UIEvent.metricShown "Tax Amount" (cur ++ " " ++ val)
  else UIEvent.metricShown "Total Amount" (cur ++ " " ++ val)

/-- C4 (amended): for any mapping and any known scalar field other than
`currency`, the layout shows "N/A" at that field's position when the key is
missing and the unaltered string value when it is present; missing
`currency` defaults to the empty prefix, not to "N/A".  (The model is a
total function: no path raises.) -/
theorem display_missing_fields_default_na (d : List (String × Json))
    (k : String) (hk : k ∈ scalarFieldKeys) :
    (pyLookup d k = none →
      fieldEvent (displayedCurrency d) k "N/A" ∈ displayExtractedData d) ∧
    (∀ s, pyLookup d k = some (Json.str s) →
      fieldEvent (displayedCurrency d) k s ∈ displayExtractedData d) ∧
    (pyLookup d "currency" = none → displayedCurrency d = "") := by
  fin_cases hk <;>
    refine ⟨fun h => ?_, fun s h => ?_, fun h => ?_⟩ <;>
      simp [fieldEvent, displayExtractedData, displayedCurrency, pyGet,
        pyStr, h]

/-- Witness for C4: a mapping holding only `invoice_number`; the missing
`tax_amount` renders as "N/A" and the present field renders unaltered. -/
theorem display_missing_fields_default_na_witness :
    (fieldEvent (displayedCurrency [("invoice_number", Json.str "42")])
        "tax_amount" "N/A" ∈
      displayExtractedData [("invoice_number", Json.str "42")]) ∧
    (fieldEvent (displayedCurrency [("invoice_number", Json.str "42")])
        "invoice_number" "42" ∈
      displayExtractedData [("invoice_number", Json.str "42")]) :=
  ⟨(display_missing_fields_default_na [("invoice_number", Json.str "42")]
      "tax_amount" (by simp [scalarFieldKeys])).1 rfl,
   (display_missing_fields_default_na [("invoice_number", Json.str "42")]
      "invoice_number" (by simp [scalarFieldKeys])).2.1 "42" rfl⟩

/-- Counterexample to C4 as stated: with `currency` missing, the subtotal
metric shows an empty currency prefix (" 5"), not the "N/A" substitution
the claim asserts for every missing known scalar field. -/
theorem display_missing_currency_counterexample :
    pyLookup [("subtotal", Json.str "5")] "currency" = none ∧
    UIEvent.metricShown "Subtotal" " 5" ∈
      displayExtractedData [("subtotal", Json.str "5")] ∧
    UIEvent.metricShown "Subtotal" "N/A 5" ∉
      displayExtractedData [("subtotal", Json.str "5")] := by
  refine ⟨rfl, ?_, ?_⟩ <;>
    simp [displayExtractedData, pyGet, pyLookup, pyStr, pyTruthy, pyLen]

/-- A character that can extend a number lexeme when appended after it. -/
def numCont (c : Char) : Bool :=
  c.isDigit || c = '.' || c = 'e' || c = 'E' || c = '+' || c = '-'

/-- Safe suffixes for parser-extension reasoning: empty, or starting with a
character (such as whitespace or a closing delimiter) that cannot extend a
number lexeme. -/
def extOk (ext : List Char) : Prop :=
  ∀ c, ext.head? = some c → numCont c = false

theorem extOk_nil : extOk [] := fun c h => by simp at h

theorem extOk_head_not_digit {ext : List Char} (h : extOk ext) :
    ∀ c, ext.head? = some c → c.isDigit = false := by
  intro c hc
  have := h c hc
  simp [numCont] at this
  exact this.1.1.1.1.1

theorem extOk_of_jsonWs_head {c : Char} {t : List Char} (h : jsonWs c = true) :
    extOk (c :: t) := by
  intro d hd
  simp at hd
  subst hd
  simp [jsonWs] at h
  rcases h with ⟨⟨h | h⟩ | h⟩ | h <;> subst h <;> decide

/-- Appending a suffix whose head fails the predicate changes neither the
`takeWhile` span nor the `dropWhile` remainder (which just carries the
suffix). -/
theorem takeWhile_append_stop (p : Char → Bool) (r ext : List Char)
    (h : ∀ c, ext.head? = some c → p c = false) :
    (r ++ ext).takeWhile p = r.takeWhile p ∧
    (r ++ ext).dropWhile p = r.dropWhile p ++ ext := by
  induction r with
  | nil =>
    cases ext with
    | nil => simp
    | cons e t =>
      have he := h e rfl
      simp [List.takeWhile_cons, List.dropWhile_cons, he]
  | cons x xs ih =>
    by_cases hx : p x <;>
      simp [List.takeWhile_cons, List.dropWhile_cons, hx, ih]

/-- Skipping whitespace distributes over a suffix once it stops inside the
left part. -/
theorem skipWs_append_cons {cs r : List Char} {c : Char} (ext : List Char)
    (h : skipWs cs = c :: r) :
    skipWs (cs ++ ext) = c :: (r ++ ext) := by
  unfold skipWs at *
  rw [List.dropWhile_append, h]
  simp

/-- An all-whitespace prefix is skipped entirely. -/
theorem skipWs_append_all {w : List Char} (cs : List Char)
    (h : ∀ c ∈ w, jsonWs c = true) :
    skipWs (w ++ cs) = skipWs cs := by
  unfold skipWs
  exact List.dropWhile_append_of_pos h

/-- `skipWs` returns nil exactly on all-whitespace input. -/
theorem skipWs_eq_nil {cs : List Char} (h : skipWs cs = []) :
    ∀ c ∈ cs, jsonWs c = true := by
  unfold skipWs at h
  exact List.dropWhile_eq_nil_iff.mp h

/-- A successful `startswith` splits the input after the literal. -/
theorem isLit_parts {lit : String} {cs : List Char} (h : isLit lit cs = true) :
    ∃ t, cs = lit.data ++ t ∧ cs.drop lit.data.length = t := by
  unfold isLit at h
  rw [List.isPrefixOf_iff_prefix] at h
  obtain ⟨t, rfl⟩ := h
  exact ⟨t, rfl, by simp⟩

/-- `startswith` is stable under appending a suffix. -/
theorem isLit_append {lit : String} {cs : List Char} (ext : List Char)
    (h : isLit lit cs = true) : isLit lit (cs ++ ext) = true := by
  unfold isLit at *
  rw [List.isPrefixOf_iff_prefix] at h ⊢
  obtain ⟨t, rfl⟩ := h
  exact ⟨t ++ ext, by simp⟩

/-- `startswith` fails whenever the heads differ. -/
theorem isLit_head_false {l0 : Char} {ls : List Char} {lit : String}
    {c : Char} {xs : List Char} (hl : lit.data = l0 :: ls) (hc : c ≠ l0) :
    isLit lit (c :: xs) = false := by
  unfold isLit
  rw [hl]
  simp [List.isPrefixOf]
  intro h
  exact absurd h.symm hc

/-- One scanner step extends: appending any suffix to the input of a
successful string scan leaves the scanned content unchanged and appends the
suffix to the rest, provided the continuation does the same. -/
theorem parseStrF_ext (ext : List Char)
    (go go2 : List Char → Option (List Char × List Char))
    (hgo : ∀ cs s r, go cs = some (s, r) → go2 (cs ++ ext) = some (s, r ++ ext)) :
    ∀ cs s r, parseStrF go cs = some (s, r) →
      parseStrF go2 (cs ++ ext) = some (s, r ++ ext) := by
  intro cs s r hp
  match cs with
  | [] => simp [parseStrF] at hp
  | c :: rest =>
    rw [List.cons_append]
    simp only [parseStrF] at hp ⊢
    simp only [Bool.and_eq_true, decide_eq_true_eq] at hp ⊢
    by_cases h1 : c = '"'
    · simp only [if_pos h1, Option.some.injEq, Prod.mk.injEq] at hp ⊢
      exact ⟨hp.1, by rw [← hp.2]⟩
    · simp only [if_neg h1] at hp ⊢
      by_cases h2 : c = '\\'
      · simp only [if_pos h2] at hp ⊢
        match rest with
        | [] => simp at hp
        | e :: rest1 =>
          rw [List.cons_append]
          by_cases h3 : e = 'u'
          · simp only [if_pos h3] at hp ⊢
            match rest1 with
            | [] => simp at hp
            | [x1] => simp at hp
            | [x1, x2] => simp at hp
            | [x1, x2, x3] => simp at hp
            | a :: b :: c2 :: d :: rest2 =>
              simp only [List.cons_append] at hp ⊢
              cases hh : hex4Val a b c2 d with
              | none => rw [hh] at hp; simp at hp
              | some n =>
                rw [hh] at hp
                simp only [] at hp ⊢
                by_cases h4 : 55296 ≤ n ∧ n ≤ 56319
                · simp only [if_pos h4] at hp ⊢
                  match rest2 with
                  | [] => simp at hp
                  | [y1] => simp at hp
                  | [y1, y2] => simp at hp
                  | [y1, y2, y3] => simp at hp
                  | [y1, y2, y3, y4] => simp at hp
                  | [y1, y2, y3, y4, y5] => simp at hp
                  | s1 :: s2 :: a2 :: b2 :: c3 :: d2 :: rest3 =>
                    simp only [List.cons_append] at hp ⊢
                    by_cases h5 : s1 = '\\' ∧ s2 = 'u'
                    · simp only [if_pos h5] at hp ⊢
                      cases hh2 : hex4Val a2 b2 c3 d2 with
                      | none => rw [hh2] at hp; simp at hp
                      | some m =>
                        rw [hh2] at hp
                        simp only [] at hp ⊢
                        by_cases h6 : 56320 ≤ m ∧ m ≤ 57343
                        · simp only [if_pos h6] at hp ⊢
                          cases hq : go rest3 with
                          | none => rw [hq] at hp; simp at hp
                          | some p =>
                            obtain ⟨s1x, r1x⟩ := p
                            rw [hq] at hp
                            rw [hgo rest3 s1x r1x hq]
                            simp only [Option.map_some, Option.some.injEq,
                              Prod.mk.injEq] at hp ⊢
                            exact ⟨hp.1, by rw [← hp.2]⟩
                        · simp only [if_neg h6] at hp
                          simp at hp
                    · simp only [if_neg h5] at hp
                      simp at hp
                · simp only [if_neg h4] at hp ⊢
                  by_cases h7 : 56320 ≤ n ∧ n ≤ 57343
                  · simp only [if_pos h7] at hp
                    simp at hp
                  · simp only [if_neg h7] at hp ⊢
                    cases hq : go rest2 with
                    | none => rw [hq] at hp; simp at hp
                    | some p =>
                      obtain ⟨s1x, r1x⟩ := p
                      rw [hq] at hp
                      rw [hgo rest2 s1x r1x hq]
                      simp only [Option.map_some, Option.some.injEq,
                        Prod.mk.injEq] at hp ⊢
                      exact ⟨hp.1, by rw [← hp.2]⟩
          · simp only [if_neg h3] at hp ⊢
            cases he : escChar e with
            | none => rw [he] at hp; simp at hp
            | some ch =>
              rw [he] at hp
              simp only [] at hp ⊢
              cases hq : go rest1 with
              | none => rw [hq] at hp; simp at hp
              | some p =>
                obtain ⟨s1x, r1x⟩ := p
                rw [hq] at hp
                rw [hgo rest1 s1x r1x hq]
                simp only [Option.map_some, Option.some.injEq,
                  Prod.mk.injEq] at hp ⊢
                exact ⟨hp.1, by rw [← hp.2]⟩
      · simp only [if_neg h2] at hp ⊢
        by_cases h8 : c.toNat < 32
        · simp only [if_pos h8] at hp
          simp at hp
        · simp only [if_neg h8] at hp ⊢
          cases hq : go rest with
          | none => rw [hq] at hp; simp at hp
          | some p =>
            obtain ⟨s1x, r1x⟩ := p
            rw [hq] at hp
            rw [hgo rest s1x r1x hq]
            simp only [Option.map_some, Option.some.injEq,
              Prod.mk.injEq] at hp ⊢
            exact ⟨hp.1, by rw [← hp.2]⟩

/-- The string scanner extends, at any larger fuel. -/
theorem parseStr_ext_mono (ext : List Char) :
    ∀ f f2, f ≤ f2 → ∀ cs s r, parseStr f cs = some (s, r) →
      parseStr f2 (cs ++ ext) = some (s, r ++ ext) := by
  intro f
  induction f with
  | zero => intro f2 _ cs s r hp; simp [parseStr] at hp
  | succ f ih =>
    intro f2 hle cs s r hp
    obtain ⟨g, rfl⟩ : ∃ g, f2 = g + 1 := ⟨f2 - 1, by omega⟩
    have hf : f ≤ g := by omega
    exact parseStrF_ext ext (parseStr f) (parseStr g) (ih g hf) cs s r hp

/-- Heads excluded by `extOk`, spelled out. -/
theorem extOk_cons {c : Char} {t : List Char} (h : extOk (c :: t)) :
    c.isDigit = false ∧ c ≠ '.' ∧ c ≠ 'e' ∧ c ≠ 'E' ∧ c ≠ '+' ∧ c ≠ '-' := by
  have := h c rfl
  simp [numCont] at this
  exact ⟨this.1.1.1.1.1, this.1.1.1.1.2, this.1.1.1.2, this.1.1.2,
    this.1.2, this.2⟩

/-- The integer part of a number extends under an `extOk` suffix. -/
theorem parseIntPart_ext {ext : List Char} (hext : extOk ext) :
    ∀ cs ip r, parseIntPart cs = some (ip, r) →
      parseIntPart (cs ++ ext) = some (ip, r ++ ext) := by
  intro cs ip r hp
  match cs with
  | [] => simp [parseIntPart] at hp
  | c :: rest =>
    rw [List.cons_append]
    simp only [parseIntPart] at hp ⊢
    by_cases h0 : c = '0'
    · simp only [if_pos h0, Option.some.injEq, Prod.mk.injEq] at hp ⊢
      exact ⟨hp.1, by rw [← hp.2]⟩
    · simp only [if_neg h0] at hp ⊢
      by_cases hd : c.isDigit
      · simp only [if_pos hd, Option.some.injEq, Prod.mk.injEq] at hp ⊢
        obtain ⟨htw, hdw⟩ := takeWhile_append_stop Char.isDigit rest ext
          (extOk_head_not_digit hext)
        rw [htw, hdw]
        exact ⟨hp.1, by rw [← hp.2]⟩
      · simp only [if_neg hd] at hp
        exact absurd hp (by simp)

/-- An `extOk` suffix alone contains no fraction part. -/
theorem parseFrac_extOk {ext : List Char} (hext : extOk ext) :
    parseFrac ext = ([], ext) := by
  match ext with
  | [] => rfl
  | c :: t =>
    have hc := extOk_cons hext
    simp [parseFrac, hc.2.1]

/-- The fraction part of a number extends under an `extOk` suffix. -/
theorem parseFrac_ext {ext : List Char} (hext : extOk ext) :
    ∀ cs p q, parseFrac cs = (p, q) → parseFrac (cs ++ ext) = (p, q ++ ext) := by
  intro cs p q hp
  match cs with
  | [] =>
    simp only [parseFrac, Prod.mk.injEq] at hp
    rw [List.nil_append, parseFrac_extOk hext, ← hp.1, ← hp.2]
    simp
  | c :: rest =>
    rw [List.cons_append]
    simp only [parseFrac] at hp ⊢
    obtain ⟨htw, hdw⟩ := takeWhile_append_stop Char.isDigit rest ext
      (extOk_head_not_digit hext)
    by_cases hdot : c = '.'
    · simp only [if_pos hdot] at hp ⊢
      by_cases hemp : (rest.takeWhile Char.isDigit).isEmpty
      · simp only [if_pos hemp, Prod.mk.injEq] at hp
        rw [if_pos (by rw [htw]; exact hemp), ← hp.1, ← hp.2]
        simp
      · simp only [if_neg hemp, Prod.mk.injEq] at hp
        rw [if_neg (by rw [htw]; exact hemp), htw, hdw]
        simp only [Prod.mk.injEq]
        exact ⟨hp.1, by rw [← hp.2]⟩
    · simp only [if_neg hdot, Prod.mk.injEq] at hp ⊢
      exact ⟨hp.1, by rw [← hp.2]; simp⟩

/-- An `extOk` suffix alone contains no exponent part. -/
theorem parseExp_extOk {ext : List Char} (hext : extOk ext) :
    parseExp ext = ([], ext) := by
  match ext with
  | [] => rfl
  | c :: t =>
    have hc := extOk_cons hext
    simp [parseExp, hc.2.2.1, hc.2.2.2.1]

/-- The exponent part of a number extends under an `extOk` suffix. -/
theorem parseExp_ext {ext : List Char} (hext : extOk ext) :
    ∀ cs p q, parseExp cs = (p, q) → parseExp (cs ++ ext) = (p, q ++ ext) := by
  intro cs p q hp
  match cs with
  | [] =>
    simp only [parseExp, Prod.mk.injEq] at hp
    rw [List.nil_append, parseExp_extOk hext, ← hp.1, ← hp.2]
    simp
  | e :: rest =>
    by_cases he : e = 'e' ∨ e = 'E'
    · have heb : (e = 'e' || e = 'E') = true := by
        rcases he with rfl | rfl <;> simp
      match rest with
      | [] =>
        simp only [parseExp, heb, if_true, Prod.mk.injEq] at hp
        obtain ⟨rfl, rfl⟩ := hp
        match ext, hext with
        | [], _ => simp [parseExp, heb]
        | c :: t, hext =>
          have hc := extOk_cons hext
          simp [parseExp, heb, hc.1, hc.2.2.2.2.1, hc.2.2.2.2.2,
            List.takeWhile_cons]
      | s :: r2 =>
        obtain ⟨htw2, hdw2⟩ := takeWhile_append_stop Char.isDigit r2 ext
          (extOk_head_not_digit hext)
        simp only [parseExp, heb, if_true] at hp
        by_cases hs : (s = '+' || s = '-') = true
        · simp only [hs, if_true] at hp
          by_cases hemp : (r2.takeWhile Char.isDigit).isEmpty
          · simp only [hemp, if_true, Prod.mk.injEq] at hp
            obtain ⟨rfl, rfl⟩ := hp
            simp [parseExp, heb, hs, htw2, hemp]
          · simp only [hemp, if_false, Bool.false_eq_true, Prod.mk.injEq] at hp
            obtain ⟨rfl, rfl⟩ := hp
            simp [parseExp, heb, hs, htw2, hdw2, hemp]
        · simp only [hs, Bool.false_eq_true, if_false] at hp
          by_cases hemp : ((s :: r2).takeWhile Char.isDigit).isEmpty
          · simp only [hemp, if_true, Prod.mk.injEq] at hp
            obtain ⟨rfl, rfl⟩ := hp
            have htw1 := takeWhile_append_stop Char.isDigit (s :: r2) ext
              (extOk_head_not_digit hext)
            simp only [List.cons_append] at htw1
            simp [parseExp, heb, hs, htw1.1, hemp]
          · simp only [hemp, if_false, Bool.false_eq_true, Prod.mk.injEq] at hp
            obtain ⟨rfl, rfl⟩ := hp
            have htw1 := takeWhile_append_stop Char.isDigit (s :: r2) ext
              (extOk_head_not_digit hext)
            simp only [List.cons_append] at htw1
            simp [parseExp, heb, hs, htw1.1, htw1.2, hemp]
    · have heb : (e = 'e' || e = 'E') = false := by
        simp at he
        simp [he.1, he.2]
      simp only [parseExp, heb, Bool.false_eq_true, if_false,
        Prod.mk.injEq] at hp
      obtain ⟨rfl, rfl⟩ := hp
      simp [parseExp, heb]

/-- A matched number lexeme extends under an `extOk` suffix. -/
theorem parseNum_ext {ext : List Char} (hext : extOk ext) :
    ∀ cs lex r, parseNum cs = some (lex, r) →
      parseNum (cs ++ ext) = some (lex, r ++ ext) := by
  intro cs lex r hp
  match cs with
  | [] => simp [parseNum] at hp
  | c :: cs1 =>
    rw [List.cons_append]
    simp only [parseNum] at hp ⊢
    by_cases hneg : c = '-'
    · simp only [if_pos hneg] at hp ⊢
      cases hip : parseIntPart cs1 with
      | none => rw [hip] at hp; simp at hp
      | some q =>
        obtain ⟨ip, cs2⟩ := q
        rw [hip] at hp
        rw [parseIntPart_ext hext cs1 ip cs2 hip]
        simp only [Option.some.injEq, Prod.mk.injEq] at hp ⊢
        rw [parseFrac_ext hext cs2 (parseFrac cs2).1 (parseFrac cs2).2 rfl]
        rw [parseExp_ext hext (parseFrac cs2).2 (parseExp (parseFrac cs2).2).1
          (parseExp (parseFrac cs2).2).2 rfl]
        exact ⟨hp.1, by rw [← hp.2]⟩
    · simp only [if_neg hneg] at hp ⊢
      cases hip : parseIntPart (c :: cs1) with
      | none => rw [hip] at hp; simp at hp
      | some q =>
        obtain ⟨ip, cs2⟩ := q
        rw [hip] at hp
        rw [← List.cons_append, parseIntPart_ext hext (c :: cs1) ip cs2 hip]
        simp only [Option.some.injEq, Prod.mk.injEq] at hp ⊢
        rw [parseFrac_ext hext cs2 (parseFrac cs2).1 (parseFrac cs2).2 rfl]
        rw [parseExp_ext hext (parseFrac cs2).2 (parseExp (parseFrac cs2).2).1
          (parseExp (parseFrac cs2).2).2 rfl]
        exact ⟨hp.1, by rw [← hp.2]⟩

theorem parseVal_zero (cs : List Char) : parseVal 0 cs = none := rfl

theorem parseVal_succ (f : Nat) (cs : List Char) :
    parseVal (f + 1) cs =
      parseValF (parseStr f) (parseObjEntries f) (parseArrEntries f) cs := rfl

theorem parseObjEntries_zero (cs : List Char) : parseObjEntries 0 cs = none :=
  rfl

theorem parseObjEntries_succ (f : Nat) (cs : List Char) :
    parseObjEntries (f + 1) cs =
      parseObjEntriesF (parseStr f) (parseVal f) (parseObjEntries f) cs := rfl

theorem parseArrEntries_zero (cs : List Char) : parseArrEntries 0 cs = none :=
  rfl

theorem parseArrEntries_succ (f : Nat) (cs : List Char) :
    parseArrEntries (f + 1) cs =
      parseArrEntriesF (parseVal f) (parseArrEntries f) cs := rfl

theorem parseVal_nil (f : Nat) : parseVal f [] = none := by
  cases f <;> rfl

theorem parseObjEntries_nil (f : Nat) : parseObjEntries f [] = none := by
  cases f <;> rfl

/-- A successful number match starts with a minus sign or a digit. -/
theorem parseNum_some_head {c : Char} {cs : List Char} {lex : String}
    {r : List Char} (hp : parseNum (c :: cs) = some (lex, r)) :
    c = '-' ∨ c.isDigit = true := by
  by_cases hneg : c = '-'
  · exact Or.inl hneg
  · right
    simp only [parseNum, if_neg hneg] at hp
    by_cases h0 : c = '0'
    · rw [h0]; decide
    · by_cases hd : c.isDigit
      · exact hd
      · simp [parseIntPart, h0, hd] at hp

/-- No number match starts with a character that is neither a digit nor a
minus sign. -/
theorem parseNum_none_head {c : Char} (cs : List Char)
    (hd : c.isDigit = false) (hneg : c ≠ '-') : parseNum (c :: cs) = none := by
  have h0 : c ≠ '0' := fun h => by rw [h] at hd; simp at hd
  simp [parseNum, parseIntPart, hneg, h0, hd]

/-- No number match continues a minus sign with a non-digit. -/
theorem parseNum_neg_none {c : Char} (cs : List Char)
    (hd : c.isDigit = false) : parseNum ('-' :: c :: cs) = none := by
  have h0 : c ≠ '0' := fun h => by rw [h] at hd; simp at hd
  simp [parseNum, parseIntPart, h0, hd]

/-- JSON whitespace is Python whitespace. -/
theorem jsonWs_pyWs {c : Char} (h : jsonWs c = true) : pyWs c = true := by
  simp [jsonWs] at h
  rcases h with ⟨⟨h | h⟩ | h⟩ | h <;> subst h <;> decide

/-- A digit is not Python whitespace. -/
theorem isDigit_not_pyWs {c : Char} (h : c.isDigit = true) :
    pyWs c = false := by
  have hb : 48 ≤ c.toNat ∧ c.toNat ≤ 57 := by
    simp [Char.isDigit] at h
    have h1 := h.1
    have h2 := h.2
    constructor
    · exact h1
    · exact h2
  simp only [pyWs]
  simp only [Bool.or_eq_false_iff, decide_eq_false_iff_not, Bool.and_eq_false_iff]
  omega

theorem isLit_null_false {c : Char} (xs : List Char) (h : c ≠ 'n') :
    isLit "null" (c :: xs) = false := isLit_head_false rfl h

theorem isLit_true_false {c : Char} (xs : List Char) (h : c ≠ 't') :
    isLit "true" (c :: xs) = false := isLit_head_false rfl h

theorem isLit_falseLit_false {c : Char} (xs : List Char) (h : c ≠ 'f') :
    isLit "false" (c :: xs) = false := isLit_head_false rfl h

theorem isLit_nan_false {c : Char} (xs : List Char) (h : c ≠ 'N') :
    isLit "NaN" (c :: xs) = false := isLit_head_false rfl h

theorem isLit_inf_false {c : Char} (xs : List Char) (h : c ≠ 'I') :
    isLit "Infinity" (c :: xs) = false := isLit_head_false rfl h

theorem isLit_ninf_false {c : Char} (xs : List Char) (h : c ≠ '-') :
    isLit "-Infinity" (c :: xs) = false := isLit_head_false rfl h

/-- One value-scanner step extends under an `extOk` suffix, given that the
three continuations do. -/
theorem parseValF_ext {ext : List Char} (hext : extOk ext)
    (str str2 : List Char → Option (List Char × List Char))
    (obj obj2 : List Char → Option (List (String × Json) × List Char))
    (arr arr2 : List Char → Option (List Json × List Char))
    (hstr : ∀ cs s r, str cs = some (s, r) → str2 (cs ++ ext) = some (s, r ++ ext))
    (hobj : ∀ cs ps r, obj cs = some (ps, r) → obj2 (cs ++ ext) = some (ps, r ++ ext))
    (harr : ∀ cs vs r, arr cs = some (vs, r) → arr2 (cs ++ ext) = some (vs, r ++ ext)) :
    ∀ cs v r, parseValF str obj arr cs = some (v, r) →
      parseValF str2 obj2 arr2 (cs ++ ext) = some (v, r ++ ext) := by
  intro cs v r hp
  match cs with
  | [] => simp [parseValF] at hp
  | c :: rest =>
    rw [List.cons_append]
    simp only [parseValF] at hp ⊢
    by_cases h1 : c = '"'
    · simp only [if_pos h1] at hp ⊢
      cases hq : str rest with
      | none => rw [hq] at hp; simp at hp
      | some p =>
        obtain ⟨sc, r1⟩ := p
        rw [hq] at hp
        rw [hstr rest sc r1 hq]
        simp only [Option.some.injEq, Prod.mk.injEq] at hp ⊢
        exact ⟨hp.1, by rw [← hp.2]⟩
    · simp only [if_neg h1] at hp ⊢
      by_cases h2 : c = '{'
      · simp only [if_pos h2] at hp ⊢
        cases hsw : skipWs rest with
        | nil => rw [hsw] at hp; simp at hp
        | cons c2 r2 =>
          rw [hsw] at hp
          rw [skipWs_append_cons ext hsw]
          by_cases h3 : c2 = '}'
          · simp only [if_pos h3, Option.some.injEq, Prod.mk.injEq] at hp ⊢
            exact ⟨hp.1, by rw [← hp.2]⟩
          · simp only [if_neg h3] at hp ⊢
            cases ho : obj (c2 :: r2) with
            | none => rw [ho] at hp; simp at hp
            | some q =>
              obtain ⟨ps, r3⟩ := q
              rw [ho] at hp
              have hth := hobj (c2 :: r2) ps r3 ho
              rw [List.cons_append] at hth
              rw [hth]
              simp only [Option.some.injEq, Prod.mk.injEq] at hp ⊢
              exact ⟨hp.1, by rw [← hp.2]⟩
      · simp only [if_neg h2] at hp ⊢
        by_cases h3 : c = '['
        · simp only [if_pos h3] at hp ⊢
          cases hsw : skipWs rest with
          | nil => rw [hsw] at hp; simp at hp
          | cons c2 r2 =>
            rw [hsw] at hp
            rw [skipWs_append_cons ext hsw]
            by_cases h4 : c2 = ']'
            · simp only [if_pos h4, Option.some.injEq, Prod.mk.injEq] at hp ⊢
              exact ⟨hp.1, by rw [← hp.2]⟩
            · simp only [if_neg h4] at hp ⊢
              cases ha : arr (c2 :: r2) with
              | none => rw [ha] at hp; simp at hp
              | some q =>
                obtain ⟨vs, r3⟩ := q
                rw [ha] at hp
                have hth := harr (c2 :: r2) vs r3 ha
                rw [List.cons_append] at hth
                rw [hth]
                simp only [Option.some.injEq, Prod.mk.injEq] at hp ⊢
                exact ⟨hp.1, by rw [← hp.2]⟩
        · simp only [if_neg h3] at hp ⊢
          by_cases h5 : isLit "null" (c :: rest) = true
          · obtain ⟨t, hsplit, _⟩ := isLit_parts h5
            rw [show ("null".data : List Char) = ['n', 'u', 'l', 'l'] from rfl]
              at hsplit
            simp only [List.cons_append, List.nil_append,
              List.cons.injEq] at hsplit
            obtain ⟨rfl, rfl⟩ := hsplit
            simp only [if_pos h5, Option.some.injEq, Prod.mk.injEq] at hp
            rw [if_pos (by
              rw [← List.cons_append]
              exact isLit_append ext h5)]
            simp only [Option.some.injEq, Prod.mk.injEq]
            exact ⟨hp.1, by rw [← hp.2]; simp⟩
          · rw [if_neg h5] at hp
            by_cases h6 : isLit "true" (c :: rest) = true
            · obtain ⟨t, hsplit, _⟩ := isLit_parts h6
              rw [show ("true".data : List Char) = ['t', 'r', 'u', 'e'] from
                rfl] at hsplit
              simp only [List.cons_append, List.nil_append,
                List.cons.injEq] at hsplit
              obtain ⟨rfl, rfl⟩ := hsplit
              simp only [if_pos h6, Option.some.injEq, Prod.mk.injEq] at hp
              have hnf : isLit "null" ('t' :: 'r' :: 'u' :: 'e' :: (t ++ ext)) = false := isLit_null_false _ (by decide)
              rw [if_neg (by simp [hnf])]
              rw [if_pos (by
                rw [← List.cons_append]
                exact isLit_append ext h6)]
              simp only [Option.some.injEq, Prod.mk.injEq]
              exact ⟨hp.1, by rw [← hp.2]; simp⟩
            · rw [if_neg h6] at hp
              by_cases h7 : isLit "false" (c :: rest) = true
              · obtain ⟨t, hsplit, _⟩ := isLit_parts h7
                rw [show ("false".data : List Char) =
                  ['f', 'a', 'l', 's', 'e'] from rfl] at hsplit
                simp only [List.cons_append, List.nil_append,
                  List.cons.injEq] at hsplit
                obtain ⟨rfl, rfl⟩ := hsplit
                simp only [if_pos h7, Option.some.injEq, Prod.mk.injEq] at hp
                have hnf : isLit "null" ('f' :: 'a' :: 'l' :: 's' :: 'e' :: (t ++ ext)) = false := isLit_null_false _ (by decide)
                have htf : isLit "true" ('f' :: 'a' :: 'l' :: 's' :: 'e' :: (t ++ ext)) = false := isLit_true_false _ (by decide)
                rw [if_neg (by simp [hnf]), if_neg (by simp [htf])]
                rw [if_pos (by
                  rw [← List.cons_append]
                  exact isLit_append ext h7)]
                simp only [Option.some.injEq, Prod.mk.injEq]
                exact ⟨hp.1, by rw [← hp.2]; simp⟩
              · rw [if_neg h7] at hp
                cases hnum : parseNum (c :: rest) with
                | some q =>
                  obtain ⟨lex, r1⟩ := q
                  rw [hnum] at hp
                  simp only [Option.some.injEq, Prod.mk.injEq] at hp
                  have hhead := parseNum_some_head hnum
                  have hcn : c ≠ 'n' := by
                    rcases hhead with rfl | hd
                    · decide
                    · intro hcon; rw [hcon] at hd; simp at hd
                  have hct : c ≠ 't' := by
                    rcases hhead with rfl | hd
                    · decide
                    · intro hcon; rw [hcon] at hd; simp at hd
                  have hcf : c ≠ 'f' := by
                    rcases hhead with rfl | hd
                    · decide
                    · intro hcon; rw [hcon] at hd; simp at hd
                  rw [if_neg (by simp [isLit_null_false (rest ++ ext) hcn])]
                  rw [if_neg (by simp [isLit_true_false (rest ++ ext) hct])]
                  rw [if_neg (by
                    simp [isLit_falseLit_false (rest ++ ext) hcf])]
                  have hne := parseNum_ext hext (c :: rest) lex r1 hnum
                  rw [List.cons_append] at hne
                  rw [hne]
                  simp only [Option.some.injEq, Prod.mk.injEq]
                  exact ⟨hp.1, by rw [← hp.2]⟩
                | none =>
                  rw [hnum] at hp
                  by_cases h8 : isLit "NaN" (c :: rest) = true
                  · obtain ⟨t, hsplit, _⟩ := isLit_parts h8
                    rw [show ("NaN".data : List Char) = ['N', 'a', 'N'] from
                      rfl] at hsplit
                    simp only [List.cons_append, List.nil_append,
                      List.cons.injEq] at hsplit
                    obtain ⟨rfl, rfl⟩ := hsplit
                    simp only [if_pos h8, Option.some.injEq,
                      Prod.mk.injEq] at hp
                    simp only [List.cons_append]
                    have hnf : isLit "null" ('N' :: 'a' :: 'N' :: (t ++ ext)) = false := isLit_null_false _ (by decide)
                    have htf : isLit "true" ('N' :: 'a' :: 'N' :: (t ++ ext)) = false := isLit_true_false _ (by decide)
                    have hff : isLit "false" ('N' :: 'a' :: 'N' :: (t ++ ext)) = false := isLit_falseLit_false _ (by decide)
                    rw [if_neg (by simp [hnf]), if_neg (by simp [htf]),
                      if_neg (by simp [hff])]
                    have hpn : parseNum ('N' :: 'a' :: 'N' :: (t ++ ext)) =
                        none := parseNum_none_head _ (by decide) (by decide)
                    rw [hpn]
                    rw [if_pos (by
                      have := isLit_append ext h8
                      simpa using this)]
                    simp only [Option.some.injEq, Prod.mk.injEq]
                    exact ⟨hp.1, by rw [← hp.2]; simp⟩
                  · rw [if_neg h8] at hp
                    by_cases h9 : isLit "Infinity" (c :: rest) = true
                    · obtain ⟨t, hsplit, _⟩ := isLit_parts h9
                      rw [show ("Infinity".data : List Char) =
                        ['I', 'n', 'f', 'i', 'n', 'i', 't', 'y'] from rfl]
                        at hsplit
                      simp only [List.cons_append, List.nil_append,
                        List.cons.injEq] at hsplit
                      obtain ⟨rfl, rfl⟩ := hsplit
                      simp only [if_pos h9, Option.some.injEq,
                        Prod.mk.injEq] at hp
                      simp only [List.cons_append]
                      have hnf : isLit "null" ('I' :: 'n' :: 'f' :: 'i' :: 'n' :: 'i' :: 't' :: 'y' :: (t ++ ext)) = false :=
                        isLit_null_false _ (by decide)
                      have htf : isLit "true" ('I' :: 'n' :: 'f' :: 'i' :: 'n' :: 'i' :: 't' :: 'y' :: (t ++ ext)) = false :=
                        isLit_true_false _ (by decide)
                      have hff : isLit "false" ('I' :: 'n' :: 'f' :: 'i' :: 'n' :: 'i' :: 't' :: 'y' :: (t ++ ext)) = false :=
                        isLit_falseLit_false _ (by decide)
                      have hNf : isLit "NaN" ('I' :: 'n' :: 'f' :: 'i' :: 'n' :: 'i' :: 't' :: 'y' :: (t ++ ext)) = false :=
                        isLit_nan_false _ (by decide)
                      rw [if_neg (by simp [hnf]), if_neg (by simp [htf]),
                        if_neg (by simp [hff])]
                      have hpn : parseNum ('I' :: 'n' :: 'f' :: 'i' :: 'n' ::
                          'i' :: 't' :: 'y' :: (t ++ ext)) = none :=
                        parseNum_none_head _ (by decide) (by decide)
                      rw [hpn]
                      rw [if_neg (by simp [hNf])]
                      rw [if_pos (by
                        have := isLit_append ext h9
                        simpa using this)]
                      simp only [Option.some.injEq, Prod.mk.injEq]
                      exact ⟨hp.1, by rw [← hp.2]; simp⟩
                    · rw [if_neg h9] at hp
                      by_cases h10 : isLit "-Infinity" (c :: rest) = true
                      · obtain ⟨t, hsplit, _⟩ := isLit_parts h10
                        rw [show ("-Infinity".data : List Char) =
                          ['-', 'I', 'n', 'f', 'i', 'n', 'i', 't', 'y'] from
                          rfl] at hsplit
                        simp only [List.cons_append, List.nil_append,
                          List.cons.injEq] at hsplit
                        obtain ⟨rfl, rfl⟩ := hsplit
                        simp only [if_pos h10, Option.some.injEq,
                          Prod.mk.injEq] at hp
                        simp only [List.cons_append]
                        have hnf : isLit "null" ('-' :: 'I' :: 'n' :: 'f' :: 'i' :: 'n' :: 'i' :: 't' :: 'y' :: (t ++ ext)) =
                            false := isLit_null_false _ (by decide)
                        have htf : isLit "true" ('-' :: 'I' :: 'n' :: 'f' :: 'i' :: 'n' :: 'i' :: 't' :: 'y' :: (t ++ ext)) =
                            false := isLit_true_false _ (by decide)
                        have hff : isLit "false" ('-' :: 'I' :: 'n' :: 'f' :: 'i' :: 'n' :: 'i' :: 't' :: 'y' :: (t ++ ext)) =
                            false := isLit_falseLit_false _ (by decide)
                        have hNf : isLit "NaN" ('-' :: 'I' :: 'n' :: 'f' :: 'i' :: 'n' :: 'i' :: 't' :: 'y' :: (t ++ ext)) =
                            false := isLit_nan_false _ (by decide)
                        have hIf : isLit "Infinity" ('-' :: 'I' :: 'n' :: 'f' :: 'i' :: 'n' :: 'i' :: 't' :: 'y' :: (t ++ ext)) = false := isLit_inf_false _ (by decide)
                        rw [if_neg (by simp [hnf]), if_neg (by simp [htf]),
                          if_neg (by simp [hff])]
                        have hpn : parseNum ('-' :: 'I' :: 'n' :: 'f' ::
                            'i' :: 'n' :: 'i' :: 't' :: 'y' :: (t ++ ext)) =
                            none := parseNum_neg_none _ (by decide)
                        rw [hpn]
                        rw [if_neg (by simp [hNf]), if_neg (by simp [hIf])]
                        rw [if_pos (by
                          have := isLit_append ext h10
                          rw [List.cons_append] at this
                          simpa using this)]
                        simp only [Option.some.injEq, Prod.mk.injEq]
                        exact ⟨hp.1, by rw [← hp.2]; simp⟩
                      · rw [if_neg h10] at hp
                        simp at hp

/-- One object-members step extends under an `extOk` suffix, given that the
continuations do and that the value and members continuations reject empty
input. -/
theorem parseObjEntriesF_ext {ext : List Char} (hext : extOk ext)
    (str str2 : List Char → Option (List Char × List Char))
    (val val2 : List Char → Option (Json × List Char))
    (obj obj2 : List Char → Option (List (String × Json) × List Char))
    (hstr : ∀ cs s r, str cs = some (s, r) → str2 (cs ++ ext) = some (s, r ++ ext))
    (hval : ∀ cs v r, val cs = some (v, r) → val2 (cs ++ ext) = some (v, r ++ ext))
    (hobj : ∀ cs ps r, obj cs = some (ps, r) → obj2 (cs ++ ext) = some (ps, r ++ ext))
    (hvalnil : val [] = none) (hobjnil : obj [] = none) :
    ∀ cs ps r, parseObjEntriesF str val obj cs = some (ps, r) →
      parseObjEntriesF str2 val2 obj2 (cs ++ ext) = some (ps, r ++ ext) := by
  intro cs ps r hp
  match cs with
  | [] => simp [parseObjEntriesF] at hp
  | c :: rest =>
    rw [List.cons_append]
    simp only [parseObjEntriesF] at hp ⊢
    by_cases h1 : c = '"'
    · simp only [if_pos h1] at hp ⊢
      cases hq : str rest with
      | none => rw [hq] at hp; simp at hp
      | some p =>
        obtain ⟨kc, r2⟩ := p
        rw [hq] at hp
        simp only [] at hp
        rw [hstr rest kc r2 hq]
        simp only []
        cases hsw : skipWs r2 with
        | nil => rw [hsw] at hp; simp at hp
        | cons c3 r3 =>
          rw [hsw] at hp
          rw [skipWs_append_cons ext hsw]
          by_cases h2 : c3 = ':'
          · simp only [if_pos h2] at hp ⊢
            cases hsw3 : skipWs r3 with
            | nil =>
              rw [hsw3, hvalnil] at hp
              simp at hp
            | cons c4 r4x =>
              rw [hsw3] at hp
              rw [skipWs_append_cons ext hsw3]
              cases hv : val (c4 :: r4x) with
              | none => rw [hv] at hp; simp at hp
              | some q =>
                obtain ⟨v, r4⟩ := q
                rw [hv] at hp
                simp only [] at hp
                have hv2 := hval (c4 :: r4x) v r4 hv
                rw [List.cons_append] at hv2
                rw [hv2]
                simp only []
                cases hsw4 : skipWs r4 with
                | nil => rw [hsw4] at hp; simp at hp
                | cons c5 r5 =>
                  rw [hsw4] at hp
                  rw [skipWs_append_cons ext hsw4]
                  by_cases h3 : c5 = ','
                  · simp only [if_pos h3] at hp ⊢
                    cases hsw5 : skipWs r5 with
                    | nil =>
                      rw [hsw5, hobjnil] at hp
                      simp at hp
                    | cons c6 r6x =>
                      rw [hsw5] at hp
                      rw [skipWs_append_cons ext hsw5]
                      cases ho : obj (c6 :: r6x) with
                      | none => rw [ho] at hp; simp at hp
                      | some q2 =>
                        obtain ⟨ps2, r6⟩ := q2
                        rw [ho] at hp
                        have ho2 := hobj (c6 :: r6x) ps2 r6 ho
                        rw [List.cons_append] at ho2
                        rw [ho2]
                        simp only [Option.some.injEq, Prod.mk.injEq] at hp ⊢
                        exact ⟨hp.1, by rw [← hp.2]⟩
                  · simp only [if_neg h3] at hp ⊢
                    by_cases h4 : c5 = '}'
                    · simp only [if_pos h4, Option.some.injEq,
                        Prod.mk.injEq] at hp ⊢
                      exact ⟨hp.1, by rw [← hp.2]⟩
                    · simp only [if_neg h4] at hp
                      simp at hp
          · simp only [if_neg h2] at hp
            simp at hp
    · simp only [if_neg h1] at hp
      simp at hp

/-- One array-elements step extends under an `extOk` suffix, given that the
continuations do and that the elements continuation rejects empty input. -/
theorem parseArrEntriesF_ext {ext : List Char} (hext : extOk ext)
    (val val2 : List Char → Option (Json × List Char))
    (arr arr2 : List Char → Option (List Json × List Char))
    (hval : ∀ cs v r, val cs = some (v, r) → val2 (cs ++ ext) = some (v, r ++ ext))
    (harr : ∀ cs vs r, arr cs = some (vs, r) → arr2 (cs ++ ext) = some (vs, r ++ ext))
    (harrnil : arr [] = none) :
    ∀ cs vs r, parseArrEntriesF val arr cs = some (vs, r) →
      parseArrEntriesF val2 arr2 (cs ++ ext) = some (vs, r ++ ext) := by
  intro cs vs r hp
  simp only [parseArrEntriesF] at hp ⊢
  cases hv : val cs with
  | none => rw [hv] at hp; simp at hp
  | some q =>
    obtain ⟨v, r1⟩ := q
    rw [hv] at hp
    simp only [] at hp
    rw [hval cs v r1 hv]
    simp only []
    cases hsw : skipWs r1 with
    | nil => rw [hsw] at hp; simp at hp
    | cons c2 r2 =>
      rw [hsw] at hp
      rw [skipWs_append_cons ext hsw]
      by_cases h1 : c2 = ','
      · simp only [if_pos h1] at hp ⊢
        cases hsw2 : skipWs r2 with
        | nil =>
          rw [hsw2, harrnil] at hp
          simp at hp
        | cons c3 r3x =>
          rw [hsw2] at hp
          rw [skipWs_append_cons ext hsw2]
          cases ha : arr (c3 :: r3x) with
          | none => rw [ha] at hp; simp at hp
          | some q2 =>
            obtain ⟨vs2, r3⟩ := q2
            rw [ha] at hp
            have ha2 := harr (c3 :: r3x) vs2 r3 ha
            rw [List.cons_append] at ha2
            rw [ha2]
            simp only [Option.some.injEq, Prod.mk.injEq] at hp ⊢
            exact ⟨hp.1, by rw [← hp.2]⟩
      · simp only [if_neg h1] at hp ⊢
        by_cases h2 : c2 = ']'
        · simp only [if_pos h2, Option.some.injEq, Prod.mk.injEq] at hp ⊢
          exact ⟨hp.1, by rw [← hp.2]⟩
        · simp only [if_neg h2] at hp
          simp at hp

theorem parseArrEntries_nil (f : Nat) : parseArrEntries f [] = none := by
  cases f with
  | zero => rfl
  | succ f =>
    rw [parseArrEntries_succ]
    simp only [parseArrEntriesF, parseVal_nil]

/-- The value, object-members and array-elements scanners all extend under
an `extOk` suffix, at any larger fuel. -/
theorem parse_ext_mono {ext : List Char} (hext : extOk ext) :
    ∀ f f2, f ≤ f2 →
      (∀ cs v r, parseVal f cs = some (v, r) →
        parseVal f2 (cs ++ ext) = some (v, r ++ ext)) ∧
      (∀ cs ps r, parseObjEntries f cs = some (ps, r) →
        parseObjEntries f2 (cs ++ ext) = some (ps, r ++ ext)) ∧
      (∀ cs vs r, parseArrEntries f cs = some (vs, r) →
        parseArrEntries f2 (cs ++ ext) = some (vs, r ++ ext)) := by
  intro f
  induction f with
  | zero =>
    intro f2 _
    refine ⟨?_, ?_, ?_⟩ <;> intro cs x r hp
    · exact Option.noConfusion ((parseVal_zero cs).symm.trans hp)
    · exact Option.noConfusion ((parseObjEntries_zero cs).symm.trans hp)
    · exact Option.noConfusion ((parseArrEntries_zero cs).symm.trans hp)
  | succ f ih =>
    intro f2 hle
    obtain ⟨g, rfl⟩ : ∃ g, f2 = g + 1 := ⟨f2 - 1, by omega⟩
    have hf : f ≤ g := by omega
    obtain ⟨ihv, iho, iha⟩ := ih g hf
    refine ⟨?_, ?_, ?_⟩
    · intro cs v r hp
      rw [parseVal_succ] at hp
      rw [parseVal_succ]
      exact parseValF_ext hext (parseStr f) (parseStr g) (parseObjEntries f)
        (parseObjEntries g) (parseArrEntries f) (parseArrEntries g)
        (parseStr_ext_mono ext f g hf) iho iha cs v r hp
    · intro cs ps r hp
      rw [parseObjEntries_succ] at hp
      rw [parseObjEntries_succ]
      exact parseObjEntriesF_ext hext (parseStr f) (parseStr g) (parseVal f)
        (parseVal g) (parseObjEntries f) (parseObjEntries g)
        (parseStr_ext_mono ext f g hf) ihv iho (parseVal_nil f)
        (parseObjEntries_nil f) cs ps r hp
    · intro cs vs r hp
      rw [parseArrEntries_succ] at hp
      rw [parseArrEntries_succ]
      exact parseArrEntriesF_ext hext (parseVal f) (parseVal g)
        (parseArrEntries f) (parseArrEntries g) ihv iha
        (parseArrEntries_nil f) cs vs r hp

/-- The first character of a successfully matched literal. -/
theorem isLit_head {lit : String} {l0 : Char} {ls : List Char} {c : Char}
    {xs : List Char} (hl : lit.data = l0 :: ls)
    (h : isLit lit (c :: xs) = true) : c = l0 := by
  unfold isLit at h
  rw [hl] at h
  simp [List.isPrefixOf] at h
  exact h.1.symm

/-- A successful value scan starts at a character that is not Python
whitespace, and an object result starts at an opening brace. -/
theorem parseValF_head (str : List Char → Option (List Char × List Char))
    (obj : List Char → Option (List (String × Json) × List Char))
    (arr : List Char → Option (List Json × List Char)) :
    ∀ cs v r, parseValF str obj arr cs = some (v, r) →
      ∃ c cs0, cs = c :: cs0 ∧ pyWs c = false ∧
        (∀ kvs, v = Json.obj kvs → c = '{') := by
  intro cs v r hp
  match cs with
  | [] => simp [parseValF] at hp
  | c :: rest =>
    simp only [parseValF] at hp
    refine ⟨c, rest, rfl, ?_⟩
    by_cases h1 : c = '"'
    · rw [if_pos h1] at hp
      subst h1
      refine ⟨by decide, ?_⟩
      cases hq : str rest with
      | none => rw [hq] at hp; simp at hp
      | some p =>
        obtain ⟨s, r2⟩ := p
        rw [hq] at hp
        simp only [Option.some.injEq, Prod.mk.injEq] at hp
        intro kvs hv
        rw [← hp.1] at hv
        exact absurd hv (by simp)
    · simp only [if_neg h1] at hp
      by_cases h2 : c = '{'
      · exact ⟨by subst h2; decide, fun _ _ => h2⟩
      · simp only [if_neg h2] at hp
        by_cases h3 : c = '['
        · rw [if_pos h3] at hp
          subst h3
          refine ⟨by decide, ?_⟩
          intro kvs hv
          cases hsw : skipWs rest with
          | nil => rw [hsw] at hp; simp at hp
          | cons c2 r2 =>
            rw [hsw] at hp
            by_cases h4 : c2 = ']'
            · simp only [if_pos h4, Option.some.injEq, Prod.mk.injEq] at hp
              rw [← hp.1] at hv
              exact absurd hv (by simp)
            · simp only [if_neg h4] at hp
              cases ha : arr (c2 :: r2) with
              | none => rw [ha] at hp; simp at hp
              | some q =>
                obtain ⟨vs, r3⟩ := q
                rw [ha] at hp
                simp only [Option.some.injEq, Prod.mk.injEq] at hp
                rw [← hp.1] at hv
                exact absurd hv (by simp)
        · simp only [if_neg h3] at hp
          by_cases h5 : isLit "null" (c :: rest) = true
          · have hc := isLit_head (show ("null".data : List Char) =
              'n' :: ['u', 'l', 'l'] from rfl) h5
            subst hc
            simp only [if_pos h5, Option.some.injEq, Prod.mk.injEq] at hp
            refine ⟨by decide, ?_⟩
            intro kvs hv
            rw [← hp.1] at hv
            exact absurd hv (by simp)
          · rw [if_neg h5] at hp
            by_cases h6 : isLit "true" (c :: rest) = true
            · have hc := isLit_head (show ("true".data : List Char) =
                't' :: ['r', 'u', 'e'] from rfl) h6
              subst hc
              simp only [if_pos h6, Option.some.injEq, Prod.mk.injEq] at hp
              refine ⟨by decide, ?_⟩
              intro kvs hv
              rw [← hp.1] at hv
              exact absurd hv (by simp)
            · rw [if_neg h6] at hp
              by_cases h7 : isLit "false" (c :: rest) = true
              · have hc := isLit_head (show ("false".data : List Char) =
                  'f' :: ['a', 'l', 's', 'e'] from rfl) h7
                subst hc
                simp only [if_pos h7, Option.some.injEq, Prod.mk.injEq] at hp
                refine ⟨by decide, ?_⟩
                intro kvs hv
                rw [← hp.1] at hv
                exact absurd hv (by simp)
              · rw [if_neg h7] at hp
                cases hnum : parseNum (c :: rest) with
                | some q =>
                  obtain ⟨lex, r1⟩ := q
                  rw [hnum] at hp
                  simp only [Option.some.injEq, Prod.mk.injEq] at hp
                  have hhead := parseNum_some_head hnum
                  refine ⟨?_, ?_⟩
                  · rcases hhead with rfl | hd
                    · decide
                    · exact isDigit_not_pyWs hd
                  · intro kvs hv
                    rw [← hp.1] at hv
                    exact absurd hv (by simp)
                | none =>
                  rw [hnum] at hp
                  by_cases h8 : isLit "NaN" (c :: rest) = true
                  · have hc := isLit_head (show ("NaN".data : List Char) =
                      'N' :: ['a', 'N'] from rfl) h8
                    subst hc
                    simp only [if_pos h8, Option.some.injEq,
                      Prod.mk.injEq] at hp
                    refine ⟨by decide, ?_⟩
                    intro kvs hv
                    rw [← hp.1] at hv
                    exact absurd hv (by simp)
                  · rw [if_neg h8] at hp
                    by_cases h9 : isLit "Infinity" (c :: rest) = true
                    · have hc := isLit_head
                        (show ("Infinity".data : List Char) =
                        'I' :: ['n', 'f', 'i', 'n', 'i', 't', 'y'] from rfl) h9
                      subst hc
                      simp only [if_pos h9, Option.some.injEq,
                        Prod.mk.injEq] at hp
                      refine ⟨by decide, ?_⟩
                      intro kvs hv
                      rw [← hp.1] at hv
                      exact absurd hv (by simp)
                    · rw [if_neg h9] at hp
                      by_cases h10 : isLit "-Infinity" (c :: rest) = true
                      · have hc := isLit_head
                          (show ("-Infinity".data : List Char) =
                          '-' :: ['I', 'n', 'f', 'i', 'n', 'i', 't', 'y'] from
                          rfl) h10
                        subst hc
                        simp only [if_pos h10, Option.some.injEq,
                          Prod.mk.injEq] at hp
                        refine ⟨by decide, ?_⟩
                        intro kvs hv
                        rw [← hp.1] at hv
                        exact absurd hv (by simp)
                      · rw [if_neg h10] at hp
                        simp at hp

/-- The fuel-tied form of `parseValF_head`. -/
theorem parseVal_head {f : Nat} {cs : List Char} {v : Json} {r : List Char}
    (hp : parseVal f cs = some (v, r)) :
    ∃ c cs0, cs = c :: cs0 ∧ pyWs c = false ∧
      (∀ kvs, v = Json.obj kvs → c = '{') := by
  match f with
  | 0 => exact Option.noConfusion ((parseVal_zero cs).symm.trans hp)
  | Nat.succ f =>
    rw [parseVal_succ] at hp
    exact parseValF_head (parseStr f) (parseObjEntries f)
      (parseArrEntries f) cs v r hp

/-- Inversion of a successful top-level parse. -/
theorem listParse_inv {cs : List Char} {v : Json}
    (h : listParse cs = some v) :
    ∃ rest, parseVal (2 * cs.length + 2) (skipWs cs) = some (v, rest) ∧
      (skipWs rest).isEmpty = true := by
  unfold listParse at h
  cases hp : parseVal (2 * cs.length + 2) (skipWs cs) with
  | none => rw [hp] at h; simp at h
  | some p =>
    obtain ⟨v2, rest⟩ := p
    rw [hp] at h
    by_cases he : (skipWs rest).isEmpty
    · simp only [he, if_true, Option.some.injEq] at h
      exact ⟨rest, by rw [h], he⟩
    · simp [he] at h

/-- A list of JSON whitespace is a legal extension. -/
theorem extOk_of_all_ws {w : List Char} (h : ∀ c ∈ w, jsonWs c = true) :
    extOk w := by
  cases w with
  | nil => exact extOk_nil
  | cons c t => exact extOk_of_jsonWs_head (h c (by simp))

/-- Framing: a value scan that consumes everything but trailing whitespace
still succeeds as a top-level parse when the input is wrapped in
whitespace on both sides. -/
theorem listParse_frame {cs rest : List Char} {v : Json} {f : Nat}
    (w1 w2 : List Char)
    (hw1 : ∀ c ∈ w1, jsonWs c = true) (hw2 : ∀ c ∈ w2, jsonWs c = true)
    (hp : parseVal f cs = some (v, rest))
    (hr : ∀ c ∈ rest, jsonWs c = true)
    (hf : f ≤ 2 * (w1 ++ cs ++ w2).length + 2) :
    listParse (w1 ++ cs ++ w2) = some v := by
  obtain ⟨c, cs0, rfl, hpws, _⟩ := parseVal_head hp
  have hjws : jsonWs c = false := by
    cases h : jsonWs c with
    | false => rfl
    | true => exact absurd (jsonWs_pyWs h) (by simp [hpws])
  unfold listParse
  have hskip : skipWs (w1 ++ (c :: cs0) ++ w2) = c :: (cs0 ++ w2) := by
    rw [List.append_assoc, skipWs_append_all _ hw1]
    simp [skipWs, List.dropWhile_cons, hjws]
  rw [hskip]
  have hmono := (parse_ext_mono (extOk_of_all_ws hw2) f
      (2 * (w1 ++ (c :: cs0) ++ w2).length + 2) hf).1
      (c :: cs0) v rest hp
  simp only [List.cons_append] at hmono
  rw [hmono]
  have hnil : skipWs (rest ++ w2) = [] := by
    unfold skipWs
    rw [List.dropWhile_eq_nil_iff]
    intro x hx
    rcases List.mem_append.mp hx with h | h
    · exact hr x h
    · exact hw2 x h
  simp [hnil]

/-- `strip()` leaves a list alone when neither end is whitespace. -/
theorem pyStripL_noop {l : List Char}
    (h1 : ∀ c, l.head? = some c → pyWs c = false)
    (h2 : ∀ c, l.getLast? = some c → pyWs c = false) :
    pyStripL l = l := by
  unfold pyStripL
  have hd : l.dropWhile pyWs = l := by
    cases l with
    | nil => rfl
    | cons c t =>
      have := h1 c rfl
      simp [List.dropWhile_cons, this]
  rw [hd]
  have hrev : l.reverse.dropWhile pyWs = l.reverse := by
    cases hv : l.reverse with
    | nil => rfl
    | cons c t =>
      have hlast : l.getLast? = some c := by
        rw [← List.head?_reverse, hv]
        rfl
      have := h2 c hlast
      simp [List.dropWhile_cons, this]
  rw [hrev, List.reverse_reverse]

/-- Dropping a prefix never lengthens a list. -/
theorem length_dropWhile_le (p : Char → Bool) (l : List Char) :
    (l.dropWhile p).length ≤ l.length := by
  induction l with
  | nil => simp
  | cons c t ih =>
    by_cases h : p c
    · simpa [List.dropWhile_cons, h] using Nat.le_succ_of_le ih
    · simp [List.dropWhile_cons, h]

/-- If `strip()` is a no-op on a nonempty list, its head is not
whitespace. -/
theorem pyStripL_eq_self_head {c : Char} {t : List Char}
    (h : pyStripL (c :: t) = c :: t) : pyWs c = false := by
  by_contra hc
  rw [Bool.not_eq_false] at hc
  have hlen : (pyStripL (c :: t)).length < (c :: t).length := by
    unfold pyStripL
    calc ((((c :: t).dropWhile pyWs).reverse.dropWhile pyWs).reverse).length
        = ((((c :: t).dropWhile pyWs).reverse).dropWhile pyWs).length :=
          List.length_reverse _
      _ ≤ (((c :: t).dropWhile pyWs).reverse).length :=
          length_dropWhile_le _ _
      _ = ((c :: t).dropWhile pyWs).length := List.length_reverse _
      _ = (t.dropWhile pyWs).length := by
          simp [List.dropWhile_cons, hc]
      _ ≤ t.length := length_dropWhile_le _ _
      _ < (c :: t).length := by simp
  rw [h] at hlen
  exact absurd hlen (lt_irrefl _)

/-- `getLast?` of a list with one element appended. -/
theorem getLast_app_single (l : List Char) (a : Char) :
    (l ++ [a]).getLast? = some a := by
  induction l with
  | nil => rfl
  | cons x xs ih =>
    cases xs with
    | nil => rfl
    | cons y ys => simpa using ih

/-- A literal matches any input that starts with it. -/
theorem isLit_self_append (lit : String) (t : List Char) :
    isLit lit (lit.data ++ t) = true := by
  unfold isLit
  rw [List.isPrefixOf_iff_prefix]
  exact ⟨t, rfl⟩

/-- Lines 81-86 on a json-fenced body: `strip()` is a no-op (both ends are
backticks) and the 7/3 slice recovers the inner text with its newlines. -/
theorem stripFence_json (d : List Char) :
    stripFence ("```json\n".data ++ d ++ "\n```".data) =
      '\n' :: (d ++ ['\n']) := by
  unfold stripFence
  have hshape : "```json\n".data ++ d ++ "\n```".data =
      ("```json".data ++ ('\n' :: (d ++ ['\n']))) ++ "```".data := by
    show (['`', '`', '`', 'j', 's', 'o', 'n', '\n'] : List Char) ++ d ++
        (['\n', '`', '`', '`'] : List Char) =
      ((['`', '`', '`', 'j', 's', 'o', 'n'] : List Char) ++
        ('\n' :: (d ++ ['\n']))) ++ (['`', '`', '`'] : List Char)
    simp [List.append_assoc]
  have hnoop : pyStripL ("```json\n".data ++ d ++ "\n```".data) =
      "```json\n".data ++ d ++ "\n```".data := by
    apply pyStripL_noop
    · intro x hx
      have hh : ("```json\n".data ++ d ++ "\n```".data).head? = some '`' := by
        show ((['`', '`', '`', 'j', 's', 'o', 'n', '\n'] : List Char) ++ d ++
          ['\n', '`', '`', '`']).head? = some '`'
        simp
      rw [hh] at hx
      injection hx with hx
      subst hx
      decide
    · intro x hx
      have hl2 : ("```json\n".data ++ d ++ "\n```".data).getLast? =
          some '`' := by
        have hsp : "```json\n".data ++ d ++ "\n```".data =
            ("```json\n".data ++ d ++ ['\n', '`', '`']) ++ ['`'] := by
          simp [List.append_assoc]
        rw [hsp]
        exact getLast_app_single _ _
      rw [hl2] at hx
      injection hx with hx
      subst hx
      decide
  rw [hnoop]
  unfold fenceSliceL
  have hlit : isLit "```json" ("```json\n".data ++ d ++ "\n```".data) =
      true := by
    have hsp : "```json\n".data ++ d ++ "\n```".data =
        "```json".data ++ ('\n' :: (d ++ "\n```".data)) := by
      show (['`', '`', '`', 'j', 's', 'o', 'n', '\n'] : List Char) ++ d ++
          (['\n', '`', '`', '`'] : List Char) =
        (['`', '`', '`', 'j', 's', 'o', 'n'] : List Char) ++
          ('\n' :: (d ++ (['\n', '`', '`', '`'] : List Char)))
      simp [List.append_assoc]
    rw [hsp]
    exact isLit_self_append _ _
  rw [if_pos hlit]
  unfold pySliceDrop
  rw [hshape]
  have hq3 : ((("```json".data ++ ('\n' :: (d ++ ['\n']))) ++
      "```".data).length) =
      ("```json".data ++ ('\n' :: (d ++ ['\n']))).length + 3 := by
    rw [List.length_append]
    rfl
  rw [hq3]
  have hsub : ("```json".data ++ ('\n' :: (d ++ ['\n']))).length + 3 - 3 =
      ("```json".data ++ ('\n' :: (d ++ ['\n']))).length := by omega
  rw [hsub, List.take_left]
  exact List.drop_left' rfl

/-- Lines 81-86 on a plain-fenced body: `strip()` is a no-op, the json
branch does not match (fourth character is a newline, not a j), and the
3/3 slice recovers the inner text with its newlines. -/
theorem stripFence_plain (d : List Char) :
    stripFence ("```\n".data ++ d ++ "\n```".data) =
      '\n' :: (d ++ ['\n']) := by
  unfold stripFence
  have hshape : "```\n".data ++ d ++ "\n```".data =
      ("```".data ++ ('\n' :: (d ++ ['\n']))) ++ "```".data := by
    show (['`', '`', '`', '\n'] : List Char) ++ d ++
        (['\n', '`', '`', '`'] : List Char) =
      ((['`', '`', '`'] : List Char) ++ ('\n' :: (d ++ ['\n']))) ++
        (['`', '`', '`'] : List Char)
    simp [List.append_assoc]
  have hnoop : pyStripL ("```\n".data ++ d ++ "\n```".data) =
      "```\n".data ++ d ++ "\n```".data := by
    apply pyStripL_noop
    · intro x hx
      have hh : ("```\n".data ++ d ++ "\n```".data).head? = some '`' := by
        show ((['`', '`', '`', '\n'] : List Char) ++ d ++
          ['\n', '`', '`', '`']).head? = some '`'
        simp
      rw [hh] at hx
      injection hx with hx
      subst hx
      decide
    · intro x hx
      have hl2 : ("```\n".data ++ d ++ "\n```".data).getLast? =
          some '`' := by
        have hsp : "```\n".data ++ d ++ "\n```".data =
            ("```\n".data ++ d ++ ['\n', '`', '`']) ++ ['`'] := by
          simp [List.append_assoc]
        rw [hsp]
        exact getLast_app_single _ _
      rw [hl2] at hx
      injection hx with hx
      subst hx
      decide
  rw [hnoop]
  unfold fenceSliceL
  have hnotjson : isLit "```json" ("```\n".data ++ d ++ "\n```".data) =
      false := by
    cases hb : isLit "```json" ("```\n".data ++ d ++ "\n```".data) with
    | false => rfl
    | true =>
      obtain ⟨t2, h2, _⟩ := isLit_parts hb
      have h3 : ('`' : Char) :: '`' :: '`' :: '\n' ::
          (d ++ ['\n', '`', '`', '`']) =
          '`' :: '`' :: '`' :: 'j' :: 's' :: 'o' :: 'n' :: t2 := by
        have h4 : "```\n".data ++ d ++ "\n```".data =
            ('`' : Char) :: '`' :: '`' :: '\n' ::
              (d ++ ['\n', '`', '`', '`']) := by
          show (['`', '`', '`', '\n'] : List Char) ++ d ++
              (['\n', '`', '`', '`'] : List Char) = _
          simp
        rw [← h4]
        rw [h2]
        rfl
      injection h3 with a1 r1
      injection r1 with a2 r2
      injection r2 with a3 r3
      injection r3 with a4 r4
      exact absurd a4 (by decide)
  rw [hnotjson]
  rw [if_neg (by simp)]
  have hlit : isLit "```" ("```\n".data ++ d ++ "\n```".data) = true := by
    have hsp : "```\n".data ++ d ++ "\n```".data =
        "```".data ++ ('\n' :: (d ++ "\n```".data)) := by
      show (['`', '`', '`', '\n'] : List Char) ++ d ++
          (['\n', '`', '`', '`'] : List Char) =
        (['`', '`', '`'] : List Char) ++
          ('\n' :: (d ++ (['\n', '`', '`', '`'] : List Char)))
      simp [List.append_assoc]
    rw [hsp]
    exact isLit_self_append _ _
  rw [if_pos hlit]
  unfold pySliceDrop
  rw [hshape]
  have hq3 : ((("```".data ++ ('\n' :: (d ++ ['\n']))) ++
      "```".data).length) =
      ("```".data ++ ('\n' :: (d ++ ['\n']))).length + 3 := by
    rw [List.length_append]
    rfl
  rw [hq3]
  have hsub : ("```".data ++ ('\n' :: (d ++ ['\n']))).length + 3 - 3 =
      ("```".data ++ ('\n' :: (d ++ ['\n']))).length := by omega
  rw [hsub, List.take_left]
  exact List.drop_left' rfl

/-- C1: Fence-stripping is agnostic in the fence: for every JSON object
text J that carries no surrounding whitespace of its own and parses to an
object mapping, the three response bodies with a json-tagged fence, with
a plain fence, and with no fence at all pass through the
fence-stripping-then-parse step of extract_invoice_data (lines 80-87) to
the same parsed mapping. -/
theorem extract_fence_agnostic (J : String) (kvs : List (String × Json))
    (hstrip : pyStripL J.data = J.data)
    (hJ : jsonLoads J = some (Json.obj kvs)) :
    responseToResult ("```json\n" ++ J ++ "\n```") = some (Json.obj kvs) ∧
    responseToResult ("```\n" ++ J ++ "\n```") = some (Json.obj kvs) ∧
    responseToResult J = some (Json.obj kvs) := by
  have hJ2 : listParse J.data = some (Json.obj kvs) := hJ
  obtain ⟨rest, hp, he⟩ := listParse_inv hJ2
  cases hJd : J.data with
  | nil =>
    rw [hJd] at hp
    simp [skipWs, parseVal_nil] at hp
  | cons c t =>
    rw [hJd] at hp hstrip
    have hpws : pyWs c = false := pyStripL_eq_self_head hstrip
    have hjws : jsonWs c = false := by
      cases h : jsonWs c with
      | false => rfl
      | true => exact absurd (jsonWs_pyWs h) (by simp [hpws])
    have hskipJ : skipWs (c :: t) = c :: t := by
      simp [skipWs, List.dropWhile_cons, hjws]
    rw [hskipJ] at hp
    obtain ⟨c2, cs2, heq, _, hobj⟩ := parseVal_head hp
    injection heq with h1 h2
    have hc : c = '{' := h1.trans (hobj kvs rfl)
    have hsrnil : skipWs rest = [] := by
      cases hh : skipWs rest with
      | nil => rfl
      | cons a b => rw [hh] at he; simp at he
    have hrest : ∀ x ∈ rest, jsonWs x = true := skipWs_eq_nil hsrnil
    have hframe : ∀ w1 w2 : List Char, (∀ x ∈ w1, jsonWs x = true) →
        (∀ x ∈ w2, jsonWs x = true) →
        listParse (w1 ++ (c :: t) ++ w2) = some (Json.obj kvs) := by
      intro w1 w2 hw1 hw2
      apply listParse_frame w1 w2 hw1 hw2 hp hrest
      simp only [List.length_append, List.length_cons]
      omega
    have hnl : ∀ x ∈ (['\n'] : List Char), jsonWs x = true := by
      intro x hx
      simp at hx
      subst hx
      decide
    refine ⟨?_, ?_, ?_⟩
    · show responseToResult ("```json\n" ++ J ++ "\n```") =
        some (Json.obj kvs)
      unfold responseToResult
      have hd : ("```json\n" ++ J ++ "\n```").data =
          "```json\n".data ++ J.data ++ "\n```".data := by
        simp [String.data_append]
      rw [hd, stripFence_json]
      have h9 : '\n' :: (J.data ++ ['\n']) =
          ['\n'] ++ (c :: t) ++ ['\n'] := by
        rw [hJd]
        simp
      rw [h9]
      exact hframe ['\n'] ['\n'] hnl hnl
    · show responseToResult ("```\n" ++ J ++ "\n```") =
        some (Json.obj kvs)
      unfold responseToResult
      have hd : ("```\n" ++ J ++ "\n```").data =
          "```\n".data ++ J.data ++ "\n```".data := by
        simp [String.data_append]
      rw [hd, stripFence_plain]
      have h9 : '\n' :: (J.data ++ ['\n']) =
          ['\n'] ++ (c :: t) ++ ['\n'] := by
        rw [hJd]
        simp
      rw [h9]
      exact hframe ['\n'] ['\n'] hnl hnl
    · show responseToResult J = some (Json.obj kvs)
      unfold responseToResult stripFence
      rw [hJd, hstrip]
      unfold fenceSliceL
      have hn1 : isLit "```json" (c :: t) = false :=
        isLit_head_false (show ("```json".data : List Char) =
          '`' :: ['`', '`', 'j', 's', 'o', 'n'] from rfl)
          (by rw [hc]; decide)
      have hn2 : isLit "```" (c :: t) = false :=
        isLit_head_false (show ("```".data : List Char) =
          '`' :: ['`', '`'] from rfl) (by rw [hc]; decide)
      rw [if_neg (by simp [hn1]), if_neg (by simp [hn2])]
      rw [← hJd]
      exact hJ2

/-- C1 witness: a concrete object text exercising all three bodies. -/
theorem extract_fence_agnostic_witness :
    (pyStripL ("\x7b\"a\": \"1\"\x7d" : String).data =
      ("\x7b\"a\": \"1\"\x7d" : String).data) ∧
    (jsonLoads "\x7b\"a\": \"1\"\x7d" =
      some (Json.obj [("a", Json.str "1")])) ∧
    (responseToResult ("```json\n" ++ "\x7b\"a\": \"1\"\x7d" ++ "\n```") =
        some (Json.obj [("a", Json.str "1")]) ∧
      responseToResult ("```\n" ++ "\x7b\"a\": \"1\"\x7d" ++ "\n```") =
        some (Json.obj [("a", Json.str "1")]) ∧
      responseToResult "\x7b\"a\": \"1\"\x7d" =
        some (Json.obj [("a", Json.str "1")])) :=
  ⟨rfl, rfl, extract_fence_agnostic "\x7b\"a\": \"1\"\x7d"
    [("a", Json.str "1")] rfl rfl⟩

/-- A hex digit printed by `dumps` reads back to its value. -/
theorem hexDigit_round : ∀ n, n < 16 →
    hexDigitVal (hexDigitChar n) = some n := by decide

/-- A four-digit hex group printed by `dumps` reads back to its value. -/
theorem hex4_round {n : Nat} (h : n < 65536) :
    hex4Val (hexDigitChar (n / 4096 % 16)) (hexDigitChar (n / 256 % 16))
      (hexDigitChar (n / 16 % 16)) (hexDigitChar (n % 16)) = some n := by
  unfold hex4Val
  rw [hexDigit_round _ (by omega), hexDigit_round _ (by omega),
    hexDigit_round _ (by omega), hexDigit_round _ (by omega)]
  simp only []
  exact congrArg some (by omega)

/-- A character is never a surrogate and stays below the unicode bound. -/
theorem char_valid_nat (c : Char) :
    c.toNat < 55296 ∨ (57343 < c.toNat ∧ c.toNat < 1114112) := c.valid

/-- Escaping a character emits at least one character. -/
theorem one_le_escapeChar_len (c : Char) : 1 ≤ (escapeChar c).length := by
  unfold escapeChar
  repeat' split
  all_goals simp [hex4Chars]

/-- Escaping never shortens a string body. -/
theorem escapeStr_len (s : List Char) : s.length ≤ (escapeStr s).length := by
  induction s with
  | nil => simp [escapeStr]
  | cons c cs ih =>
    have h1 := one_le_escapeChar_len c
    simp only [escapeStr, List.flatMap_cons, List.length_append,
      List.length_cons]
    simp only [escapeStr] at ih
    omega

theorem parseStrF_unicode_esc (go : List Char → Option (List Char × List Char))
    (a b c d : Char) (rest : List Char) (n : Nat)
    (hv : hex4Val a b c d = some n) (hno : ¬(55296 ≤ n ∧ n ≤ 56319))
    (hno2 : ¬(56320 ≤ n ∧ n ≤ 57343)) :
    parseStrF go ('\\' :: 'u' :: a :: b :: c :: d :: rest) =
      (fun p : List Char × List Char => (Char.ofNat n :: p.1, p.2)) <$>
        go rest := by
  simp only [parseStrF, if_true]
  first
  | rw [if_neg (by decide : ¬('\\' : Char) = '"')]
  | skip
  rw [hv]
  first
  | simp only []
  | skip
  rw [if_neg (show ¬((decide (55296 ≤ n) && decide (n ≤ 56319)) = true) by
    simp only [Bool.and_eq_true, decide_eq_true_eq]
    exact hno)]
  rw [if_neg (show ¬((decide (56320 ≤ n) && decide (n ≤ 57343)) = true) by
    simp only [Bool.and_eq_true, decide_eq_true_eq]
    exact hno2)]

theorem parseStrF_surrogate_esc
    (go : List Char → Option (List Char × List Char))
    (a b c d a2 b2 c2 d2 : Char) (rest : List Char) (n m : Nat)
    (hv : hex4Val a b c d = some n) (hn : 55296 ≤ n ∧ n ≤ 56319)
    (hv2 : hex4Val a2 b2 c2 d2 = some m) (hm : 56320 ≤ m ∧ m ≤ 57343) :
    parseStrF go ('\\' :: 'u' :: a :: b :: c :: d ::
        '\\' :: 'u' :: a2 :: b2 :: c2 :: d2 :: rest) =
      (fun p : List Char × List Char =>
        (Char.ofNat (65536 + (n - 55296) * 1024 + (m - 56320)) :: p.1,
          p.2)) <$> go rest := by
  simp only [parseStrF, if_true]
  first
  | rw [if_neg (by decide : ¬('\\' : Char) = '"')]
  | skip
  rw [hv]
  first
  | simp only []
  | skip
  rw [if_pos (show (decide (55296 ≤ n) && decide (n ≤ 56319)) = true by
    simp only [Bool.and_eq_true, decide_eq_true_eq]
    exact hn)]
  first
  | rw [if_pos (show (decide (('\\' : Char) = '\\') &&
      decide (('u' : Char) = 'u')) = true from by decide)]
  | rw [if_pos (show (decide True && decide True) = true from by decide)]
  rw [hv2]
  first
  | simp only []
  | skip
  rw [if_pos (show (decide (56320 ≤ m) && decide (m ≤ 57343)) = true by
    simp only [Bool.and_eq_true, decide_eq_true_eq]
    exact hm)]

/-- The string scanner undoes `dumps`'s ensure_ascii escaping: scanning the
escaped body followed by the closing quote returns the original characters
and the input after the quote, for any fuel above the character count. -/
theorem parseStr_escape (s : List Char) :
    ∀ f tail, s.length + 1 ≤ f →
      parseStr f (escapeStr s ++ '"' :: tail) = some (s, tail) := by
  induction s with
  | nil =>
    intro f tail hf
    obtain ⟨g, rfl⟩ : ∃ g, f = g + 1 := ⟨f - 1, by omega⟩
    show parseStrF (parseStr g) ('"' :: tail) = some ([], tail)
    simp [parseStrF]
  | cons c cs ih =>
    intro f tail hf
    obtain ⟨g, rfl⟩ : ∃ g, f = g + 1 := ⟨f - 1, by
      simp only [List.length_cons] at hf
      omega⟩
    have hg : cs.length + 1 ≤ g := by
      simp only [List.length_cons] at hf
      omega
    have hrec := ih g tail hg
    show parseStrF (parseStr g)
      (escapeStr (c :: cs) ++ '"' :: tail) = some (c :: cs, tail)
    rw [show escapeStr (c :: cs) = escapeChar c ++ escapeStr cs from
      List.flatMap_cons ..]
    by_cases h1 : c = '"'
    · subst h1
      rw [show escapeChar '"' = ['\\', '"'] from rfl]
      simp [parseStrF, escChar, hrec]
    · by_cases h2 : c = '\\'
      · subst h2
        rw [show escapeChar '\\' = ['\\', '\\'] from rfl]
        simp [parseStrF, escChar, hrec]
      · by_cases h3 : c = '\x08'
        · subst h3
          rw [show escapeChar '\x08' = ['\\', 'b'] from rfl]
          simp [parseStrF, escChar, hrec]
        · by_cases h4 : c = '\x0c'
          · subst h4
            rw [show escapeChar '\x0c' = ['\\', 'f'] from rfl]
            simp [parseStrF, escChar, hrec]
          · by_cases h5 : c = '\n'
            · subst h5
              rw [show escapeChar '\n' = ['\\', 'n'] from rfl]
              simp [parseStrF, escChar, hrec]
            · by_cases h6 : c = '\r'
              · subst h6
                rw [show escapeChar '\r' = ['\\', 'r'] from rfl]
                simp [parseStrF, escChar, hrec]
              · by_cases h7 : c = '\t'
                · subst h7
                  rw [show escapeChar '\t' = ['\\', 't'] from rfl]
                  simp [parseStrF, escChar, hrec]
                · by_cases h8 : 32 ≤ c.toNat ∧ c.toNat ≤ 126
                  · have hesc : escapeChar c = [c] := by
                      unfold escapeChar
                      rw [if_neg h1, if_neg h2, if_neg h3, if_neg h4,
                        if_neg h5, if_neg h6, if_neg h7]
                      rw [if_pos (by
                        simp only [Bool.and_eq_true, decide_eq_true_eq]
                        exact h8)]
                    rw [hesc]
                    simp only [List.cons_append, List.nil_append]
                    simp only [parseStrF]
                    rw [if_neg h1, if_neg h2,
                      if_neg (by omega : ¬c.toNat < 32)]
                    rw [hrec]
                    rfl
                  by_cases h9 : c.toNat < 65536
                  · have hs : ¬(55296 ≤ c.toNat ∧ c.toNat ≤ 56319) := by
                      rcases char_valid_nat c with h | h <;> omega
                    have hs2 : ¬(56320 ≤ c.toNat ∧ c.toNat ≤ 57343) := by
                      rcases char_valid_nat c with h | h <;> omega
                    have hesc : escapeChar c =
                        '\\' :: 'u' :: hex4Chars c.toNat := by
                      unfold escapeChar
                      rw [if_neg h1, if_neg h2, if_neg h3, if_neg h4,
                        if_neg h5, if_neg h6, if_neg h7]
                      rw [if_neg (by
                        simp only [Bool.and_eq_true, decide_eq_true_eq]
                        exact h8)]
                      rw [if_pos h9]
                    rw [hesc]
                    simp only [hex4Chars, List.cons_append, List.nil_append]
                    rw [parseStrF_unicode_esc (parseStr g) _ _ _ _ _
                      c.toNat (hex4_round h9) hs hs2]
                    rw [hrec]
                    simp [Char.ofNat_toNat]
                  · have hup : c.toNat < 1114112 := by
                      rcases char_valid_nat c with h | h <;> omega
                    have hesc : escapeChar c =
                        ('\\' :: 'u' ::
                          hex4Chars (55296 + (c.toNat - 65536) / 1024)) ++
                        ('\\' :: 'u' ::
                          hex4Chars (56320 + (c.toNat - 65536) % 1024)) := by
                      unfold escapeChar
                      rw [if_neg h1, if_neg h2, if_neg h3, if_neg h4,
                        if_neg h5, if_neg h6, if_neg h7]
                      rw [if_neg (by
                        simp only [Bool.and_eq_true, decide_eq_true_eq]
                        exact h8)]
                      rw [if_neg h9]
                    rw [hesc]
                    have hhi : (55296 + (c.toNat - 65536) / 1024) < 65536 := by
                      omega
                    have hlo : (56320 + (c.toNat - 65536) % 1024) < 65536 := by
                      have := Nat.mod_lt (c.toNat - 65536) (show 0 < 1024 by omega)
                      omega
                    simp only [hex4Chars, List.cons_append, List.nil_append]
                    rw [parseStrF_surrogate_esc (parseStr g) _ _ _ _
                      _ _ _ _ _ (55296 + (c.toNat - 65536) / 1024)
                      (56320 + (c.toNat - 65536) % 1024)
                      (hex4_round hhi)
                      (by
                        have h10 : (c.toNat - 65536) / 1024 ≤ 1023 := by omega
                        exact ⟨by omega, by omega⟩)
                      (hex4_round hlo)
                      (by
                        have := Nat.mod_lt (c.toNat - 65536) (show 0 < 1024 by omega)
                        exact ⟨by omega, by omega⟩)]
                    rw [hrec]
                    have harith : 65536 + (c.toNat - 65536) / 1024 * 1024 +
                        (c.toNat - 65536) % 1024 = c.toNat := by
                      have := Nat.div_add_mod (c.toNat - 65536) 1024
                      omega
                    simp [harith, Char.ofNat_toNat]

/-- A number lexeme as the decoder stores it: either a complete NUMBER_RE
match that reads back to itself, or one of the three non-finite
constants. -/
def numCanon (lex : String) : Bool :=
  decide (parseNum lex.data = some (lex, [])) || decide (lex = "NaN") ||
  decide (lex = "Infinity") || decide (lex = "-Infinity")

mutual

/-- A value as `json.loads` produced it: canonical number lexemes and
objects with pairwise-distinct keys all the way down. -/
def wfJ : Json → Bool
  | Json.null => true
  | Json.bool _ => true
  | Json.num lex => numCanon lex
  | Json.str _ => true
  | Json.arr l => wfA l
  | Json.obj l => decide ((l.map Prod.fst).Nodup) && wfO l

/-- All elements well formed. -/
def wfA : List Json → Bool
  | [] => true
  | v :: t => wfJ v && wfA t

/-- All member values well formed. -/
def wfO : List (String × Json) → Bool
  | [] => true
  | kv :: t => wfJ kv.2 && wfO t

end

/-- Inserting a fresh key appends it. -/
theorem dictInsert_fresh (k : String) (v : Json) :
    ∀ acc : List (String × Json), k ∉ acc.map Prod.fst →
      dictInsert k v acc = acc ++ [(k, v)] := by
  intro acc
  induction acc with
  | nil => intro _; rfl
  | cons p rest ih =>
    intro hk
    obtain ⟨k2, v2⟩ := p
    simp only [List.map_cons, List.mem_cons] at hk
    rw [show dictInsert k v ((k2, v2) :: rest) =
      (if k2 = k then (k, v) :: rest else
        (k2, v2) :: dictInsert k v rest) from rfl]
    rw [if_neg (fun h => hk (Or.inl h.symm))]
    rw [ih (fun h => hk (Or.inr h))]
    simp

/-- `dict(pairs)` on pairwise-distinct keys returns the pairs
unchanged. -/
theorem dictOfPairs_self (ps : List (String × Json))
    (h : (ps.map Prod.fst).Nodup) : dictOfPairs ps = ps := by
  suffices hgen : ∀ acc : List (String × Json),
      (∀ q ∈ ps, q.1 ∉ acc.map Prod.fst) →
      List.foldl (fun d p => dictInsert p.1 p.2 d) acc ps = acc ++ ps by
    have := hgen [] (by simp)
    simpa [dictOfPairs] using this
  induction ps with
  | nil => intro acc _; simp
  | cons p rest ih =>
    intro acc hacc
    obtain ⟨k, v⟩ := p
    simp only [List.foldl_cons]
    rw [dictInsert_fresh k v acc (hacc (k, v) (by simp))]
    simp only [List.map_cons, List.nodup_cons] at h
    rw [ih h.2 (acc ++ [(k, v)]) ?_]
    · simp
    · intro q hq
      simp only [List.map_append, List.mem_append, List.map_cons]
      intro hmem
      rcases hmem with hl | hr
      · exact hacc q (by simp [hq]) hl
      · simp only [List.map_nil, List.mem_singleton] at hr
        exact h.1 (hr ▸ List.mem_map_of_mem Prod.fst hq)

/-- Every printed value starts with a character that is not JSON
whitespace and closes no container. -/
theorem dump_head (v : Json) (ind : Nat) (hwf : wfJ v = true) :
    ∃ c cs0, dumpVal ind v = c :: cs0 ∧ jsonWs c = false ∧
      c ≠ ']' ∧ c ≠ '}' := by
  cases v with
  | null =>
    refine ⟨'n', _, rfl, ?_, ?_, ?_⟩ <;> decide
  | bool b =>
    cases b with
    | true => refine ⟨'t', _, rfl, ?_, ?_, ?_⟩ <;> decide
    | false => refine ⟨'f', _, rfl, ?_, ?_, ?_⟩ <;> decide
  | str s =>
    refine ⟨'"', _, rfl, ?_, ?_, ?_⟩ <;> decide
  | arr l =>
    cases l with
    | nil => refine ⟨'[', _, rfl, ?_, ?_, ?_⟩ <;> decide
    | cons x xs => refine ⟨'[', _, rfl, ?_, ?_, ?_⟩ <;> decide
  | obj l =>
    cases l with
    | nil => refine ⟨'\x7b', _, rfl, ?_, ?_, ?_⟩ <;> decide
    | cons kv kvs => refine ⟨'\x7b', _, rfl, ?_, ?_, ?_⟩ <;> decide
  | num lex =>
    simp only [wfJ, numCanon, Bool.or_eq_true, decide_eq_true_eq] at hwf
    rcases hwf with ((hc | hnan) | hinf) | hninf
    · cases hlex : lex.data with
      | nil => rw [hlex] at hc; simp [parseNum] at hc
      | cons c t =>
        rw [hlex] at hc
        rcases parseNum_some_head hc with hneg | hdig
        · exact ⟨c, t, by simp [dumpVal, hlex], by rw [hneg]; decide,
            by rw [hneg]; decide, by rw [hneg]; decide⟩
        · refine ⟨c, t, by simp [dumpVal, hlex], ?_, ?_, ?_⟩
          · cases hj : jsonWs c with
            | false => rfl
            | true =>
              have := jsonWs_pyWs hj
              rw [isDigit_not_pyWs hdig] at this
              exact absurd this (by simp)
          · intro h
            rw [h] at hdig
            exact absurd hdig (by decide)
          · intro h
            rw [h] at hdig
            exact absurd hdig (by decide)
    · subst hnan
      refine ⟨'N', _, rfl, ?_, ?_, ?_⟩ <;> decide
    · subst hinf
      refine ⟨'I', _, rfl, ?_, ?_, ?_⟩ <;> decide
    · subst hninf
      refine ⟨'-', _, rfl, ?_, ?_, ?_⟩ <;> decide

/-- Everything in a fresh indented line is whitespace. -/
theorem nlIndent_ws (ind : Nat) : ∀ c ∈ nlIndent ind, jsonWs c = true := by
  intro c hc
  simp only [nlIndent, List.mem_cons] at hc
  rcases hc with rfl | hc
  · decide
  · rw [List.eq_of_mem_replicate hc]
    decide

/-- Skipping whitespace jumps over a fresh indented line. -/
theorem skipWs_nlIndent (ind : Nat) (x : List Char) :
    skipWs (nlIndent ind ++ x) = skipWs x :=
  skipWs_append_all x (nlIndent_ws ind)

/-- Skipping whitespace stops at a non-whitespace head. -/
theorem skipWs_cons_neg {c : Char} (t : List Char) (h : jsonWs c = false) :
    skipWs (c :: t) = c :: t := by
  simp [skipWs, List.dropWhile_cons, h]

/-- A suffix whose head cannot continue a number is a legal extension. -/
theorem extOk_cons_of {c : Char} (t : List Char) (h : numCont c = false) :
    extOk (c :: t) := by
  intro d hd
  simp only [List.head?_cons, Option.some.injEq] at hd
  subst hd
  exact h

/-- The extension seen after a member value: the rest of the members, the
closing line and the closer, whose head never continues a number. -/
theorem extOk_obj_rest (ind : Nat) (l : List (String × Json))
    (w ext : List Char) (hw : ∀ x ∈ w, jsonWs x = true) :
    extOk (dumpObjTail ind l ++ (w ++ '\x7d' :: ext)) := by
  cases l with
  | cons kv l2 =>
    exact extOk_cons_of _ (by decide)
  | nil =>
    show extOk ([] ++ (w ++ '\x7d' :: ext))
    rw [List.nil_append]
    cases w with
    | nil => exact extOk_cons_of _ (by decide)
    | cons a t => exact extOk_of_jsonWs_head (hw a (by simp))

/-- The extension seen after an array element. -/
theorem extOk_arr_rest (ind : Nat) (l : List Json)
    (w ext : List Char) (hw : ∀ x ∈ w, jsonWs x = true) :
    extOk (dumpArrTail ind l ++ (w ++ ']' :: ext)) := by
  cases l with
  | cons x l2 =>
    exact extOk_cons_of _ (by decide)
  | nil =>
    show extOk ([] ++ (w ++ ']' :: ext))
    rw [List.nil_append]
    cases w with
    | nil => exact extOk_cons_of _ (by decide)
    | cons a t => exact extOk_of_jsonWs_head (hw a (by simp))

/-- Length of a fresh indented line. -/
theorem nlIndent_len (ind : Nat) : (nlIndent ind).length = ind + 1 := by
  simp [nlIndent]

/-- Length of one printed member. -/
theorem dumpObjEntry_len (ind : Nat) (k : String) (v : Json) :
    (dumpObjEntry ind (k, v)).length =
      (escapeStr k.data).length + 4 + (dumpVal ind v).length := by
  simp [dumpObjEntry, dumpStr, List.length_append]
  omega

/-- Length of the remaining printed members. -/
theorem dumpObjTail_len (ind : Nat) (kv : String × Json)
    (l : List (String × Json)) :
    (dumpObjTail ind (kv :: l)).length =
      2 + ind + (dumpObjEntry ind kv).length + (dumpObjTail ind l).length := by
  show (',' :: (nlIndent ind ++ dumpObjEntry ind kv ++
    dumpObjTail ind l)).length = _
  simp [List.length_append, nlIndent_len]
  omega

/-- Length of the remaining printed elements. -/
theorem dumpArrTail_len (ind : Nat) (x : Json) (l : List Json) :
    (dumpArrTail ind (x :: l)).length =
      2 + ind + (dumpVal ind x).length + (dumpArrTail ind l).length := by
  show (',' :: (nlIndent ind ++ dumpVal ind x ++
    dumpArrTail ind l)).length = _
  simp [List.length_append, nlIndent_len]
  omega

/-- Length of a printed nonempty object. -/
theorem dumpVal_obj_len (ind : Nat) (kv : String × Json)
    (l : List (String × Json)) :
    (dumpVal ind (Json.obj (kv :: l))).length =
      (dumpObjEntry (ind + 2) kv).length +
        (dumpObjTail (ind + 2) l).length + ind * 2 + 6 := by
  show ('\x7b' :: (nlIndent (ind + 2) ++ dumpObjEntry (ind + 2) kv ++
    dumpObjTail (ind + 2) l ++ nlIndent ind ++ ['\x7d'])).length = _
  simp [List.length_append, nlIndent_len]
  omega

/-- Length of a printed nonempty array. -/
theorem dumpVal_arr_len (ind : Nat) (x : Json) (l : List Json) :
    (dumpVal ind (Json.arr (x :: l))).length =
      (dumpVal (ind + 2) x).length +
        (dumpArrTail (ind + 2) l).length + ind * 2 + 6 := by
  show ('[' :: (nlIndent (ind + 2) ++ dumpVal (ind + 2) x ++
    dumpArrTail (ind + 2) l ++ nlIndent ind ++ [']'])).length = _
  simp [List.length_append, nlIndent_len]
  omega

/-- Length of a printed string literal. -/
theorem dumpStr_len (s : String) :
    (dumpStr s).length = (escapeStr s.data).length + 2 := by
  simp [dumpStr, List.length_append]

/-- Negation form of `isLit_head_false`, for branch selection. -/
theorem isLit_head_ne {l0 : Char} {ls : List Char} {lit : String}
    {c : Char} {xs : List Char} (hl : lit.data = l0 :: ls) (hc : c ≠ l0) :
    ¬(isLit lit (c :: xs) = true) := by
  rw [isLit_head_false hl hc]
  simp

/-- The scanner on the printed `null`. -/
theorem parseVal_print_null (g : Nat) (ext : List Char) :
    parseVal (g + 1) ('n' :: 'u' :: 'l' :: 'l' :: ext) =
      some (Json.null, ext) := by
  rw [parseVal_succ]
  simp only [parseValF]
  rw [if_neg (by decide : ¬('n' : Char) = '"'),
    if_neg (by decide : ¬('n' : Char) = '{'),
    if_neg (by decide : ¬('n' : Char) = '[')]
  rw [if_pos (show isLit "null" ('n' :: 'u' :: 'l' :: 'l' :: ext) = true
    from isLit_self_append "null" ext)]
  rfl

/-- The scanner on the printed `true`. -/
theorem parseVal_print_true (g : Nat) (ext : List Char) :
    parseVal (g + 1) ('t' :: 'r' :: 'u' :: 'e' :: ext) =
      some (Json.bool true, ext) := by
  rw [parseVal_succ]
  simp only [parseValF]
  rw [if_neg (by decide : ¬('t' : Char) = '"'),
    if_neg (by decide : ¬('t' : Char) = '{'),
    if_neg (by decide : ¬('t' : Char) = '[')]
  rw [if_neg (isLit_head_ne (show ("null".data : List Char) =
    'n' :: ['u', 'l', 'l'] from rfl) (by decide : ('t' : Char) ≠ 'n'))]
  rw [if_pos (show isLit "true" ('t' :: 'r' :: 'u' :: 'e' :: ext) = true
    from isLit_self_append "true" ext)]
  rfl

/-- The scanner on the printed `false`. -/
theorem parseVal_print_false (g : Nat) (ext : List Char) :
    parseVal (g + 1) ('f' :: 'a' :: 'l' :: 's' :: 'e' :: ext) =
      some (Json.bool false, ext) := by
  rw [parseVal_succ]
  simp only [parseValF]
  rw [if_neg (by decide : ¬('f' : Char) = '"'),
    if_neg (by decide : ¬('f' : Char) = '{'),
    if_neg (by decide : ¬('f' : Char) = '[')]
  rw [if_neg (isLit_head_ne (show ("null".data : List Char) =
    'n' :: ['u', 'l', 'l'] from rfl) (by decide : ('f' : Char) ≠ 'n'))]
  rw [if_neg (isLit_head_ne (show ("true".data : List Char) =
    't' :: ['r', 'u', 'e'] from rfl) (by decide : ('f' : Char) ≠ 't'))]
  rw [if_pos (show isLit "false" ('f' :: 'a' :: 'l' :: 's' :: 'e' :: ext) =
    true from isLit_self_append "false" ext)]
  rfl

/-- The scanner on the printed `NaN`. -/
theorem parseVal_print_nan (g : Nat) (ext : List Char) :
    parseVal (g + 1) ('N' :: 'a' :: 'N' :: ext) =
      some (Json.num "NaN", ext) := by
  rw [parseVal_succ]
  simp only [parseValF]
  rw [if_neg (by decide : ¬('N' : Char) = '"'),
    if_neg (by decide : ¬('N' : Char) = '{'),
    if_neg (by decide : ¬('N' : Char) = '[')]
  rw [if_neg (isLit_head_ne (show ("null".data : List Char) =
    'n' :: ['u', 'l', 'l'] from rfl) (by decide : ('N' : Char) ≠ 'n'))]
  rw [if_neg (isLit_head_ne (show ("true".data : List Char) =
    't' :: ['r', 'u', 'e'] from rfl) (by decide : ('N' : Char) ≠ 't'))]
  rw [if_neg (isLit_head_ne (show ("false".data : List Char) =
    'f' :: ['a', 'l', 's', 'e'] from rfl) (by decide : ('N' : Char) ≠ 'f'))]
  rw [parseNum_none_head _ (by decide) (by decide)]
  rw [if_pos (show isLit "NaN" ('N' :: 'a' :: 'N' :: ext) = true
    from isLit_self_append "NaN" ext)]
  rfl

/-- The scanner on the printed `Infinity`. -/
theorem parseVal_print_inf (g : Nat) (ext : List Char) :
    parseVal (g + 1)
      ('I' :: 'n' :: 'f' :: 'i' :: 'n' :: 'i' :: 't' :: 'y' :: ext) =
      some (Json.num "Infinity", ext) := by
  rw [parseVal_succ]
  simp only [parseValF]
  rw [if_neg (by decide : ¬('I' : Char) = '"'),
    if_neg (by decide : ¬('I' : Char) = '{'),
    if_neg (by decide : ¬('I' : Char) = '[')]
  rw [if_neg (isLit_head_ne (show ("null".data : List Char) =
    'n' :: ['u', 'l', 'l'] from rfl) (by decide : ('I' : Char) ≠ 'n'))]
  rw [if_neg (isLit_head_ne (show ("true".data : List Char) =
    't' :: ['r', 'u', 'e'] from rfl) (by decide : ('I' : Char) ≠ 't'))]
  rw [if_neg (isLit_head_ne (show ("false".data : List Char) =
    'f' :: ['a', 'l', 's', 'e'] from rfl) (by decide : ('I' : Char) ≠ 'f'))]
  rw [parseNum_none_head _ (by decide) (by decide)]
  rw [if_neg (isLit_head_ne (show ("NaN".data : List Char) =
    'N' :: ['a', 'N'] from rfl) (by decide : ('I' : Char) ≠ 'N'))]
  rw [if_pos (show isLit "Infinity"
    ('I' :: 'n' :: 'f' :: 'i' :: 'n' :: 'i' :: 't' :: 'y' :: ext) = true
    from isLit_self_append "Infinity" ext)]
  rfl

/-- The scanner on the printed `-Infinity`. -/
theorem parseVal_print_ninf (g : Nat) (ext : List Char) :
    parseVal (g + 1)
      ('-' :: 'I' :: 'n' :: 'f' :: 'i' :: 'n' :: 'i' :: 't' :: 'y' :: ext) =
      some (Json.num "-Infinity", ext) := by
  rw [parseVal_succ]
  simp only [parseValF]
  rw [if_neg (by decide : ¬('-' : Char) = '"'),
    if_neg (by decide : ¬('-' : Char) = '{'),
    if_neg (by decide : ¬('-' : Char) = '[')]
  rw [if_neg (isLit_head_ne (show ("null".data : List Char) =
    'n' :: ['u', 'l', 'l'] from rfl) (by decide : ('-' : Char) ≠ 'n'))]
  rw [if_neg (isLit_head_ne (show ("true".data : List Char) =
    't' :: ['r', 'u', 'e'] from rfl) (by decide : ('-' : Char) ≠ 't'))]
  rw [if_neg (isLit_head_ne (show ("false".data : List Char) =
    'f' :: ['a', 'l', 's', 'e'] from rfl) (by decide : ('-' : Char) ≠ 'f'))]
  rw [parseNum_neg_none _ (by decide : ('I' : Char).isDigit = false)]
  rw [if_neg (isLit_head_ne (show ("NaN".data : List Char) =
    'N' :: ['a', 'N'] from rfl) (by decide : ('-' : Char) ≠ 'N'))]
  rw [if_neg (isLit_head_ne (show ("Infinity".data : List Char) =
    'I' :: ['n', 'f', 'i', 'n', 'i', 't', 'y'] from rfl)
    (by decide : ('-' : Char) ≠ 'I'))]
  rw [if_pos (show isLit "-Infinity"
    ('-' :: 'I' :: 'n' :: 'f' :: 'i' :: 'n' :: 'i' :: 't' :: 'y' :: ext) =
    true from isLit_self_append "-Infinity" ext)]
  rfl

/-- The scanner on a canonical printed number lexeme. -/
theorem parseVal_print_num (g : Nat) (ext : List Char) (lex : String)
    (hc : parseNum lex.data = some (lex, [])) (hext : extOk ext) :
    parseVal (g + 1) (lex.data ++ ext) = some (Json.num lex, ext) := by
  cases hlex : lex.data with
  | nil => rw [hlex] at hc; simp [parseNum] at hc
  | cons c t =>
    rw [hlex] at hc
    have hhead := parseNum_some_head hc
    have hne : c ≠ '"' ∧ c ≠ '{' ∧ c ≠ '[' ∧ c ≠ 'n' ∧ c ≠ 't' ∧
        c ≠ 'f' := by
      rcases hhead with rfl | hdig
      · exact ⟨by decide, by decide, by decide, by decide, by decide,
          by decide⟩
      · refine ⟨?_, ?_, ?_, ?_, ?_, ?_⟩ <;>
          (intro h; rw [h] at hdig; exact absurd hdig (by decide))
    rw [parseVal_succ, List.cons_append]
    simp only [parseValF]
    rw [if_neg hne.1, if_neg hne.2.1, if_neg hne.2.2.1]
    rw [if_neg (isLit_head_ne (show ("null".data : List Char) =
      'n' :: ['u', 'l', 'l'] from rfl) hne.2.2.2.1)]
    rw [if_neg (isLit_head_ne (show ("true".data : List Char) =
      't' :: ['r', 'u', 'e'] from rfl) hne.2.2.2.2.1)]
    rw [if_neg (isLit_head_ne (show ("false".data : List Char) =
      'f' :: ['a', 'l', 's', 'e'] from rfl) hne.2.2.2.2.2)]
    have hpe := parseNum_ext hext (c :: t) lex [] hc
    rw [List.nil_append] at hpe
    rw [show (c :: t) ++ ext = c :: (t ++ ext) from rfl] at hpe
    rw [hpe]

/-- The scanner on a printed string literal. -/
theorem parseVal_print_str (g : Nat) (ext : List Char) (s : String)
    (hg : s.data.length + 1 ≤ g) :
    parseVal (g + 1) (dumpStr s ++ ext) = some (Json.str s, ext) := by
  have hd : dumpStr s ++ ext =
      '"' :: (escapeStr s.data ++ '"' :: ext) := by
    simp [dumpStr]
  rw [hd, parseVal_succ]
  simp only [parseValF]
  first
  | rw [if_pos rfl]
  | simp only [if_true]
  rw [parseStr_escape s.data g ext hg]

/-- The scanner on the printed empty object. -/
theorem parseVal_print_emptyobj (g : Nat) (ext : List Char) :
    parseVal (g + 1) ('\x7b' :: '\x7d' :: ext) =
      some (Json.obj [], ext) := by
  rw [parseVal_succ]
  simp only [parseValF]
  rw [if_neg (by decide : ¬('\x7b' : Char) = '"')]
  first
  | rw [if_pos rfl]
  | simp only [if_true]
  rw [skipWs_cons_neg ext (by decide)]
  first
  | rw [if_pos rfl]
  | simp only [if_true]

/-- The scanner on the printed empty array. -/
theorem parseVal_print_emptyarr (g : Nat) (ext : List Char) :
    parseVal (g + 1) ('[' :: ']' :: ext) = some (Json.arr [], ext) := by
  rw [parseVal_succ]
  simp only [parseValF]
  rw [if_neg (by decide : ¬('[' : Char) = '"'),
    if_neg (by decide : ¬('[' : Char) = '{')]
  first
  | rw [if_pos rfl]
  | simp only [if_true]
  rw [skipWs_cons_neg ext (by decide)]
  first
  | rw [if_pos rfl]
  | simp only [if_true]

/-- Skipping whitespace jumps over one space. -/
theorem skipWs_space (x : List Char) : skipWs (' ' :: x) = skipWs x := by
  show List.dropWhile jsonWs (' ' :: x) = _
  rw [List.dropWhile_cons, if_pos (by decide : jsonWs ' ' = true)]
  rfl

/-- The scanner on a printed nonempty object, given the members scan. -/
theorem parseVal_print_obj (g ind : Nat) (ext : List Char)
    (k : String) (v : Json) (l : List (String × Json))
    (hnd : (((k, v) :: l).map Prod.fst).Nodup)
    (hcont : parseObjEntries g (dumpObjEntry (ind + 2) (k, v) ++
      dumpObjTail (ind + 2) l ++ (nlIndent ind ++ '\x7d' :: ext)) =
      some ((k, v) :: l, ext)) :
    parseVal (g + 1) (dumpVal ind (Json.obj ((k, v) :: l)) ++ ext) =
      some (Json.obj ((k, v) :: l), ext) := by
  have hshape : dumpVal ind (Json.obj ((k, v) :: l)) ++ ext =
      '\x7b' :: (nlIndent (ind + 2) ++ (dumpObjEntry (ind + 2) (k, v) ++
        dumpObjTail (ind + 2) l ++ (nlIndent ind ++ '\x7d' :: ext))) := by
    show ('\x7b' :: (nlIndent (ind + 2) ++ dumpObjEntry (ind + 2) (k, v) ++
      dumpObjTail (ind + 2) l ++ nlIndent ind ++ ['\x7d'])) ++ ext = _
    simp [List.append_assoc]
  rw [hshape, parseVal_succ]
  simp only [parseValF]
  rw [if_neg (by decide : ¬('\x7b' : Char) = '"')]
  first
  | rw [if_pos rfl]
  | simp only [if_true]
  rw [skipWs_nlIndent]
  have hent : dumpObjEntry (ind + 2) (k, v) ++ dumpObjTail (ind + 2) l ++
      (nlIndent ind ++ '\x7d' :: ext) =
      '"' :: (escapeStr k.data ++ '"' :: (':' :: ' ' ::
        (dumpVal (ind + 2) v ++ (dumpObjTail (ind + 2) l ++
        (nlIndent ind ++ '\x7d' :: ext))))) := by
    show (dumpStr k ++ ':' :: ' ' :: dumpVal (ind + 2) v) ++
      dumpObjTail (ind + 2) l ++ (nlIndent ind ++ '\x7d' :: ext) = _
    simp [dumpStr, List.append_assoc]
  rw [hent, skipWs_cons_neg _ (by decide)]
  simp only []
  rw [if_neg (by decide : ¬('"' : Char) = '\x7d')]
  rw [← hent, hcont]
  simp only []
  rw [dictOfPairs_self _ hnd]

/-- The scanner on a printed nonempty array, given the elements scan. -/
theorem parseVal_print_arr (g ind : Nat) (ext : List Char)
    (x : Json) (l : List Json) (hwfx : wfJ x = true)
    (hcont : parseArrEntries g (dumpVal (ind + 2) x ++
      dumpArrTail (ind + 2) l ++ (nlIndent ind ++ ']' :: ext)) =
      some (x :: l, ext)) :
    parseVal (g + 1) (dumpVal ind (Json.arr (x :: l)) ++ ext) =
      some (Json.arr (x :: l), ext) := by
  have hshape : dumpVal ind (Json.arr (x :: l)) ++ ext =
      '[' :: (nlIndent (ind + 2) ++ (dumpVal (ind + 2) x ++
        dumpArrTail (ind + 2) l ++ (nlIndent ind ++ ']' :: ext))) := by
    show ('[' :: (nlIndent (ind + 2) ++ dumpVal (ind + 2) x ++
      dumpArrTail (ind + 2) l ++ nlIndent ind ++ [']'])) ++ ext = _
    simp [List.append_assoc]
  rw [hshape, parseVal_succ]
  simp only [parseValF]
  rw [if_neg (by decide : ¬('[' : Char) = '"'),
    if_neg (by decide : ¬('[' : Char) = '{')]
  first
  | rw [if_pos rfl]
  | simp only [if_true]
  rw [skipWs_nlIndent]
  obtain ⟨c0, cs0, hdx, hws, hnb, _⟩ := dump_head x (ind + 2) hwfx
  have hr : dumpVal (ind + 2) x ++ dumpArrTail (ind + 2) l ++
      (nlIndent ind ++ ']' :: ext) =
      c0 :: (cs0 ++ dumpArrTail (ind + 2) l ++
        (nlIndent ind ++ ']' :: ext)) := by
    rw [hdx]
    simp [List.cons_append]
  rw [hr, skipWs_cons_neg _ hws]
  simp only []
  rw [if_neg hnb]
  rw [← hr, hcont]

/-- One step of the members scan on printed members: scan the key, the
colon, the value, then either the comma and the remaining members or the
closing line and brace. -/
theorem parseObjEntries_print (g : Nat)
    (ihV : ∀ v ind ext, wfJ v = true → extOk ext →
      (dumpVal ind v).length < g →
      parseVal g (dumpVal ind v ++ ext) = some (v, ext))
    (ihO : ∀ k v l ind w ext, wfJ v = true → wfO l = true → extOk ext →
      (∀ x ∈ w, jsonWs x = true) →
      (dumpObjEntry ind (k, v)).length + (dumpObjTail ind l).length < g →
      parseObjEntries g (dumpObjEntry ind (k, v) ++ dumpObjTail ind l ++
        (w ++ '\x7d' :: ext)) = some ((k, v) :: l, ext)) :
    ∀ k v l ind w ext, wfJ v = true → wfO l = true → extOk ext →
      (∀ x ∈ w, jsonWs x = true) →
      (dumpObjEntry ind (k, v)).length + (dumpObjTail ind l).length < g + 1 →
      parseObjEntries (g + 1) (dumpObjEntry ind (k, v) ++
        dumpObjTail ind l ++ (w ++ '\x7d' :: ext)) =
        some ((k, v) :: l, ext) := by
  intro k v l ind w ext hwfv hwfl hext hw hlen
  rw [parseObjEntries_succ]
  have hshape : dumpObjEntry ind (k, v) ++ dumpObjTail ind l ++
      (w ++ '\x7d' :: ext) = '"' :: (escapeStr k.data ++ '"' ::
      (':' :: ' ' :: (dumpVal ind v ++ (dumpObjTail ind l ++
        (w ++ '\x7d' :: ext))))) := by
    show (dumpStr k ++ ':' :: ' ' :: dumpVal ind v) ++ dumpObjTail ind l ++
      (w ++ '\x7d' :: ext) = _
    simp [dumpStr, List.append_assoc]
  rw [hshape]
  simp only [parseObjEntriesF]
  first
  | rw [if_pos rfl]
  | simp only [if_true]
  have hb : k.data.length + 1 ≤ g := by
    have he := dumpObjEntry_len ind k v
    have hesc := escapeStr_len k.data
    omega
  rw [parseStr_escape k.data g (':' :: ' ' ::
    (dumpVal ind v ++ (dumpObjTail ind l ++ (w ++ '\x7d' :: ext)))) hb]
  simp only []
  rw [skipWs_cons_neg _ (by decide : jsonWs ':' = false)]
  simp only []
  first
  | rw [if_pos rfl]
  | simp only [if_true]
  rw [skipWs_space]
  obtain ⟨c0, cs0, hdx, hws, _, _⟩ := dump_head v ind hwfv
  have hr : dumpVal ind v ++ (dumpObjTail ind l ++ (w ++ '\x7d' :: ext)) =
      c0 :: (cs0 ++ (dumpObjTail ind l ++ (w ++ '\x7d' :: ext))) := by
    rw [hdx]
    simp [List.cons_append]
  rw [hr, skipWs_cons_neg _ hws, ← hr]
  have hbv : (dumpVal ind v).length < g := by
    have he := dumpObjEntry_len ind k v
    omega
  rw [ihV v ind (dumpObjTail ind l ++ (w ++ '\x7d' :: ext)) hwfv
    (extOk_obj_rest ind l w ext hw) hbv]
  simp only []
  cases l with
  | nil =>
    rw [show dumpObjTail ind ([] : List (String × Json)) = [] from rfl,
      List.nil_append]
    rw [skipWs_append_all _ hw, skipWs_cons_neg _ (by decide)]
    simp only []
    rw [if_neg (by decide : ¬('\x7d' : Char) = ',')]
    first
    | rw [if_pos rfl]
    | simp only [if_true]
  | cons kv2 l2 =>
    obtain ⟨k2, v2⟩ := kv2
    rw [show dumpObjTail ind ((k2, v2) :: l2) =
      ',' :: (nlIndent ind ++ dumpObjEntry ind (k2, v2) ++
        dumpObjTail ind l2) from rfl]
    rw [show (',' :: (nlIndent ind ++ dumpObjEntry ind (k2, v2) ++
        dumpObjTail ind l2)) ++ (w ++ '\x7d' :: ext) =
      ',' :: (nlIndent ind ++ (dumpObjEntry ind (k2, v2) ++
        dumpObjTail ind l2 ++ (w ++ '\x7d' :: ext))) from by
      simp [List.append_assoc]]
    rw [skipWs_cons_neg _ (by decide : jsonWs ',' = false)]
    simp only []
    first
    | rw [if_pos rfl]
    | simp only [if_true]
    rw [skipWs_nlIndent]
    have hent2 : dumpObjEntry ind (k2, v2) ++ dumpObjTail ind l2 ++
        (w ++ '\x7d' :: ext) = '"' :: (escapeStr k2.data ++ '"' ::
        (':' :: ' ' :: (dumpVal ind v2 ++ (dumpObjTail ind l2 ++
          (w ++ '\x7d' :: ext))))) := by
      show (dumpStr k2 ++ ':' :: ' ' :: dumpVal ind v2) ++
        dumpObjTail ind l2 ++ (w ++ '\x7d' :: ext) = _
      simp [dumpStr, List.append_assoc]
    rw [hent2, skipWs_cons_neg _ (by decide), ← hent2]
    simp only [wfO, Bool.and_eq_true] at hwfl
    have hb2 : (dumpObjEntry ind (k2, v2)).length +
        (dumpObjTail ind l2).length < g := by
      have ht := dumpObjTail_len ind (k2, v2) l2
      omega
    rw [ihO k2 v2 l2 ind w ext hwfl.1 hwfl.2 hext hw hb2]

/-- One step of the elements scan on printed elements. -/
theorem parseArrEntries_print (g : Nat)
    (ihV : ∀ v ind ext, wfJ v = true → extOk ext →
      (dumpVal ind v).length < g →
      parseVal g (dumpVal ind v ++ ext) = some (v, ext))
    (ihA : ∀ x l ind w ext, wfJ x = true → wfA l = true → extOk ext →
      (∀ c ∈ w, jsonWs c = true) →
      (dumpVal ind x).length + (dumpArrTail ind l).length + 1 < g →
      parseArrEntries g (dumpVal ind x ++ dumpArrTail ind l ++
        (w ++ ']' :: ext)) = some (x :: l, ext)) :
    ∀ x l ind w ext, wfJ x = true → wfA l = true → extOk ext →
      (∀ c ∈ w, jsonWs c = true) →
      (dumpVal ind x).length + (dumpArrTail ind l).length + 1 < g + 1 →
      parseArrEntries (g + 1) (dumpVal ind x ++ dumpArrTail ind l ++
        (w ++ ']' :: ext)) = some (x :: l, ext) := by
  intro x l ind w ext hwfx hwfl hext hw hlen
  rw [parseArrEntries_succ]
  simp only [parseArrEntriesF]
  rw [show dumpVal ind x ++ dumpArrTail ind l ++ (w ++ ']' :: ext) =
    dumpVal ind x ++ (dumpArrTail ind l ++ (w ++ ']' :: ext)) from by
    simp [List.append_assoc]]
  have hbv : (dumpVal ind x).length < g := by omega
  rw [ihV x ind (dumpArrTail ind l ++ (w ++ ']' :: ext)) hwfx
    (extOk_arr_rest ind l w ext hw) hbv]
  simp only []
  cases l with
  | nil =>
    rw [show dumpArrTail ind ([] : List Json) = [] from rfl,
      List.nil_append]
    rw [skipWs_append_all _ hw, skipWs_cons_neg _ (by decide)]
    simp only []
    rw [if_neg (by decide : ¬(']' : Char) = ',')]
    first
    | rw [if_pos rfl]
    | simp only [if_true]
  | cons x2 l2 =>
    rw [show dumpArrTail ind (x2 :: l2) =
      ',' :: (nlIndent ind ++ dumpVal ind x2 ++ dumpArrTail ind l2)
      from rfl]
    rw [show (',' :: (nlIndent ind ++ dumpVal ind x2 ++
        dumpArrTail ind l2)) ++ (w ++ ']' :: ext) =
      ',' :: (nlIndent ind ++ (dumpVal ind x2 ++ dumpArrTail ind l2 ++
        (w ++ ']' :: ext))) from by
      simp [List.append_assoc]]
    rw [skipWs_cons_neg _ (by decide : jsonWs ',' = false)]
    simp only []
    first
    | rw [if_pos rfl]
    | simp only [if_true]
    rw [skipWs_nlIndent]
    simp only [wfA, Bool.and_eq_true] at hwfl
    obtain ⟨c0, cs0, hdx, hws, _, _⟩ := dump_head x2 ind hwfl.1
    have hr2 : dumpVal ind x2 ++ dumpArrTail ind l2 ++
        (w ++ ']' :: ext) =
        c0 :: (cs0 ++ dumpArrTail ind l2 ++ (w ++ ']' :: ext)) := by
      rw [hdx]
      simp [List.cons_append]
    rw [hr2, skipWs_cons_neg _ hws, ← hr2]
    have hb2 : (dumpVal ind x2).length + (dumpArrTail ind l2).length + 1 <
        g := by
      have ht := dumpArrTail_len ind x2 l2
      omega
    rw [ihA x2 l2 ind w ext hwfl.1 hwfl.2 hext hw hb2]

/-- One step of the value scan on a printed value, dispatching on its
shape. -/
theorem parseVal_print_step (g : Nat)
    (ihV : ∀ v ind ext, wfJ v = true → extOk ext →
      (dumpVal ind v).length < g →
      parseVal g (dumpVal ind v ++ ext) = some (v, ext))
    (ihO : ∀ k v l ind w ext, wfJ v = true → wfO l = true → extOk ext →
      (∀ x ∈ w, jsonWs x = true) →
      (dumpObjEntry ind (k, v)).length + (dumpObjTail ind l).length < g →
      parseObjEntries g (dumpObjEntry ind (k, v) ++ dumpObjTail ind l ++
        (w ++ '\x7d' :: ext)) = some ((k, v) :: l, ext))
    (ihA : ∀ x l ind w ext, wfJ x = true → wfA l = true → extOk ext →
      (∀ c ∈ w, jsonWs c = true) →
      (dumpVal ind x).length + (dumpArrTail ind l).length + 1 < g →
      parseArrEntries g (dumpVal ind x ++ dumpArrTail ind l ++
        (w ++ ']' :: ext)) = some (x :: l, ext)) :
    ∀ v ind ext, wfJ v = true → extOk ext →
      (dumpVal ind v).length < g + 1 →
      parseVal (g + 1) (dumpVal ind v ++ ext) = some (v, ext) := by
  intro v ind ext hwf hext hlen
  cases v with
  | null => exact parseVal_print_null g ext
  | bool b =>
    cases b with
    | true => exact parseVal_print_true g ext
    | false => exact parseVal_print_false g ext
  | str s =>
    have hb : s.data.length + 1 ≤ g := by
      have h1 : (dumpVal ind (Json.str s)).length =
          (escapeStr s.data).length + 2 := dumpStr_len s
      have h2 := escapeStr_len s.data
      omega
    exact parseVal_print_str g ext s hb
  | num lex =>
    have hwf2 : numCanon lex = true := hwf
    simp only [numCanon, Bool.or_eq_true, decide_eq_true_eq] at hwf2
    rcases hwf2 with ((hc | hnan) | hinf) | hninf
    · exact parseVal_print_num g ext lex hc hext
    · subst hnan
      exact parseVal_print_nan g ext
    · subst hinf
      exact parseVal_print_inf g ext
    · subst hninf
      exact parseVal_print_ninf g ext
  | arr l =>
    cases l with
    | nil => exact parseVal_print_emptyarr g ext
    | cons x xs =>
      have hwf2 : wfJ x = true ∧ wfA xs = true := by
        have : wfA (x :: xs) = true := hwf
        simpa [wfA, Bool.and_eq_true] using this
      apply parseVal_print_arr g ind ext x xs hwf2.1
      apply ihA x xs (ind + 2) (nlIndent ind) ext hwf2.1 hwf2.2 hext
        (nlIndent_ws ind)
      have h1 := dumpVal_arr_len ind x xs
      omega
  | obj l =>
    cases l with
    | nil => exact parseVal_print_emptyobj g ext
    | cons kv kvs =>
      obtain ⟨k, v2⟩ := kv
      have hwf2 : (((k, v2) :: kvs).map Prod.fst).Nodup ∧
          wfJ v2 = true ∧ wfO kvs = true := by
        have : (decide ((((k, v2) :: kvs).map Prod.fst).Nodup) &&
            wfO ((k, v2) :: kvs)) = true := hwf
        simp only [Bool.and_eq_true, decide_eq_true_eq] at this
        refine ⟨this.1, ?_, ?_⟩
        · have h2 : (wfJ v2 && wfO kvs) = true := this.2
          simp only [Bool.and_eq_true] at h2
          exact h2.1
        · have h2 : (wfJ v2 && wfO kvs) = true := this.2
          simp only [Bool.and_eq_true] at h2
          exact h2.2
      apply parseVal_print_obj g ind ext k v2 kvs hwf2.1
      apply ihO k v2 kvs (ind + 2) (nlIndent ind) ext hwf2.2.1 hwf2.2.2
        hext (nlIndent_ws ind)
      have h1 := dumpVal_obj_len ind (k, v2) kvs
      omega

/-- Parsing undoes printing: on any well-formed value, scanning the
`dumps` output (followed by any extension that cannot continue a number)
returns the value and the extension, for any sufficient fuel; likewise for
printed members and printed elements. -/
theorem parse_print (f : Nat) :
    (∀ v ind ext, wfJ v = true → extOk ext →
      (dumpVal ind v).length < f →
      parseVal f (dumpVal ind v ++ ext) = some (v, ext)) ∧
    (∀ k v l ind w ext, wfJ v = true → wfO l = true → extOk ext →
      (∀ x ∈ w, jsonWs x = true) →
      (dumpObjEntry ind (k, v)).length + (dumpObjTail ind l).length < f →
      parseObjEntries f (dumpObjEntry ind (k, v) ++ dumpObjTail ind l ++
        (w ++ '\x7d' :: ext)) = some ((k, v) :: l, ext)) ∧
    (∀ x l ind w ext, wfJ x = true → wfA l = true → extOk ext →
      (∀ c ∈ w, jsonWs c = true) →
      (dumpVal ind x).length + (dumpArrTail ind l).length + 1 < f →
      parseArrEntries f (dumpVal ind x ++ dumpArrTail ind l ++
        (w ++ ']' :: ext)) = some (x :: l, ext)) := by
  induction f with
  | zero =>
    refine ⟨?_, ?_, ?_⟩
    · intro v ind ext _ _ h
      exact absurd h (Nat.not_lt_zero _)
    · intro k v l ind w ext _ _ _ _ h
      exact absurd h (Nat.not_lt_zero _)
    · intro x l ind w ext _ _ _ _ h
      exact absurd h (Nat.not_lt_zero _)
  | succ g ih =>
    obtain ⟨ihV, ihO, ihA⟩ := ih
    exact ⟨parseVal_print_step g ihV ihO ihA,
      parseObjEntries_print g ihV ihO,
      parseArrEntries_print g ihV ihA⟩

/-- `json.loads` undoes `json.dumps(indent=2)` on any well-formed
value. -/
theorem loads_dumps (v : Json) (hwf : wfJ v = true) :
    jsonLoads (pyDumps v) = some v := by
  show listParse (String.mk (dumpVal 0 v)).data = some v
  have hdata : (String.mk (dumpVal 0 v)).data = dumpVal 0 v := rfl
  rw [hdata]
  unfold listParse
  obtain ⟨c0, cs0, hdx, hws, _, _⟩ := dump_head v 0 hwf
  rw [hdx, skipWs_cons_neg _ hws, ← hdx]
  have hp := (parse_print (2 * (dumpVal 0 v).length + 2)).1 v 0 []
    hwf extOk_nil (by omega)
  rw [List.append_nil] at hp
  rw [hp]
  rfl

/-- A list all of whose elements satisfy the predicate is its own
`takeWhile` span. -/
theorem takeWhile_all {p : Char → Bool} :
    ∀ l : List Char, (∀ x ∈ l, p x = true) → l.takeWhile p = l := by
  intro l h
  induction l with
  | nil => rfl
  | cons c t ih =>
    rw [List.takeWhile_cons, if_pos (h c (by simp))]
    rw [ih (fun x hx => h x (by simp [hx]))]

/-- The integer-part match re-reads its own output before any suffix that
opens with a non-digit. -/
theorem parseIntPart_idem {cs : List Char} {ip r : List Char}
    (h : parseIntPart cs = some (ip, r)) :
    ∀ X : List Char, (∀ c, X.head? = some c → c.isDigit = false) →
      parseIntPart (ip ++ X) = some (ip, X) := by
  intro X hX
  match cs with
  | [] => exact absurd h (by simp [parseIntPart])
  | c :: rest =>
    simp only [parseIntPart] at h
    by_cases h0 : c = '0'
    · rw [if_pos h0] at h
      simp only [Option.some.injEq, Prod.mk.injEq] at h
      rw [← h.1]
      subst h0
      rfl
    · rw [if_neg h0] at h
      by_cases hd : c.isDigit
      · rw [if_pos hd] at h
        simp only [Option.some.injEq, Prod.mk.injEq] at h
        rw [← h.1]
        have htw : ∀ x ∈ rest.takeWhile Char.isDigit, x.isDigit = true :=
          fun x hx => List.mem_takeWhile_imp hx
        have hstop := takeWhile_append_stop Char.isDigit
          (rest.takeWhile Char.isDigit) X hX
        show parseIntPart (c :: (rest.takeWhile Char.isDigit ++ X)) = _
        simp only [parseIntPart]
        rw [if_neg h0, if_pos hd]
        rw [hstop.1, hstop.2]
        rw [takeWhile_all _ htw]
        rw [List.dropWhile_eq_nil_iff.mpr htw]
        rfl
      · rw [if_neg hd] at h
        exact absurd h (by simp)

/-- The fraction-part match re-reads its own output before any suffix that
opens with neither a digit nor a dot. -/
theorem parseFrac_idem {cs : List Char} {f1 r : List Char}
    (h : parseFrac cs = (f1, r)) :
    ∀ X : List Char,
      (∀ c, X.head? = some c → c.isDigit = false ∧ c ≠ '.') →
      parseFrac (f1 ++ X) = (f1, X) := by
  intro X hX
  have hfrX : f1 = [] → parseFrac X = ([], X) := by
    intro _
    match X with
    | [] => rfl
    | c :: t =>
      have hc := hX c rfl
      simp only [parseFrac]
      rw [if_neg hc.2]
  match cs with
  | [] =>
    simp only [parseFrac, Prod.mk.injEq] at h
    rw [← h.1, List.nil_append]
    exact hfrX h.1.symm
  | c :: rest =>
    simp only [parseFrac] at h
    by_cases hdot : c = '.'
    · rw [if_pos hdot] at h
      by_cases hemp : (rest.takeWhile Char.isDigit).isEmpty
      · rw [if_pos hemp] at h
        simp only [Prod.mk.injEq] at h
        rw [← h.1, List.nil_append]
        exact hfrX h.1.symm
      · rw [if_neg hemp] at h
        simp only [Prod.mk.injEq] at h
        rw [← h.1]
        have htw : ∀ x ∈ rest.takeWhile Char.isDigit, x.isDigit = true :=
          fun x hx => List.mem_takeWhile_imp hx
        have hstop := takeWhile_append_stop Char.isDigit
          (rest.takeWhile Char.isDigit) X
          (fun c2 hc2 => (hX c2 hc2).1)
        rw [List.cons_append]
        simp only [parseFrac]
        rw [if_pos hdot]
        rw [hstop.1, takeWhile_all _ htw]
        rw [if_neg (by
          intro hh
          rw [List.isEmpty_iff] at hh
          rw [hh] at hemp
          exact hemp (by rfl))]
        rw [hstop.2]
        rw [List.dropWhile_eq_nil_iff.mpr htw]
        rw [List.nil_append]
    · rw [if_neg hdot] at h
      simp only [Prod.mk.injEq] at h
      rw [← h.1, List.nil_append]
      exact hfrX h.1.symm

/-- The exponent-part match re-reads its own output at the end of the
input. -/
theorem parseExp_idem {cs : List Char} {e1 r : List Char}
    (h : parseExp cs = (e1, r)) : parseExp e1 = (e1, []) := by
  match cs with
  | [] =>
    simp only [parseExp, Prod.mk.injEq] at h
    rw [← h.1]
    rfl
  | [e] =>
    simp only [parseExp] at h
    by_cases he : e = 'e' ∨ e = 'E'
    · rw [if_pos (by
        simp only [Bool.or_eq_true, decide_eq_true_eq]
        exact he)] at h
      simp only [Prod.mk.injEq] at h
      rw [← h.1]
      rfl
    · rw [if_neg (by
        simp only [Bool.or_eq_true, decide_eq_true_eq]
        exact he)] at h
      simp only [Prod.mk.injEq] at h
      rw [← h.1]
      rfl
  | e :: s :: r2 =>
    simp only [parseExp] at h
    by_cases he : e = 'e' ∨ e = 'E'
    · rw [if_pos (by
        simp only [Bool.or_eq_true, decide_eq_true_eq]
        exact he)] at h
      by_cases hs : s = '+' ∨ s = '-'
      · rw [if_pos (by
          simp only [Bool.or_eq_true, decide_eq_true_eq]
          exact hs)] at h
        by_cases hemp : (r2.takeWhile Char.isDigit).isEmpty
        · rw [if_pos hemp] at h
          simp only [Prod.mk.injEq] at h
          rw [← h.1]
          rfl
        · rw [if_neg hemp] at h
          simp only [Prod.mk.injEq] at h
          rw [← h.1]
          have htw : ∀ x ∈ r2.takeWhile Char.isDigit, x.isDigit = true :=
            fun x hx => List.mem_takeWhile_imp hx
          simp only [parseExp]
          rw [if_pos (by
            simp only [Bool.or_eq_true, decide_eq_true_eq]
            exact he)]
          rw [if_pos (by
            simp only [Bool.or_eq_true, decide_eq_true_eq]
            exact hs)]
          rw [if_neg (by
            rw [takeWhile_all _ htw]
            intro hh
            rw [List.isEmpty_iff] at hh
            rw [hh] at hemp
            exact hemp rfl)]
          rw [takeWhile_all _ htw]
          rw [List.dropWhile_eq_nil_iff.mpr htw]
      · rw [if_neg (by
          simp only [Bool.or_eq_true, decide_eq_true_eq]
          exact hs)] at h
        by_cases hemp : ((s :: r2).takeWhile Char.isDigit).isEmpty
        · rw [if_pos hemp] at h
          simp only [Prod.mk.injEq] at h
          rw [← h.1]
          rfl
        · rw [if_neg hemp] at h
          simp only [Prod.mk.injEq] at h
          rw [← h.1]
          have htw : ∀ x ∈ (s :: r2).takeWhile Char.isDigit,
              x.isDigit = true := fun x hx => List.mem_takeWhile_imp hx
          have hsd : s.isDigit = true := by
            by_cases hds : s.isDigit
            · exact hds
            · rw [List.takeWhile_cons, if_neg hds] at hemp
              exact absurd rfl hemp
          rw [List.takeWhile_cons, if_pos hsd]
          rw [List.takeWhile_cons, if_pos hsd] at hemp htw
          simp only [parseExp]
          rw [if_pos (by
            simp only [Bool.or_eq_true, decide_eq_true_eq]
            exact he)]
          rw [if_neg (by
            simp only [Bool.or_eq_true, decide_eq_true_eq]
            intro hss
            rcases hss with hss | hss <;>
              (rw [hss] at hsd; exact absurd hsd (by decide)))]
          have htw2 : ∀ x ∈ s :: r2.takeWhile Char.isDigit,
              x.isDigit = true := by
            intro x hx
            rcases List.mem_cons.mp hx with rfl | hx2
            · exact hsd
            · exact List.mem_takeWhile_imp hx2
          rw [takeWhile_all _ htw2]
          rw [if_neg (by
            intro hh
            rw [List.isEmpty_iff] at hh
            exact absurd hh (by simp))]
          rw [List.dropWhile_eq_nil_iff.mpr htw2]
    · rw [if_neg (by
        simp only [Bool.or_eq_true, decide_eq_true_eq]
        exact he)] at h
      simp only [Prod.mk.injEq] at h
      rw [← h.1]
      rfl

/-- The fraction part is empty or opens with the dot. -/
theorem parseFrac_shape {cs f1 r : List Char} (h : parseFrac cs = (f1, r)) :
    f1 = [] ∨ ∃ ds, f1 = '.' :: ds := by
  match cs with
  | [] =>
    simp only [parseFrac, Prod.mk.injEq] at h
    exact Or.inl h.1.symm
  | c :: rest =>
    simp only [parseFrac] at h
    by_cases hdot : c = '.'
    · rw [if_pos hdot] at h
      by_cases hemp : (rest.takeWhile Char.isDigit).isEmpty
      · rw [if_pos hemp] at h
        simp only [Prod.mk.injEq] at h
        exact Or.inl h.1.symm
      · rw [if_neg hemp] at h
        simp only [Prod.mk.injEq] at h
        exact Or.inr ⟨rest.takeWhile Char.isDigit, by rw [← h.1, hdot]⟩
    · rw [if_neg hdot] at h
      simp only [Prod.mk.injEq] at h
      exact Or.inl h.1.symm

/-- The exponent part is empty or opens with an exponent marker. -/
theorem parseExp_shape {cs e1 r : List Char} (h : parseExp cs = (e1, r)) :
    e1 = [] ∨ ∃ e t, e1 = e :: t ∧ (e = 'e' ∨ e = 'E') := by
  match cs with
  | [] =>
    simp only [parseExp, Prod.mk.injEq] at h
    exact Or.inl h.1.symm
  | e :: rest =>
    simp only [parseExp] at h
    by_cases he : e = 'e' ∨ e = 'E'
    · rw [if_pos (by
        simp only [Bool.or_eq_true, decide_eq_true_eq]
        exact he)] at h
      match rest, h with
      | [], h =>
        simp only [Prod.mk.injEq] at h
        exact Or.inl h.1.symm
      | s :: r2, h =>
        simp only [] at h
        by_cases hs : s = '+' ∨ s = '-'
        · rw [if_pos (by
            simp only [Bool.or_eq_true, decide_eq_true_eq]
            exact hs)] at h
          by_cases hemp : (r2.takeWhile Char.isDigit).isEmpty
          · rw [if_pos hemp] at h
            simp only [Prod.mk.injEq] at h
            exact Or.inl h.1.symm
          · rw [if_neg hemp] at h
            simp only [Prod.mk.injEq] at h
            exact Or.inr ⟨e, s :: r2.takeWhile Char.isDigit, h.1.symm, he⟩
        · rw [if_neg (by
            simp only [Bool.or_eq_true, decide_eq_true_eq]
            exact hs)] at h
          by_cases hemp : ((s :: r2).takeWhile Char.isDigit).isEmpty
          · rw [if_pos hemp] at h
            simp only [Prod.mk.injEq] at h
            exact Or.inl h.1.symm
          · rw [if_neg hemp] at h
            simp only [Prod.mk.injEq] at h
            exact Or.inr ⟨e, (s :: r2).takeWhile Char.isDigit,
              h.1.symm, he⟩
    · rw [if_neg (by
        simp only [Bool.or_eq_true, decide_eq_true_eq]
        exact he)] at h
      simp only [Prod.mk.injEq] at h
      exact Or.inl h.1.symm

/-- The integer part is nonempty and opens with a digit. -/
theorem parseIntPart_head {cs ip r : List Char}
    (h : parseIntPart cs = some (ip, r)) :
    ∃ c0 t0, ip = c0 :: t0 ∧ c0.isDigit = true := by
  match cs with
  | [] => simp [parseIntPart] at h
  | c :: rest =>
    simp only [parseIntPart] at h
    by_cases h0 : c = '0'
    · rw [if_pos h0] at h
      simp only [Option.some.injEq, Prod.mk.injEq] at h
      exact ⟨'0', [], h.1.symm, by decide⟩
    · rw [if_neg h0] at h
      by_cases hd : c.isDigit
      · rw [if_pos hd] at h
        simp only [Option.some.injEq, Prod.mk.injEq] at h
        exact ⟨c, rest.takeWhile Char.isDigit, h.1.symm, hd⟩
      · rw [if_neg hd] at h
        simp at h

/-- A matched number lexeme re-reads to itself exactly: the scanner's
output is canonical. -/
theorem parseNum_idem {cs : List Char} {lex : String} {r : List Char}
    (h : parseNum cs = some (lex, r)) : parseNum lex.data = some (lex, []) := by
  match cs with
  | [] => simp [parseNum] at h
  | c :: cs1 =>
    simp only [parseNum] at h
    by_cases hneg : c = '-'
    · rw [if_pos hneg] at h
      cases hip : parseIntPart cs1 with
      | none => rw [hip] at h; simp at h
      | some p =>
        obtain ⟨ip, cs2⟩ := p
        rw [hip] at h
        simp only [Option.some.injEq, Prod.mk.injEq] at h
        cases hfr : parseFrac cs2 with
        | mk f1 fr2 =>
          rw [hfr] at h
          cases hex : parseExp fr2 with
          | mk e1 ex2 =>
            rw [hex] at h
            simp only [] at h
            have hehead : ∀ c2, e1.head? = some c2 →
                c2.isDigit = false ∧ c2 ≠ '.' := by
              intro c2 hc2
              rcases parseExp_shape hex with rfl | ⟨e, t, rfl, he⟩
              · simp at hc2
              · simp only [List.head?_cons, Option.some.injEq] at hc2
                subst hc2
                rcases he with rfl | rfl <;> exact ⟨by decide, by decide⟩
            have hXhead : ∀ c2, (f1 ++ e1).head? = some c2 →
                c2.isDigit = false := by
              rcases parseFrac_shape hfr with rfl | ⟨ds, rfl⟩
              · rw [List.nil_append]
                exact fun c2 hc2 => (hehead c2 hc2).1
              · intro c2 hc2
                simp only [List.cons_append, List.head?_cons,
                  Option.some.injEq] at hc2
                subst hc2
                decide
            rw [← h.1]
            show parseNum (('-' :: ip ++ f1 ++ e1)) = _
            rw [show ('-' :: ip ++ f1 ++ e1) =
              '-' :: (ip ++ (f1 ++ e1)) from by simp]
            simp only [parseNum]
            first
            | rw [if_pos rfl]
            | simp only [if_true]
            rw [parseIntPart_idem hip (f1 ++ e1) hXhead]
            simp only []
            rw [parseFrac_idem hfr e1 hehead]
            simp only []
            rw [parseExp_idem hex]
            simp only []
            simp [List.append_assoc]
    · rw [if_neg hneg] at h
      cases hip : parseIntPart (c :: cs1) with
      | none => rw [hip] at h; simp at h
      | some p =>
        obtain ⟨ip, cs2⟩ := p
        rw [hip] at h
        simp only [Option.some.injEq, Prod.mk.injEq] at h
        cases hfr : parseFrac cs2 with
        | mk f1 fr2 =>
          rw [hfr] at h
          cases hex : parseExp fr2 with
          | mk e1 ex2 =>
            rw [hex] at h
            simp only [] at h
            have hehead : ∀ c2, e1.head? = some c2 →
                c2.isDigit = false ∧ c2 ≠ '.' := by
              intro c2 hc2
              rcases parseExp_shape hex with rfl | ⟨e, t, rfl, he⟩
              · simp at hc2
              · simp only [List.head?_cons, Option.some.injEq] at hc2
                subst hc2
                rcases he with rfl | rfl <;> exact ⟨by decide, by decide⟩
            have hXhead : ∀ c2, (f1 ++ e1).head? = some c2 →
                c2.isDigit = false := by
              rcases parseFrac_shape hfr with rfl | ⟨ds, rfl⟩
              · rw [List.nil_append]
                exact fun c2 hc2 => (hehead c2 hc2).1
              · intro c2 hc2
                simp only [List.cons_append, List.head?_cons,
                  Option.some.injEq] at hc2
                subst hc2
                decide
            have hip2 := parseIntPart_idem hip (f1 ++ e1) hXhead
            obtain ⟨c0, t0, hipc, hc0d⟩ := parseIntPart_head hip
            have hc0 : c0 ≠ '-' := by
              intro hcm
              rw [hcm] at hc0d
              exact absurd hc0d (by decide)
            rw [← h.1]
            show parseNum ((ip ++ f1 ++ e1)) = _
            rw [show (ip ++ f1 ++ e1) = ip ++ (f1 ++ e1) from by simp]
            rw [hipc, List.cons_append]
            simp only [parseNum]
            rw [if_neg hc0]
            rw [← List.cons_append, ← hipc]
            rw [hip2]
            simp only []
            rw [parseFrac_idem hfr e1 hehead]
            simp only []
            rw [parseExp_idem hex]
            simp only []
            simp [List.append_assoc]

/-- Member form of `wfO`. -/
theorem wfO_iff (l : List (String × Json)) :
    wfO l = true ↔ ∀ p ∈ l, wfJ p.2 = true := by
  induction l with
  | nil => simp [wfO]
  | cons kv t ih =>
    show (wfJ kv.2 && wfO t) = true ↔ _
    rw [Bool.and_eq_true, ih]
    constructor
    · intro h p hp
      rcases List.mem_cons.mp hp with rfl | hp2
      · exact h.1
      · exact h.2 p hp2
    · intro h
      exact ⟨h kv (by simp), fun p hp => h p (by simp [hp])⟩

/-- Member form of `wfA`. -/
theorem wfA_iff (l : List Json) :
    wfA l = true ↔ ∀ v ∈ l, wfJ v = true := by
  induction l with
  | nil => simp [wfA]
  | cons x t ih =>
    show (wfJ x && wfA t) = true ↔ _
    rw [Bool.and_eq_true, ih]
    constructor
    · intro h v hv
      rcases List.mem_cons.mp hv with rfl | hv2
      · exact h.1
      · exact h.2 v hv2
    · intro h
      exact ⟨h x (by simp), fun v hv => h v (by simp [hv])⟩

/-- Membership after an item assignment. -/
theorem dictInsert_mem {k : String} {v : Json} :
    ∀ d q, q ∈ dictInsert k v d → q = (k, v) ∨ q ∈ d := by
  intro d
  induction d with
  | nil =>
    intro q hq
    simp only [dictInsert, List.mem_singleton] at hq
    exact Or.inl hq
  | cons p2 rest ih =>
    intro q hq
    obtain ⟨k2, v2⟩ := p2
    simp only [dictInsert] at hq
    by_cases hk : k2 = k
    · rw [if_pos hk] at hq
      rcases List.mem_cons.mp hq with rfl | hq2
      · exact Or.inl rfl
      · exact Or.inr (by simp [hq2])
    · rw [if_neg hk] at hq
      rcases List.mem_cons.mp hq with rfl | hq2
      · exact Or.inr (by simp)
      · rcases ih q hq2 with h | h
        · exact Or.inl h
        · exact Or.inr (by simp [h])

/-- Keys after an item assignment. -/
theorem dictInsert_keys_sub {k : String} {v : Json} :
    ∀ d x, x ∈ (dictInsert k v d).map Prod.fst →
      x = k ∨ x ∈ d.map Prod.fst := by
  intro d x hx
  rcases List.mem_map.mp hx with ⟨q, hq, rfl⟩
  rcases dictInsert_mem d q hq with rfl | hq2
  · exact Or.inl rfl
  · exact Or.inr (List.mem_map_of_mem Prod.fst hq2)

/-- An item assignment keeps the keys pairwise distinct. -/
theorem dictInsert_nodup {k : String} {v : Json} :
    ∀ d, ((d.map Prod.fst).Nodup) →
      (((dictInsert k v d).map Prod.fst).Nodup) := by
  intro d
  induction d with
  | nil =>
    intro _
    simp [dictInsert]
  | cons p2 rest ih =>
    intro h
    obtain ⟨k2, v2⟩ := p2
    simp only [List.map_cons, List.nodup_cons] at h
    simp only [dictInsert]
    by_cases hk : k2 = k
    · rw [if_pos hk]
      simp only [List.map_cons, List.nodup_cons]
      exact ⟨hk ▸ h.1, h.2⟩
    · rw [if_neg hk]
      simp only [List.map_cons, List.nodup_cons]
      refine ⟨?_, ih h.2⟩
      intro hmem
      rcases dictInsert_keys_sub rest k2 hmem with h3 | h3
      · exact hk h3
      · exact h.1 h3

/-- An item assignment keeps every stored value well formed. -/
theorem dictInsert_wf {k : String} {v : Json} (hv : wfJ v = true) :
    ∀ d, (∀ p ∈ d, wfJ p.2 = true) →
      ∀ p ∈ dictInsert k v d, wfJ p.2 = true := by
  intro d hd p hp
  rcases dictInsert_mem d p hp with rfl | hp2
  · exact hv
  · exact hd p hp2

/-- `dict(pairs)` has pairwise-distinct keys. -/
theorem dictOfPairs_nodup (ps : List (String × Json)) :
    (((dictOfPairs ps).map Prod.fst).Nodup) := by
  suffices hgen : ∀ acc : List (String × Json),
      ((acc.map Prod.fst).Nodup) →
      ((List.foldl (fun d p => dictInsert p.1 p.2 d) acc ps).map
        Prod.fst).Nodup by
    exact hgen [] (by simp)
  induction ps with
  | nil => intro acc h; exact h
  | cons p rest ih =>
    intro acc h
    simp only [List.foldl_cons]
    exact ih _ (dictInsert_nodup acc h)

/-- `dict(pairs)` keeps every value well formed. -/
theorem dictOfPairs_wf (ps : List (String × Json))
    (h : ∀ p ∈ ps, wfJ p.2 = true) :
    ∀ p ∈ dictOfPairs ps, wfJ p.2 = true := by
  suffices hgen : ∀ acc : List (String × Json),
      (∀ p ∈ acc, wfJ p.2 = true) →
      (∀ p ∈ ps, wfJ p.2 = true) →
      ∀ p ∈ List.foldl (fun d p => dictInsert p.1 p.2 d) acc ps,
        wfJ p.2 = true by
    exact hgen [] (by simp) h
  clear h
  induction ps with
  | nil => intro acc ha _ p hp; exact ha p hp
  | cons q rest ih =>
    intro acc ha hq p hp
    simp only [List.foldl_cons] at hp
    exact ih _ (dictInsert_wf (hq q (by simp)) acc ha)
      (fun p2 hp2 => hq p2 (by simp [hp2])) p hp

/-- A parsed object is well formed when its members are. -/
theorem wfJ_obj_of (ps : List (String × Json))
    (h : ∀ p ∈ ps, wfJ p.2 = true) :
    wfJ (Json.obj (dictOfPairs ps)) = true := by
  show (decide (((dictOfPairs ps).map Prod.fst).Nodup) &&
    wfO (dictOfPairs ps)) = true
  rw [Bool.and_eq_true]
  exact ⟨decide_eq_true (dictOfPairs_nodup ps),
    (wfO_iff _).mpr (dictOfPairs_wf ps h)⟩

/-- A scanned value is well formed, given that the member and element
continuations produce well-formed values. -/
theorem parseValF_wf (str : List Char → Option (List Char × List Char))
    (obj : List Char → Option (List (String × Json) × List Char))
    (arr : List Char → Option (List Json × List Char))
    (hobj : ∀ cs ps r, obj cs = some (ps, r) → ∀ p ∈ ps, wfJ p.2 = true)
    (harr : ∀ cs vs r, arr cs = some (vs, r) → ∀ v2 ∈ vs, wfJ v2 = true) :
    ∀ cs v r, parseValF str obj arr cs = some (v, r) → wfJ v = true := by
  intro cs v r hp
  match cs with
  | [] => simp [parseValF] at hp
  | c :: rest =>
    simp only [parseValF] at hp
    by_cases h1 : c = '"'
    · simp only [if_pos h1] at hp
      cases hq : str rest with
      | none => rw [hq] at hp; simp at hp
      | some p =>
        obtain ⟨sc, r2⟩ := p
        rw [hq] at hp
        simp only [Option.some.injEq, Prod.mk.injEq] at hp
        rw [← hp.1]
        rfl
    · simp only [if_neg h1] at hp
      by_cases h2 : c = '{'
      · simp only [if_pos h2] at hp
        cases hsw : skipWs rest with
        | nil => rw [hsw] at hp; simp at hp
        | cons c2 r2 =>
          rw [hsw] at hp
          by_cases h3 : c2 = '}'
          · simp only [if_pos h3, Option.some.injEq, Prod.mk.injEq] at hp
            rw [← hp.1]
            rfl
          · simp only [if_neg h3] at hp
            cases hq : obj (c2 :: r2) with
            | none => rw [hq] at hp; simp at hp
            | some p =>
              obtain ⟨ps, r3⟩ := p
              rw [hq] at hp
              simp only [Option.some.injEq, Prod.mk.injEq] at hp
              rw [← hp.1]
              exact wfJ_obj_of ps (hobj _ _ _ hq)
      · simp only [if_neg h2] at hp
        by_cases h4 : c = '['
        · simp only [if_pos h4] at hp
          cases hsw : skipWs rest with
          | nil => rw [hsw] at hp; simp at hp
          | cons c2 r2 =>
            rw [hsw] at hp
            by_cases h5 : c2 = ']'
            · simp only [if_pos h5, Option.some.injEq, Prod.mk.injEq] at hp
              rw [← hp.1]
              rfl
            · simp only [if_neg h5] at hp
              cases hq : arr (c2 :: r2) with
              | none => rw [hq] at hp; simp at hp
              | some p =>
                obtain ⟨vs, r3⟩ := p
                rw [hq] at hp
                simp only [Option.some.injEq, Prod.mk.injEq] at hp
                rw [← hp.1]
                show wfA vs = true
                exact (wfA_iff vs).mpr (harr _ _ _ hq)
        · simp only [if_neg h4] at hp
          by_cases h6 : isLit "null" (c :: rest) = true
          · simp only [if_pos h6] at hp
            simp only [Option.some.injEq, Prod.mk.injEq] at hp
            rw [← hp.1]
            rfl
          · simp only [if_neg h6] at hp
            by_cases h7 : isLit "true" (c :: rest) = true
            · simp only [if_pos h7] at hp
              simp only [Option.some.injEq, Prod.mk.injEq] at hp
              rw [← hp.1]
              rfl
            · simp only [if_neg h7] at hp
              by_cases h8 : isLit "false" (c :: rest) = true
              · simp only [if_pos h8] at hp
                simp only [Option.some.injEq, Prod.mk.injEq] at hp
                rw [← hp.1]
                rfl
              · simp only [if_neg h8] at hp
                cases hq : parseNum (c :: rest) with
                | some p =>
                  obtain ⟨lex, r2⟩ := p
                  rw [hq] at hp
                  simp only [Option.some.injEq, Prod.mk.injEq] at hp
                  rw [← hp.1]
                  show numCanon lex = true
                  simp only [numCanon, Bool.or_eq_true, decide_eq_true_eq]
                  exact Or.inl (Or.inl (Or.inl (parseNum_idem hq)))
                | none =>
                  rw [hq] at hp
                  by_cases h9 : isLit "NaN" (c :: rest) = true
                  · simp only [if_pos h9] at hp
                    simp only [Option.some.injEq, Prod.mk.injEq] at hp
                    rw [← hp.1]
                    rfl
                  · simp only [if_neg h9] at hp
                    by_cases h10 : isLit "Infinity" (c :: rest) = true
                    · simp only [if_pos h10] at hp
                      simp only [Option.some.injEq, Prod.mk.injEq] at hp
                      rw [← hp.1]
                      rfl
                    · simp only [if_neg h10] at hp
                      by_cases h11 : isLit "-Infinity" (c :: rest) = true
                      · simp only [if_pos h11] at hp
                        simp only [Option.some.injEq, Prod.mk.injEq] at hp
                        rw [← hp.1]
                        rfl
                      · simp only [if_neg h11] at hp
                        simp at hp

/-- Scanned members hold well-formed values. -/
theorem parseObjEntriesF_wf
    (str : List Char → Option (List Char × List Char))
    (val : List Char → Option (Json × List Char))
    (obj : List Char → Option (List (String × Json) × List Char))
    (hval : ∀ cs v2 r, val cs = some (v2, r) → wfJ v2 = true)
    (hobj : ∀ cs ps r, obj cs = some (ps, r) → ∀ p ∈ ps, wfJ p.2 = true) :
    ∀ cs ps r, parseObjEntriesF str val obj cs = some (ps, r) →
      ∀ p ∈ ps, wfJ p.2 = true := by
  intro cs ps r hp
  match cs with
  | [] => simp [parseObjEntriesF] at hp
  | c :: rest =>
    simp only [parseObjEntriesF] at hp
    by_cases h1 : c = '"'
    · simp only [if_pos h1] at hp
      cases hq : str rest with
      | none => rw [hq] at hp; simp at hp
      | some p =>
        obtain ⟨kc, r2⟩ := p
        rw [hq] at hp
        simp only [] at hp
        cases hsw : skipWs r2 with
        | nil => rw [hsw] at hp; simp at hp
        | cons c3 r3 =>
          rw [hsw] at hp
          by_cases h2 : c3 = ':'
          · simp only [if_pos h2] at hp
            cases hv : val (skipWs r3) with
            | none => rw [hv] at hp; simp at hp
            | some p =>
              obtain ⟨v2, r4⟩ := p
              rw [hv] at hp
              simp only [] at hp
              cases hsw2 : skipWs r4 with
              | nil => rw [hsw2] at hp; simp at hp
              | cons c5 r5 =>
                rw [hsw2] at hp
                by_cases h3 : c5 = ','
                · simp only [if_pos h3] at hp
                  cases hq2 : obj (skipWs r5) with
                  | none => rw [hq2] at hp; simp at hp
                  | some p =>
                    obtain ⟨ps2, r6⟩ := p
                    rw [hq2] at hp
                    simp only [Option.some.injEq, Prod.mk.injEq] at hp
                    rw [← hp.1]
                    intro p hp2
                    rcases List.mem_cons.mp hp2 with rfl | hp3
                    · exact hval _ _ _ hv
                    · exact hobj _ _ _ hq2 p hp3
                · simp only [if_neg h3] at hp
                  by_cases h4 : c5 = '}'
                  · simp only [if_pos h4] at hp
                    simp only [Option.some.injEq, Prod.mk.injEq] at hp
                    rw [← hp.1]
                    intro p hp2
                    rcases List.mem_singleton.mp hp2 with rfl
                    exact hval _ _ _ hv
                  · simp only [if_neg h4] at hp
                    simp at hp
          · simp only [if_neg h2] at hp
            simp at hp
    · simp only [if_neg h1] at hp
      simp at hp

/-- Scanned elements are well formed. -/
theorem parseArrEntriesF_wf
    (val : List Char → Option (Json × List Char))
    (arr : List Char → Option (List Json × List Char))
    (hval : ∀ cs v2 r, val cs = some (v2, r) → wfJ v2 = true)
    (harr : ∀ cs vs r, arr cs = some (vs, r) → ∀ v2 ∈ vs, wfJ v2 = true) :
    ∀ cs vs r, parseArrEntriesF val arr cs = some (vs, r) →
      ∀ v2 ∈ vs, wfJ v2 = true := by
  intro cs vs r hp
  simp only [parseArrEntriesF] at hp
  cases hv : val cs with
  | none => rw [hv] at hp; simp at hp
  | some p =>
    obtain ⟨v2, r2⟩ := p
    rw [hv] at hp
    simp only [] at hp
    cases hsw : skipWs r2 with
    | nil => rw [hsw] at hp; simp at hp
    | cons c2 r3 =>
      rw [hsw] at hp
      by_cases h1 : c2 = ','
      · simp only [if_pos h1] at hp
        cases hq : arr (skipWs r3) with
        | none => rw [hq] at hp; simp at hp
        | some p =>
          obtain ⟨vs2, r4⟩ := p
          rw [hq] at hp
          simp only [Option.some.injEq, Prod.mk.injEq] at hp
          rw [← hp.1]
          intro v3 hv3
          rcases List.mem_cons.mp hv3 with rfl | hv4
          · exact hval _ _ _ hv
          · exact harr _ _ _ hq v3 hv4
      · simp only [if_neg h1] at hp
        by_cases h2 : c2 = ']'
        · simp only [if_pos h2] at hp
          simp only [Option.some.injEq, Prod.mk.injEq] at hp
          rw [← hp.1]
          intro v3 hv3
          rcases List.mem_singleton.mp hv3 with rfl
          exact hval _ _ _ hv
        · simp only [if_neg h2] at hp
          simp at hp

/-- Everything the fuel-tied scanners return is well formed. -/
theorem parse_wf (f : Nat) :
    (∀ cs v r, parseVal f cs = some (v, r) → wfJ v = true) ∧
    (∀ cs ps r, parseObjEntries f cs = some (ps, r) →
      ∀ p ∈ ps, wfJ p.2 = true) ∧
    (∀ cs vs r, parseArrEntries f cs = some (vs, r) →
      ∀ v2 ∈ vs, wfJ v2 = true) := by
  induction f with
  | zero =>
    refine ⟨?_, ?_, ?_⟩ <;> intro cs x r hp
    · exact Option.noConfusion ((parseVal_zero cs).symm.trans hp)
    · exact Option.noConfusion ((parseObjEntries_zero cs).symm.trans hp)
    · exact Option.noConfusion ((parseArrEntries_zero cs).symm.trans hp)
  | succ g ih =>
    obtain ⟨ihV, ihO, ihA⟩ := ih
    refine ⟨?_, ?_, ?_⟩
    · intro cs v r hp
      rw [parseVal_succ] at hp
      exact parseValF_wf (parseStr g) (parseObjEntries g)
        (parseArrEntries g) ihO ihA cs v r hp
    · intro cs ps r hp
      rw [parseObjEntries_succ] at hp
      exact parseObjEntriesF_wf (parseStr g) (parseVal g)
        (parseObjEntries g) ihV ihO cs ps r hp
    · intro cs vs r hp
      rw [parseArrEntries_succ] at hp
      exact parseArrEntriesF_wf (parseVal g) (parseArrEntries g)
        ihV ihA cs vs r hp

/-- Anything `json.loads` returns is well formed. -/
theorem listParse_wf {cs : List Char} {v : Json}
    (h : listParse cs = some v) : wfJ v = true := by
  obtain ⟨rest, hp, _⟩ := listParse_inv h
  exact (parse_wf _).1 _ _ _ hp

/-- C6: For every extracted result mapping — one the
fence-stripping-then-parse step of extract_invoice_data actually
returned — serializing it as the pretty-printed invoice_data.json export
(json.dumps with indent 2, line 197) and re-parsing that text yields a
mapping equal key for key to the original in-memory result. -/
theorem export_json_roundtrip (content : String)
    (kvs : List (String × Json))
    (h : responseToResult content = some (Json.obj kvs)) :
    jsonLoads (pyDumps (Json.obj kvs)) = some (Json.obj kvs) := by
  have h2 : listParse (stripFence content.data) = some (Json.obj kvs) := h
  exact loads_dumps _ (listParse_wf h2)

/-- C6 witness: a response body with a number, null, a nested array, a
non-finite constant and an escaped string, through export and
re-parse. -/
theorem export_json_roundtrip_witness :
    responseToResult
      "\x7b\"a\": 1.5, \"b\": null, \"c\": [\"x\\n\", 2], \"d\": NaN\x7d" =
      some (Json.obj [("a", Json.num "1.5"), ("b", Json.null),
        ("c", Json.arr [Json.str "x\n", Json.num "2"]),
        ("d", Json.num "NaN")]) ∧
    jsonLoads (pyDumps (Json.obj [("a", Json.num "1.5"), ("b", Json.null),
        ("c", Json.arr [Json.str "x\n", Json.num "2"]),
        ("d", Json.num "NaN")])) =
      some (Json.obj [("a", Json.num "1.5"), ("b", Json.null),
        ("c", Json.arr [Json.str "x\n", Json.num "2"]),
        ("d", Json.num "NaN")]) :=
  ⟨rfl, export_json_roundtrip
    "\x7b\"a\": 1.5, \"b\": null, \"c\": [\"x\\n\", 2], \"d\": NaN\x7d"
    [("a", Json.num "1.5"), ("b", Json.null),
      ("c", Json.arr [Json.str "x\n", Json.num "2"]),
      ("d", Json.num "NaN")] rfl⟩

/-- The base64 alphabet of RFC 4648, as `base64.b64encode` uses it. -/
def b64Alphabet : List Char :=
  "ABCDEFGHIJKLMNOPQRSTUVWXYZabcdefghijklmnopqrstuvwxyz0123456789+/".data

/-- One output character of `base64.b64encode`. -/
def encChar (i : Nat) : Char := b64Alphabet.getD i 'A'

/-- One input character of `base64.b64decode`. -/
def decChar (c : Char) : Option Nat := b64Alphabet.indexOf? c

/-- `base64.b64encode` on a byte list: each 3-byte group becomes 4
characters, a trailing group of 1 or 2 bytes is padded with `=`. -/
def b64encode : List Nat → List Char
  | [] => []
  | [a] => [encChar (a / 4), encChar (a % 4 * 16), '=', '=']
  | [a, b] => [encChar (a / 4), encChar (a % 4 * 16 + b / 16),
      encChar (b % 16 * 4), '=']
  | a :: b :: c :: rest =>
    encChar (a / 4) :: encChar (a % 4 * 16 + b / 16) ::
      encChar (b % 16 * 4 + c / 64) :: encChar (c % 64) :: b64encode rest

/-- `base64.b64decode` on a character list: 4-character groups become 3
bytes, with `=` padding closing the input. -/
def b64decode : List Char → Option (List Nat)
  | [] => some []
  | c1 :: c2 :: c3 :: c4 :: rest =>
    match decChar c1, decChar c2 with
    | some v1, some v2 =>
      if c3 = '=' then
        if c4 = '=' ∧ rest = [] then some [v1 * 4 + v2 / 16] else none
      else
        match decChar c3 with
        | some v3 =>
          if c4 = '=' then
            if rest = [] then
              some [v1 * 4 + v2 / 16, v2 % 16 * 16 + v3 / 4]
            else none
          else
            match decChar c4, b64decode rest with
            | some v4, some tail =>
              some ((v1 * 4 + v2 / 16) :: (v2 % 16 * 16 + v3 / 4) ::
                ((v3 % 4 * 64 + v4) :: tail))
            | _, _ => none
        | none => none
    | _, _ => none
  | _ => none

/-- Decoding inverts encoding on one alphabet index. -/
theorem decChar_encChar : ∀ i, i < 64 → decChar (encChar i) = some i := by
  decide

/-- No alphabet character is the padding character. -/
theorem encChar_ne_pad : ∀ i, i < 64 → encChar i ≠ '=' := by decide

/-- `b64decode` undoes `b64encode` on any byte list. -/
theorem b64_roundtrip (n : Nat) : ∀ bs : List Nat, bs.length ≤ n →
    (∀ x ∈ bs, x < 256) → b64decode (b64encode bs) = some bs := by
  induction n with
  | zero =>
    intro bs hl _
    rw [List.length_eq_zero.mp (Nat.le_zero.mp hl)]
    rfl
  | succ m ih =>
    intro bs hl hx
    match bs with
    | [] => rfl
    | [a] =>
      have ha := hx a (by simp)
      show b64decode [encChar (a / 4), encChar (a % 4 * 16), '=', '='] = _
      simp only [b64decode]
      rw [decChar_encChar _ (by omega), decChar_encChar _ (by omega)]
      simp only []
      simp only [and_self, if_true]
      exact congrArg some (by
        have : a / 4 * 4 + (a % 4 * 16) / 16 = a := by omega
        rw [this])
    | [a, b] =>
      have ha := hx a (by simp)
      have hb := hx b (by simp)
      show b64decode [encChar (a / 4), encChar (a % 4 * 16 + b / 16),
        encChar (b % 16 * 4), '='] = _
      simp only [b64decode]
      rw [decChar_encChar _ (by omega), decChar_encChar _ (by omega)]
      simp only []
      rw [if_neg (encChar_ne_pad _ (by omega))]
      rw [decChar_encChar _ (by omega)]
      simp only []
      simp only [if_true]
      exact congrArg some (by
        have h1 : a / 4 * 4 + (a % 4 * 16 + b / 16) / 16 = a := by omega
        have h2 : (a % 4 * 16 + b / 16) % 16 * 16 + (b % 16 * 4) / 4 =
            b := by omega
        rw [h1, h2])
    | a :: b :: c :: rest =>
      have ha := hx a (by simp)
      have hb := hx b (by simp)
      have hc := hx c (by simp)
      show b64decode (encChar (a / 4) :: encChar (a % 4 * 16 + b / 16) ::
        encChar (b % 16 * 4 + c / 64) :: encChar (c % 64) ::
        b64encode rest) = _
      simp only [b64decode]
      rw [decChar_encChar _ (by omega), decChar_encChar _ (by omega)]
      simp only []
      rw [if_neg (encChar_ne_pad _ (by omega))]
      rw [decChar_encChar _ (by omega)]
      simp only []
      rw [if_neg (encChar_ne_pad _ (by omega))]
      rw [decChar_encChar _ (by omega)]
      have hrest : b64decode (b64encode rest) = some rest := by
        apply ih rest (by
          simp only [List.length_cons] at hl
          omega)
        intro x hx2
        exact hx x (by simp [hx2])
      rw [hrest]
      simp only []
      exact congrArg some (by
        have h1 : a / 4 * 4 + (a % 4 * 16 + b / 16) / 16 = a := by omega
        have h2 : (a % 4 * 16 + b / 16) % 16 * 16 +
            (b % 16 * 4 + c / 64) / 4 = b := by omega
        have h3 : (b % 16 * 4 + c / 64) % 4 * 64 + c % 64 = c := by omega
        rw [h1, h2, h3])

/-- Modelled from the spec: the decoded form of an uploaded image, as the
PIL layer the app relies on hands it over — dimensions and the flat pixel
byte sequence. -/
structure Bitmap where
  width : Nat
  height : Nat
  pixels : List Nat
deriving Repr, DecidableEq

/-- Big-endian 4-byte encoding of a 32-bit length field. -/
def be32 (n : Nat) : List Nat :=
  [n / 16777216 % 256, n / 65536 % 256, n / 256 % 256, n % 256]

/-- Modelled from the spec: the PNG signature bytes. -/
def pngMagic : List Nat := [137, 80, 78, 71, 13, 10, 26, 10]

/-- Modelled from the spec: `image.save(buffered, format="PNG")` — a
lossless container for the bitmap: signature, big-endian dimensions,
then the raw pixel bytes. -/
def pngEncode (bmp : Bitmap) : List Nat :=
  pngMagic ++ be32 bmp.width ++ be32 bmp.height ++ bmp.pixels

/-- Modelled from the spec: the matching lossless PNG read-back, with
validation of the signature and of the pixel payload length. -/
def pngDecode : List Nat → Option Bitmap
  | m1 :: m2 :: m3 :: m4 :: m5 :: m6 :: m7 :: m8 ::
      w1 :: w2 :: w3 :: w4 :: h1 :: h2 :: h3 :: h4 :: px =>
    if [m1, m2, m3, m4, m5, m6, m7, m8] = pngMagic then
      let w := w1 * 16777216 + w2 * 65536 + w3 * 256 + w4
      let h := h1 * 16777216 + h2 * 65536 + h3 * 256 + h4
      if px.length = w * h then some ⟨w, h, px⟩ else none
    else none
  | _ => none

/-- Lines 17-21: `encode_image` saves the (decoded) image as PNG into a
buffer and base64-encodes the bytes into an ASCII string. -/
def encode_image (image : Bitmap) : String :=
  String.mk (b64encode (pngEncode image))

/-- The PNG read-back undoes the PNG save on any in-range bitmap. -/
theorem pngDecode_pngEncode (bmp : Bitmap)
    (hw : bmp.width < 4294967296) (hh : bmp.height < 4294967296)
    (hlen : bmp.pixels.length = bmp.width * bmp.height) :
    pngDecode (pngEncode bmp) = some bmp := by
  obtain ⟨w, h, px⟩ := bmp
  have hw2 : w < 4294967296 := hw
  have hh2 : h < 4294967296 := hh
  have hlen2 : px.length = w * h := hlen
  show pngDecode (137 :: 80 :: 78 :: 71 :: 13 :: 10 :: 26 :: 10 ::
    (w / 16777216 % 256) :: (w / 65536 % 256) :: (w / 256 % 256) ::
    (w % 256) :: (h / 16777216 % 256) :: (h / 65536 % 256) ::
    (h / 256 % 256) :: (h % 256) :: px) = some ⟨w, h, px⟩
  simp only [pngDecode]
  rw [if_pos (show ([137, 80, 78, 71, 13, 10, 26, 10] : List Nat) =
    pngMagic from rfl)]
  have hwc : w / 16777216 % 256 * 16777216 + w / 65536 % 256 * 65536 +
      w / 256 % 256 * 256 + w % 256 = w := by omega
  have hhc : h / 16777216 % 256 * 16777216 + h / 65536 % 256 * 65536 +
      h / 256 % 256 * 256 + h % 256 = h := by omega
  simp only [hwc, hhc]
  rw [if_pos (show px.length = w * h from hlen2)]

/-- C9: For every uploaded image as decoded to a bitmap, the intake
transform of encode_image (lines 17-21) — save as PNG, base64-encode —
inverts exactly: base64-decoding the produced string and reading the PNG
back recovers a bitmap identical in pixels (and dimensions) to the
decoded original, independently of the external call. -/
theorem image_intake_roundtrip (bmp : Bitmap)
    (hw : bmp.width < 4294967296) (hh : bmp.height < 4294967296)
    (hlen : bmp.pixels.length = bmp.width * bmp.height)
    (hpx : ∀ x ∈ bmp.pixels, x < 256) :
    (b64decode (encode_image bmp).data).bind pngDecode = some bmp := by
  have hdata : (encode_image bmp).data = b64encode (pngEncode bmp) := rfl
  rw [hdata]
  have hbytes : ∀ x ∈ pngEncode bmp, x < 256 := by
    intro x hx
    simp only [pngEncode, List.mem_append] at hx
    rcases hx with ((hm | hw4) | hh4) | hpx2
    · simp only [pngMagic, List.mem_cons, List.not_mem_nil,
        or_false] at hm
      rcases hm with rfl | rfl | rfl | rfl | rfl | rfl | rfl | rfl <;>
        omega
    · simp only [be32, List.mem_cons, List.not_mem_nil, or_false] at hw4
      rcases hw4 with rfl | rfl | rfl | rfl <;> omega
    · simp only [be32, List.mem_cons, List.not_mem_nil, or_false] at hh4
      rcases hh4 with rfl | rfl | rfl | rfl <;> omega
    · exact hpx x hpx2
  rw [b64_roundtrip (pngEncode bmp).length (pngEncode bmp)
    (Nat.le_refl _) hbytes]
  show pngDecode (pngEncode bmp) = some bmp
  exact pngDecode_pngEncode bmp hw hh hlen

/-- C9 witness: a 2-by-1 bitmap through the whole intake transform. -/
theorem image_intake_roundtrip_witness :
    ((⟨2, 1, [7, 255]⟩ : Bitmap).width < 4294967296 ∧
      (⟨2, 1, [7, 255]⟩ : Bitmap).height < 4294967296 ∧
      (⟨2, 1, [7, 255]⟩ : Bitmap).pixels.length =
        (⟨2, 1, [7, 255]⟩ : Bitmap).width *
          (⟨2, 1, [7, 255]⟩ : Bitmap).height ∧
      (∀ x ∈ (⟨2, 1, [7, 255]⟩ : Bitmap).pixels, x < 256)) ∧
    (b64decode (encode_image ⟨2, 1, [7, 255]⟩).data).bind pngDecode =
      some ⟨2, 1, [7, 255]⟩ :=
  ⟨⟨by decide, by decide, by decide, by decide⟩,
    image_intake_roundtrip ⟨2, 1, [7, 255]⟩ (by decide) (by decide)
      (by decide) (by decide)⟩
